import Mathlib

/-!
# The weibo archiver: incremental archival engine

A shallow embedding of `cmd/weibo-archiver/main.go` and theorems about it.

## Strings and numbers

Go strings are byte sequences.  The archiver only ever looks for the ASCII
bytes `|` and line-feed in them, and an ASCII byte never occurs inside a
multi-byte UTF-8 sequence, so a string is modelled as a list of characters.
The id of a record is an `int64`; it is an integer here, and a statement that
needs the range says so.  The counters of a `Stat` count records of a slice and
are natural numbers.

## What is outside `main.go`

The standard library and the remote client are external to `main.go`.  Pure
string, number and path helpers (`strings.Split`, `strings.SplitN`,
`strings.Join`, `strings.ReplaceAll`, `strconv.FormatInt`, `strconv.ParseInt`,
`filepath.Join`) are modelled by what they compute.  The remote fetcher, the
time library, `sort.Slice`, the order in which `range` visits a Go map, and
the faults the operating system may answer a call with are fields of an
environment `Env`; what the theorems assume of them is `Env.Sound`.  The
record type `weibo.Mblog` and its method `TheText` live in the library package
and are modelled from the specification.

## State

`main.go` reads and writes the file system, appends to `stats` and logs.  The
file system is a map from cleaned paths to directories and files, passed
through the calls; `os.Stat`, `os.MkdirAll`, `os.ReadFile` and `os.WriteFile`
are functions on it, and a call that fails leaves it unchanged.  What
`log.Printf` is called with is kept as a list of events, so that "no call
failed" can be read off a run.  `loadConfig` is not modelled: `main` takes the
configuration as an argument.
-/

namespace Archiver

/-- A Go string. -/
abbrev Str := List Char

/-! ## strings -/

/-- Model of `strings.Split(s, sep)` for a one-byte separator: cut at every
occurrence of `sep`; the result always has at least one piece. -/
def stringsSplit (sep : Char) : Str → List Str
  | [] => [[]]
  | c :: cs =>
    if c = sep then [] :: stringsSplit sep cs
    else
      match stringsSplit sep cs with
      | [] => [[c]]
      | p :: ps => (c :: p) :: ps

/-- Model of `strings.SplitN(s, sep, n)` for a one-byte separator and `n ≥ 0`:
at most `n` pieces, cut from the left, the last piece being the unsplit
remainder. -/
def stringsSplitN (sep : Char) : Nat → Str → List Str
  | 0, _ => []
  | 1, s => [s]
  | _ + 2, [] => [[]]
  | n + 2, c :: cs =>
    if c = sep then [] :: stringsSplitN sep (n + 1) cs
    else
      match stringsSplitN sep (n + 2) cs with
      | [] => [[c]]
      | p :: ps => (c :: p) :: ps

/-- Model of `strings.Join(elems, sep)` for a one-byte separator. -/
def stringsJoin (sep : Char) : List Str → Str
  | [] => []
  | [s] => s
  | s :: t :: rest => s ++ sep :: stringsJoin sep (t :: rest)

/-- The source's `strip`: `strings.ReplaceAll(text, "\n", "\\n")`, every
line-feed becomes the two characters backslash and `n`. -/
def strip : Str → Str
  | [] => []
  | c :: cs => if c = '\n' then '\\' :: 'n' :: strip cs else c :: strip cs

/-! ## strconv -/

/-- The decimal digit character of `d < 10`. -/
def digitChar (d : Nat) : Char := Char.ofNat (48 + d)

/-- The value of a decimal digit character, `none` for any other character. -/
def digitVal (c : Char) : Option Nat :=
  if 48 ≤ c.toNat ∧ c.toNat ≤ 57 then some (c.toNat - 48) else none

/-- Decimal digits of `n`, most significant first, pushed in front of `acc`;
`fuel` bounds the number of digits. -/
def formatUintAux : Nat → Nat → Str → Str
  | 0, _, acc => acc
  | fuel + 1, n, acc =>
    if n < 10 then digitChar n :: acc
    else formatUintAux fuel (n / 10) (digitChar (n % 10) :: acc)

/-- Decimal rendering of a natural number, no leading zeros. -/
def formatUint (n : Nat) : Str := formatUintAux (n + 1) n []

/-- Model of `strconv.FormatInt(i, 10)`. -/
def FormatInt (i : Int) : Str :=
  if i < 0 then '-' :: formatUint i.natAbs else formatUint i.natAbs

/-- Outcome of `strconv.ParseUint(s, 10, 64)`. -/
inductive UintResult
  | ok (n : Nat)
  | syntaxErr
  | rangeErr
deriving DecidableEq, Repr

/-- The digit loop of `strconv.ParseUint(s, 10, 64)`: a character that is not
a decimal digit is a syntax error, and the loop stops with a range error as
soon as the accumulated value leaves 64 bits. -/
def parseUintLoop : Nat → Str → UintResult
  | n, [] => .ok n
  | n, c :: cs =>
    match digitVal c with
    | none => .syntaxErr
    | some d => if 2 ^ 64 ≤ n * 10 + d then .rangeErr else parseUintLoop (n * 10 + d) cs

/-- Model of `strconv.ParseUint(s, 10, 64)`. -/
def ParseUint (s : Str) : UintResult :=
  match s with
  | [] => .syntaxErr
  | _ => parseUintLoop 0 s

/-- Model of the value returned by `strconv.ParseInt(s, 10, 64)`; the error is
dropped, as `load` drops it.  A syntax error yields `0`, a value out of range
yields the nearest bound of the signed 64-bit range. -/
def ParseInt (s : Str) : Int :=
  match s with
  | [] => 0
  | c :: cs =>
    let neg := c = '-'
    let body := if c = '+' ∨ c = '-' then cs else s
    match ParseUint body with
    | .syntaxErr => 0
    | .rangeErr => if neg then -(2 ^ 63) else 2 ^ 63 - 1
    | .ok un =>
      if ¬ neg ∧ 2 ^ 63 ≤ un then 2 ^ 63 - 1
      else if neg ∧ 2 ^ 63 < un then -(2 ^ 63)
      else if neg then -(un : Int) else (un : Int)

/-! ## path/filepath -/

/-- One step of `filepath.Clean` over the path elements, `stack` holding the
elements kept so far, last one first: empty and `.` elements are dropped, `..`
removes the element before it when there is one to remove, is dropped at the
root, and is kept otherwise. -/
def cleanStep (rooted : Bool) (stack : List Str) (comp : Str) : List Str :=
  if comp = [] ∨ comp = ['.'] then stack
  else if comp = ['.', '.'] then
    match stack with
    | top :: rest => if top = ['.', '.'] then comp :: stack else rest
    | [] => if rooted then [] else [comp]
  else comp :: stack

/-- Model of `filepath.Clean` on a slash-separated path. -/
def filepathClean (path : Str) : Str :=
  match path with
  | [] => ['.']
  | c :: _ =>
    let rooted : Bool := c = '/'
    let stack := (stringsSplit '/' path).foldl (cleanStep rooted) []
    if rooted then '/' :: stringsJoin '/' stack.reverse
    else if stack = [] then ['.'] else stringsJoin '/' stack.reverse

/-- Model of `filepath.Join(a, b)`: leading empty elements are ignored, the
rest is joined with a slash and cleaned. -/
def filepathJoin (a b : Str) : Str :=
  if a ≠ [] then filepathClean (a ++ '/' :: b)
  else if b ≠ [] then filepathClean b
  else []

/-- The directories a path lies under, outermost first; the root and the
working directory are not listed, they always exist. -/
def parentDirs (p : Str) : List Str :=
  let comps := stringsSplit '/' p
  (((List.range comps.length).drop 1).map (fun k => stringsJoin '/' (comps.take k))).filter
    (fun q => q ≠ [])

/-! ## The record type -/

/-- Modelled from the spec: the record type `weibo.Mblog` is declared in the
library package, which is not among the source files.  `CreatedAt`, `ID`,
`MblogID` and `TextRaw` are the four fields `load` and `save` read and write;
`Derived` stands for the derived text the library may hold beyond `TextRaw`,
`none` being its zero value, which is what `load` leaves it at. -/
structure Mblog where
  CreatedAt : Str
  ID : Int
  MblogID : Str
  TextRaw : Str
  Derived : Option Str
deriving DecidableEq

/-- Modelled from the spec: the method `TheText` of `weibo.Mblog` is not among
the source files.  It is "a derived canonical textual rendering"; on a
reloaded record, whose derived fields are at their zero value, it returns the
raw-text slot verbatim. -/
def Mblog.TheText (m : Mblog) : Str :=
  match m.Derived with
  | some t => t
  | none => m.TextRaw

/-- A parsed `time.Time`: the instant, in nanoseconds since the Unix epoch, and
the offset of its location in seconds east of UTC. -/
structure Time where
  instant : Int
  offset : Int
deriving DecidableEq

/-- The `Stat` block of one account.  The source's field `Mblogs` is never
read or written and is left out. -/
structure Stat where
  Userid : Str
  Fetched : Nat
  Skipped : Nat
  Failed : Nat
  Archived : Nat
deriving DecidableEq

/-- The configuration read from `config.json`. -/
structure Config where
  Cookie : Str
  Userids : List Str
  Destination : Str

/-- What `log.Printf` is called with. -/
inductive Event
  | statFailed (userid dir : Str)
  | notDirectory (userid dir : Str)
  | getPageFailed (userid : Str) (page : Nat)
  | fetchedPage (count : Nat) (userid : Str) (page : Nat)
  | getFailed (userid : Str)
  | mkdirFailed (userid dir : Str)
  | parseFailed (createdAt : Str)
  | loadFailed (file : Str)
  | saveFailed (file : Str)
deriving DecidableEq

/-! ## The environment -/

/-- Everything `main.go` calls that is not its own code.

* `fetch userid page` is `client.GetMblogs(userid, page, true)`, `none` for an
  error.
* `parseTime s` is `time.ParseInLocation(time.RubyDate, s, time.Local)`,
  `none` for an error; `formatMonth d` is `d.Format("2006-01")`.
* `sortSlice less l` is `sort.Slice` applied to `l` with comparison `less`.
* `rangeOrder` is the order in which `range` visits the entries of a map.
* `statFault`, `readFault`, `writeFault`, `mkdirFault` tell for which paths the
  operating system refuses the call for a reason of its own (permissions,
  I/O error). -/
structure Env where
  fetch : Str → Nat → Option (List Mblog)
  parseTime : Str → Option Time
  formatMonth : Time → Str
  sortSlice : (Mblog → Mblog → Bool) → List Mblog → List Mblog
  rangeOrder : List (Str × List Mblog) → List (Str × List Mblog)
  statFault : Str → Bool
  readFault : Str → Bool
  writeFault : Str → Bool
  mkdirFault : Str → Bool

/-! ## The file system -/

/-- What a path names. -/
inductive Node
  | dir
  | file (content : Str)
deriving DecidableEq

/-- A file system: what each cleaned path names, if anything. -/
abbrev FS := Str → Option Node

/-- Does `p` lie under a path that names a regular file. -/
def underFile (fs : FS) (p : Str) : Bool :=
  (parentDirs p).any (fun q => match fs q with
    | some (.file _) => true
    | _ => false)

/-- Outcome of `os.Stat`. -/
inductive StatResult
  | notExist
  | failed
  | found (isDir : Bool)
deriving DecidableEq

/-- Model of `os.Stat`. -/
def osStat (E : Env) (fs : FS) (p : Str) : StatResult :=
  if E.statFault p ∨ underFile fs p then .failed
  else
    match fs p with
    | none => .notExist
    | some .dir => .found true
    | some (.file _) => .found false

/-- Model of `os.MkdirAll`, `none` for an error: nothing to do when the path
is a directory already; otherwise the path and the missing directories above
it are created, unless something is in the way.  A failure leaves the file
system as it was. -/
def osMkdirAll (E : Env) (fs : FS) (p : Str) : Option FS :=
  match osStat E fs p with
  | .found true => some fs
  | .found false => none
  | _ =>
    if E.mkdirFault p ∨ underFile fs p ∨ fs p ≠ none then none
    else some (fun q => if q = p ∨ (q ∈ parentDirs p ∧ fs q = none) then some .dir else fs q)

/-- Outcome of `os.ReadFile`. -/
inductive ReadResult
  | notExist
  | failed
  | ok (content : Str)
deriving DecidableEq

/-- Model of `os.ReadFile`. -/
def osReadFile (E : Env) (fs : FS) (p : Str) : ReadResult :=
  if E.readFault p ∨ underFile fs p then .failed
  else
    match fs p with
    | none => .notExist
    | some .dir => .failed
    | some (.file c) => .ok c

/-- Model of `os.WriteFile`, `none` for an error: the file is created or
replaced when every directory above it exists and the path is not a
directory.  A failure leaves the file system as it was. -/
def osWriteFile (E : Env) (fs : FS) (p : Str) (content : Str) : Option FS :=
  if E.writeFault p ∨ fs p = some .dir ∨ ¬ (∀ q ∈ parentDirs p, fs q = some .dir) then none
  else some (fun q => if q = p then some (.file content) else fs q)

/-! ## `main.go` -/

/-- The source's `strip` applied to `TheText()`: the key of the dedup test and
the text field of a line. -/
def Mblog.key (m : Mblog) : Str := strip m.TheText

/-- The loop of `get`: the pages in ascending order; the first
page that fails ends the loop with an error (`none`) and drops what the
earlier pages returned.  The second component is what was logged, one event
for each call of the fetcher. -/
def getLoop (E : Env) (userid : Str) : List Nat → List Mblog → List Event →
    Option (List Mblog) × List Event
  | [], mblogs, log => (some mblogs, log)
  | page :: rest, mblogs, log =>
    match E.fetch userid page with
    | none => (none, log ++ [.getPageFailed userid page])
    | some ms => getLoop E userid rest (mblogs ++ ms) (log ++ [.fetchedPage ms.length userid page])

/-- The source's `get`: the records of pages `1..pageCount`, or an error, and
what was logged. -/
def get (E : Env) (userid : Str) (pageCount : Nat) : Option (List Mblog) × List Event :=
  getLoop E userid (List.range' 1 pageCount) [] []

/-- The body of the loop of `load`: one line of a month file; an empty line
and a line that does not split into four fields give no record. -/
def parseLine (line : Str) : Option Mblog :=
  if line = [] then none
  else
    match stringsSplitN '|' 4 line with
    | [f0, f1, f2, f3] =>
      some { CreatedAt := f0, ID := ParseInt f1, MblogID := f2, TextRaw := f3, Derived := none }
    | _ => none

/-- The records `load` reads out of the bytes of a month file. -/
def parseFile (b : Str) : List Mblog := (stringsSplit '\n' b).filterMap parseLine

/-- The source's `load`, `none` for an error: a missing file is an empty list. -/
def load (E : Env) (fs : FS) (file : Str) : Option (List Mblog) :=
  match osReadFile E fs file with
  | .notExist => some []
  | .failed => none
  | .ok b => some (parseFile b)

/-- The comparison `save` hands to `sort.Slice`: by id as soon as one of the
two timestamps fails to parse, by instant otherwise. -/
def less (E : Env) (mi mj : Mblog) : Bool :=
  match E.parseTime mi.CreatedAt, E.parseTime mj.CreatedAt with
  | some di, some dj => decide (di.instant < dj.instant)
  | _, _ => decide (mi.ID < mj.ID)

/-- The line `save` renders for a record. -/
def renderLine (m : Mblog) : Str :=
  stringsJoin '|' [m.CreatedAt, FormatInt m.ID, m.MblogID, strip m.TheText]

/-- The records in the order `save` writes them. -/
def writeOrder (E : Env) (mblogs : List Mblog) : List Mblog := E.sortSlice (less E) mblogs

/-- The lines `save` writes. -/
def savedLines (E : Env) (mblogs : List Mblog) : List Str := (writeOrder E mblogs).map renderLine

/-- The source's `save`, `none` for an error. -/
def save (E : Env) (fs : FS) (file : Str) (mblogs : List Mblog) : Option FS :=
  osWriteFile E fs file (stringsJoin '\n' (savedLines E mblogs))

/-- The source's `has`. -/
def has : List Mblog → Mblog → Bool
  | [], _ => false
  | m :: rest, mblog => if strip m.TheText = strip mblog.TheText then true else has rest mblog

/-- The source's `groupByMonth[date] = append(groupByMonth[date], mblog)`, the
map being a list of entries in the order their keys were first seen. -/
def addToGroup (date : Str) (mblog : Mblog) : List (Str × List Mblog) → List (Str × List Mblog)
  | [] => [(date, [mblog])]
  | (d, ms) :: rest =>
    if d = date then (d, ms ++ [mblog]) :: rest else (d, ms) :: addToGroup date mblog rest

/-- State of the grouping loop: the map, `stat.Failed`, and the log. -/
structure Grouping where
  groups : List (Str × List Mblog)
  failed : Nat
  log : List Event

/-- One turn of the grouping loop (lines 91-100). -/
def groupStep (E : Env) (g : Grouping) (mblog : Mblog) : Grouping :=
  match E.parseTime mblog.CreatedAt with
  | none => { g with failed := g.failed + 1, log := g.log ++ [.parseFailed mblog.CreatedAt] }
  | some d => { g with groups := addToGroup (E.formatMonth d) mblog g.groups }

/-- The grouping loop. -/
def groupByMonth (E : Env) (mblogs : List Mblog) : Grouping :=
  mblogs.foldl (groupStep E) { groups := [], failed := 0, log := [] }

/-- State of the dedup loop: `_mblogs`, `skipped`, `archived`. -/
structure Merge where
  mblogs : List Mblog
  skipped : Nat
  archived : Nat

/-- One turn of the dedup loop (lines 112-119). -/
def mergeStep (s : Merge) (mblog : Mblog) : Merge :=
  if has s.mblogs mblog then { s with skipped := s.skipped + 1 }
  else { s with mblogs := s.mblogs ++ [mblog], archived := s.archived + 1 }

/-- The dedup loop from a given state. -/
def mergeFrom (s : Merge) (incoming : List Mblog) : Merge := incoming.foldl mergeStep s

/-- The dedup loop over one month group, starting from the loaded records. -/
def merge (loaded incoming : List Mblog) : Merge :=
  mergeFrom { mblogs := loaded, skipped := 0, archived := 0 } incoming

/-- State while the month groups of one account are processed. -/
structure Progress where
  fs : FS
  stat : Stat
  log : List Event

/-- The path of a month file: `filepath.Join(dir, date+".txt")`. -/
def monthFile (dir date : Str) : Str := filepathJoin dir (date ++ ".txt".toList)

/-- The body of the loop over the month groups (lines 102-130). -/
def processGroup (E : Env) (dir : Str) (p : Progress) (g : Str × List Mblog) : Progress :=
  let file := monthFile dir g.1
  match load E p.fs file with
  | none =>
    { p with stat := { p.stat with Failed := p.stat.Failed + g.2.length },
             log := p.log ++ [.loadFailed file] }
  | some loaded =>
    let m := merge loaded g.2
    if 0 < m.archived then
      match save E p.fs file m.mblogs with
      | none =>
        { p with stat := { p.stat with Failed := p.stat.Failed + g.2.length },
                 log := p.log ++ [.saveFailed file] }
      | some fs =>
        { p with fs := fs,
                 stat := { p.stat with Skipped := p.stat.Skipped + m.skipped,
                                       Archived := p.stat.Archived + m.archived } }
    else
      { p with stat := { p.stat with Skipped := p.stat.Skipped + m.skipped,
                                     Archived := p.stat.Archived + m.archived } }

/-- What processing one account leaves behind: the file system, the `Stat`
appended to `stats` if the account got that far, and what was logged. -/
structure UserResult where
  fs : FS
  stat : Option Stat
  log : List Event

/-- The page count of the planner (lines 55-68): `2` when the directory does
not exist, `1` when it is a directory, and no fetch at all (`none`) when the
stat fails otherwise or the path is not a directory. -/
def pageCount : StatResult → Option Nat
  | .notExist => some 2
  | .found true => some 1
  | .found false => none
  | .failed => none

/-- Lines 84-130: the `Stat` block of the account, the grouping loop and the
loop over the month groups, once the records are fetched and the directory is
there. -/
def archiveFetched (E : Env) (dir userid : Str) (fs : FS) (mblogs : List Mblog)
    (glog : List Event) : Progress :=
  let g := groupByMonth E mblogs
  let stat : Stat :=
    { Userid := userid, Fetched := mblogs.length, Skipped := 0, Failed := g.failed, Archived := 0 }
  (E.rangeOrder g.groups).foldl (processGroup E dir)
    { fs := fs, stat := stat, log := glog ++ g.log }

/-- The body of the loop over the accounts (lines 55-131). -/
def archiveUser (E : Env) (dest : Str) (fs : FS) (userid : Str) : UserResult :=
  let dir := filepathJoin dest userid
  match pageCount (osStat E fs dir) with
  | none =>
    { fs := fs, stat := none,
      log := [if osStat E fs dir = .failed then .statFailed userid dir
              else .notDirectory userid dir] }
  | some n =>
    match get E userid n with
    | (none, glog) => { fs := fs, stat := none, log := glog ++ [.getFailed userid] }
    | (some mblogs, glog) =>
      match osMkdirAll E fs dir with
      | none => { fs := fs, stat := none, log := glog ++ [.mkdirFailed userid dir] }
      | some fs1 =>
        let p := archiveFetched E dir userid fs1 mblogs glog
        { fs := p.fs, stat := some p.stat, log := p.log }

/-- State of a run: the file system, `stats`, and the log. -/
structure World where
  fs : FS
  stats : List Stat
  log : List Event

/-- One turn of the loop over the accounts. -/
def processUser (E : Env) (dest : Str) (w : World) (userid : Str) : World :=
  let r := archiveUser E dest w.fs userid
  { fs := r.fs, stats := w.stats ++ r.stat.toList, log := w.log ++ r.log }

/-- The archive root: `Destination`, or `data` when that is empty (lines 39-41). -/
def Config.dest (config : Config) : Str :=
  if config.Destination = [] then "data".toList else config.Destination

/-- The source's `main` once the configuration is loaded, `none` when it ends
in `log.Fatal`.  The summary lines it prints last are the entries of `stats`.
The file system is keyed by cleaned paths, and the operating system resolves
the path it is handed, so `os.MkdirAll(config.Destination, 0755)` acts on the
cleaned `Destination`: the path `filepath.Join` builds every account directory
under. -/
def main (E : Env) (config : Config) (fs : FS) : Option World :=
  match osMkdirAll E fs (filepathClean config.dest) with
  | none => none
  | some fs0 =>
    some (config.Userids.foldl (processUser E config.dest) { fs := fs0, stats := [], log := [] })

/-! ## A concrete environment

`sort.Slice` runs an insertion sort on a slice of at most twelve elements; the
sample environment sorts that way.  Its clock knows a handful of timestamps in
the `time.RubyDate` layout, with the instant, the offset and the month
`time.ParseInLocation` and `Format("2006-01")` give for them. -/

/-- Insert `x` into `rev`, the already sorted elements last one first, the way
Go's `insertionSortLessFunc` moves an element towards the front: past every
element it is `less` than, up to the first one it is not. -/
def insertBack (less : Mblog → Mblog → Bool) (x : Mblog) : List Mblog → List Mblog
  | [] => [x]
  | y :: rev => if less x y then y :: insertBack less x rev else x :: y :: rev

/-- Model of Go's `insertionSortLessFunc`. -/
def insertionSort (less : Mblog → Mblog → Bool) (l : List Mblog) : List Mblog :=
  (l.foldl (fun rev x => insertBack less x rev) []).reverse

/-- Timestamps the sample clock knows: text, parsed time, month. -/
def sampleClock : List (Str × Time × Str) :=
  [ ("Mon Jan 02 15:04:05 +0800 2023".toList, ⟨1672643045000000000, 28800⟩, "2023-01".toList),
    ("Tue Jan 03 10:00:00 +0800 2023".toList, ⟨1672711200000000000, 28800⟩, "2023-01".toList),
    ("Tue Jan 31 23:00:00 +0800 2023".toList, ⟨1675177200000000000, 28800⟩, "2023-01".toList),
    ("Wed Feb 01 01:00:00 +0800 2023".toList, ⟨1675184400000000000, 28800⟩, "2023-02".toList) ]

/-- The sample clock as `time.ParseInLocation`. -/
def sampleParse (s : Str) : Option Time := (sampleClock.find? (fun e => e.1 = s)).map (fun e => e.2.1)

/-- The sample clock as `Format("2006-01")`. -/
def sampleMonth (d : Time) : Str :=
  match sampleClock.find? (fun e => e.2.1 = d) with
  | some e => e.2.2
  | none => []

/-- The sample environment around a given fetcher: no file-system faults, map
entries visited in insertion order. -/
def sampleEnv (fetch : Str → Nat → Option (List Mblog)) : Env :=
  { fetch := fetch
    parseTime := sampleParse
    formatMonth := sampleMonth
    sortSlice := insertionSort
    rangeOrder := fun m => m
    statFault := fun _ => false
    readFault := fun _ => false
    writeFault := fun _ => false
    mkdirFault := fun _ => false }

/-- A file system with nothing in it. -/
def emptyFS : FS := fun _ => none

/-! ## Vocabulary of the statements -/

/-- Neither a pipe nor a line-feed occurs in `s`. -/
def plain (s : Str) : Prop := '|' ∉ s ∧ '\n' ∉ s

instance (s : Str) : Decidable (plain s) := by unfold plain; infer_instance

/-- The record `load` reads back from the line `save` renders for `m`, when
the line splits the way it was joined. -/
def reload (m : Mblog) : Mblog :=
  { CreatedAt := m.CreatedAt, ID := ParseInt (FormatInt m.ID), MblogID := m.MblogID,
    TextRaw := strip m.TheText, Derived := none }

/-- The comparison `less` describes a transitive ordering of the elements of
`l`, as `sort.Interface` asks of it. -/
structure OrdersList (less : Mblog → Mblog → Bool) (l : List Mblog) : Prop where
  irrefl : ∀ a ∈ l, less a a = false
  trans : ∀ a ∈ l, ∀ b ∈ l, ∀ c ∈ l, less a b = true → less b c = true → less a c = true
  negTrans : ∀ a ∈ l, ∀ b ∈ l, ∀ c ∈ l, less a b = false → less b c = false → less a c = false

/-- The contract of `sort.Slice`: the result is a rearrangement of the slice,
and it is in order whenever the comparison describes a transitive ordering of
its elements. -/
structure SortContract (sort : (Mblog → Mblog → Bool) → List Mblog → List Mblog) : Prop where
  perm : ∀ less l, (sort less l).Perm l
  sorted : ∀ less l, OrdersList less l → (sort less l).Pairwise (fun a b => less b a = false)

/-- What is assumed of an environment: `sort.Slice` keeps its contract, `range`
visits every entry of a map once, and a timestamp that parses contains neither
a pipe nor a line-feed. -/
structure Env.Sound (E : Env) : Prop where
  sort : SortContract E.sortSlice
  range : ∀ m, (E.rangeOrder m).Perm m
  parse : ∀ s d, E.parseTime s = some d → plain s

/-- The month a record is grouped under, `none` when its timestamp does not
parse. -/
def monthOf (E : Env) (m : Mblog) : Option Str := (E.parseTime m.CreatedAt).map E.formatMonth

/-- The comparison rule read on two written lines, `a` before `b`: when both
timestamps parse, `a` is not after `b`; when either fails to parse, the id of
`a` is not greater than the id of `b`. -/
def inOrder (E : Env) (a b : Mblog) : Prop :=
  match E.parseTime a.CreatedAt, E.parseTime b.CreatedAt with
  | some da, some db => da.instant ≤ db.instant
  | _, _ => a.ID ≤ b.ID

instance (E : Env) (a b : Mblog) : Decidable (inOrder E a b) := by
  unfold inOrder; split <;> infer_instance

/-- The state of the grouping loop after the records `ms`. -/
structure Grouped (E : Env) (ms : List Mblog) (g : Grouping) : Prop where
  nodup : (g.groups.map Prod.fst).Nodup
  group : ∀ d l, (d, l) ∈ g.groups → l = ms.filter (fun m => monthOf E m = some d) ∧ l ≠ []
  key : ∀ m ∈ ms, ∀ d, monthOf E m = some d → d ∈ g.groups.map Prod.fst
  failed : g.failed = (ms.filter (fun m => E.parseTime m.CreatedAt = none)).length
  total : (g.groups.map (fun e => e.2.length)).sum + g.failed = ms.length

/-- A failure of a file-system call, as logged. -/
def Event.isFileFailure : Event → Bool
  | .statFailed _ _ => true
  | .mkdirFailed _ _ => true
  | .loadFailed _ => true
  | .saveFailed _ => true
  | _ => false

/-- A failure of the fetcher, as logged. -/
def Event.isFetchFailure : Event → Bool
  | .getPageFailed _ _ => true
  | .getFailed _ => true
  | _ => false

/-- The path `file` names a regular file one of whose records has the key `k`. -/
def HasKey (fs : FS) (file : Str) (k : Str) : Prop :=
  ∃ c, fs file = some (.file c) ∧ k ∈ (parseFile c).map Mblog.key

/-- The number of records of a batch whose timestamp does not parse. -/
def unparsed (E : Env) (ms : List Mblog) : Nat :=
  (ms.filter (fun m => E.parseTime m.CreatedAt = none)).length

/-- The archive holds what a run over account `userid` that finds its directory
would fetch: the account path is a regular file (the account is skipped), or
it is a directory and every record of page 1 whose timestamp parses has its
key in its month file. -/
def Covered (E : Env) (dest : Str) (fs : FS) (userid : Str) : Prop :=
  (∃ c, fs (filepathJoin dest userid) = some (.file c)) ∨
  (fs (filepathJoin dest userid) = some .dir ∧
    ∃ l, E.fetch userid 1 = some l ∧
      ∀ m ∈ l, ∀ d, monthOf E m = some d →
        HasKey fs (monthFile (filepathJoin dest userid) d) m.key)

/-- The `Stat` of a run that fetches the batch `l` for `userid` and finds every
key in the archive. -/
def allSkipped (E : Env) (userid : Str) (l : List Mblog) : Stat :=
  { Userid := userid, Fetched := l.length, Skipped := l.length - unparsed E l,
    Failed := unparsed E l, Archived := 0 }

/-- The archiver run twice back-to-back: the worlds after the first and after
the second run. -/
def twice (E : Env) (config : Config) (fs : FS) : Option (World × World) :=
  match main E config fs with
  | none => none
  | some w1 =>
    match main E config w1.fs with
    | none => none
    | some w2 => some (w1, w2)

/-- No failure of a file-system call in the log. -/
def fileOpsOk (log : List Event) : Prop := ∀ e ∈ log, e.isFileFailure = false

/-- No failure of the fetcher in the log. -/
def fetchOk (log : List Event) : Prop := ∀ e ∈ log, e.isFetchFailure = false

instance (log : List Event) : Decidable (fileOpsOk log) := by unfold fileOpsOk; infer_instance
instance (log : List Event) : Decidable (fetchOk log) := by unfold fetchOk; infer_instance

/-- Every `mblog_id` the fetcher returns is free of pipes and line-feeds. -/
def PlainIds (E : Env) : Prop := ∀ u p ms, E.fetch u p = some ms → ∀ m ∈ ms, plain m.MblogID

/-- The second of the fields a line splits into: the id field. -/
def idField (line : Str) : Str := (stringsSplitN '|' 4 line).getD 1 []

/-! ## Sample inputs -/

/-- One account, `u1`, archived under `t`. -/
def sampleConfig : Config := { Cookie := [], Userids := ["u1".toList], Destination := "t".toList }

/-- The record of the cold-start scenario: 2 January 2023, id 10, text `hello`. -/
def mHello : Mblog :=
  ⟨"Mon Jan 02 15:04:05 +0800 2023".toList, 10, "A".toList, "hello".toList, none⟩

/-- A record of 1 February 2023 whose derived text holds a line-feed. -/
def mLines : Mblog :=
  ⟨"Wed Feb 01 01:00:00 +0800 2023".toList, 11, "B".toList, "raw".toList,
    some "line1\nline2".toList⟩

/-- A record of 3 January 2023 whose text holds a pipe. -/
def mPipes : Mblog :=
  ⟨"Tue Jan 03 10:00:00 +0800 2023".toList, 12, "C".toList, "a|b".toList, none⟩

/-- A record of 31 January 2023 with the text of `mHello`. -/
def mAgain : Mblog :=
  ⟨"Tue Jan 31 23:00:00 +0800 2023".toList, 13, "D".toList, "hello".toList, none⟩

/-- A fetcher for the account `u1`: two records on page 1, two on page 2. -/
def sampleFetch : Str → Nat → Option (List Mblog) := fun u p =>
  if u = "u1".toList ∧ p = 1 then some [mHello, mLines]
  else if u = "u1".toList ∧ p = 2 then some [mPipes, mAgain]
  else some []

/-- The two worlds of the sample: the sample fetcher run twice over an empty
archive. -/
def sampleRuns : World × World :=
  (twice (sampleEnv sampleFetch) sampleConfig emptyFS).getD
    ({ fs := emptyFS, stats := [], log := [] }, { fs := emptyFS, stats := [], log := [] })

/-- A record whose `mblog_id` contains a pipe. -/
def mPipeId : Mblog :=
  ⟨"Mon Jan 02 15:04:05 +0800 2023".toList, 10, "A|B".toList, "hello".toList, none⟩

/-- A fetcher returning `mPipeId` on page 1 of `u1`, and nothing else. -/
def pipeFetch : Str → Nat → Option (List Mblog) := fun u p =>
  if u = "u1".toList ∧ p = 1 then some [mPipeId] else some []

/-- Two accounts, the directory of the second one lying inside the directory
of the first. -/
def nestedConfig : Config :=
  { Cookie := [], Userids := ["a".toList, "a/b".toList], Destination := "t".toList }

/-- A fetcher whose page 2 fails for account `a` and which serves account
`a/b` without error. -/
def nestedFetch : Str → Nat → Option (List Mblog) := fun u p =>
  if u = "a".toList then (if p = 1 then some [mHello] else none)
  else if u = "a/b".toList ∧ p = 1 then some [mLines]
  else some []

/-- A fetcher for `u1` with one record on page 1 and another on page 2. -/
def twoPageFetch : Str → Nat → Option (List Mblog) := fun u p =>
  if u = "u1".toList ∧ p = 1 then some [mHello]
  else if u = "u1".toList ∧ p = 2 then some [mPipes]
  else some []

/-- A fetcher for `u1` whose page 1 succeeds and whose page 2 fails. -/
def failingFetch : Str → Nat → Option (List Mblog) := fun u p =>
  if u = "u1".toList ∧ p = 1 then some [mHello] else none

/-- An archive root `t` holding the directory of account `u1` and its month
file of January 2023 with one record. -/
def sampleFS : FS := fun q =>
  if q = "t".toList ∨ q = "t/u1".toList then some .dir
  else if q = "t/u1/2023-01.txt".toList then
    some (.file "Mon Jan 02 15:04:05 +0800 2023|10|A|hello".toList)
  else none

/-- The sample fetcher run twice over `sampleFS`. -/
def sampleRunsWarm : World × World :=
  (twice (sampleEnv sampleFetch) sampleConfig sampleFS).getD
    ({ fs := emptyFS, stats := [], log := [] }, { fs := emptyFS, stats := [], log := [] })

/-- A record whose timestamp does not parse. -/
def mNoDate : Mblog := ⟨"not a date".toList, 2, "N".toList, "undated".toList, none⟩

/-- A record of 2 January 2023 with id 3. -/
def mEarly : Mblog :=
  ⟨"Mon Jan 02 15:04:05 +0800 2023".toList, 3, "E".toList, "early".toList, none⟩

/-- A record of 3 January 2023 with id 1. -/
def mLate : Mblog :=
  ⟨"Tue Jan 03 10:00:00 +0800 2023".toList, 1, "L".toList, "late".toList, none⟩

/-- A record of 1 February 2023 with the text of `mHello`. -/
def mHelloFeb : Mblog :=
  ⟨"Wed Feb 01 01:00:00 +0800 2023".toList, 11, "B".toList, "hello".toList, none⟩

/-- A fetcher returning `mHello` and `mHelloFeb` on page 1 of `u1`. -/
def twoMonthFetch : Str → Nat → Option (List Mblog) := fun u p =>
  if u = "u1".toList ∧ p = 1 then some [mHello, mHelloFeb] else some []

/-- An archive root `t` holding the directory of account `u1` and a month file
whose one line has the id written with leading zeros. -/
def paddedFS : FS := fun q =>
  if q = "t".toList ∨ q = "t/u1".toList then some .dir
  else if q = "t/u1/2023-01.txt".toList then
    some (.file "Mon Jan 02 15:04:05 +0800 2023|007|A|hello".toList)
  else none

/-- A fetcher returning `mPipes` on page 1 of `u1`, and nothing else. -/
def oneFetch : Str → Nat → Option (List Mblog) := fun u p =>
  if u = "u1".toList ∧ p = 1 then some [mPipes] else some []

/-- The progress of account `u1` over `sampleFS` before its month groups. -/
def sampleProgress : Progress :=
  { fs := sampleFS,
    stat := { Userid := "u1".toList, Fetched := 1, Skipped := 0, Failed := 0, Archived := 0 },
    log := [] }

/-- A record with pipes, a line-feed and a backslash in its text, and a
negative id. -/
def mBusy : Mblog :=
  ⟨"Tue Jan 03 10:00:00 +0800 2023".toList, -42, "Mx9".toList, "raw".toList,
    some "|a||b|\nc\\n|".toList⟩

/-- The spec's words for a line `load` keeps: it "splits from the left into
four pipe-separated fields", that is, it holds at least three pipes. -/
def fourFields (line : Str) : Bool := decide (3 ≤ line.count '|')

/-- The record `load` fills from the four fields of a line. -/
def lineRecord (line : Str) : Mblog :=
  { CreatedAt := (stringsSplitN '|' 4 line).getD 0 [],
    ID := ParseInt ((stringsSplitN '|' 4 line).getD 1 []),
    MblogID := (stringsSplitN '|' 4 line).getD 2 [],
    TextRaw := (stringsSplitN '|' 4 line).getD 3 [],
    Derived := none }

/-- A fetcher returning the one record `m` on page 1 of `u1`, and nothing else. -/
def fetchOnly (m : Mblog) : Str → Nat → Option (List Mblog) := fun u p =>
  if u = "u1".toList ∧ p = 1 then some [m] else some []

/-- A record whose text holds a real line-feed. -/
def mReal : Mblog :=
  ⟨"Mon Jan 02 15:04:05 +0800 2023".toList, 20, "R".toList, "line1\nline2".toList, none⟩

/-- A record whose text holds a backslash and an `n` where `mReal` has its
line-feed. -/
def mLiteral : Mblog :=
  ⟨"Tue Jan 03 10:00:00 +0800 2023".toList, 21, "S".toList, "line1\\nline2".toList, none⟩

/-- A month file with a blank line, two lines of fewer than four fields, and
two lines of four fields, the second with a pipe in its text and an id that is
no number. -/
def raggedFile : Str :=
  ("\nno pipes\na|b|c\nMon Jan 02 15:04:05 +0800 2023|10|A|hello\n\n" ++
    "x|y|z|t|u\n").toList

/-- The file system holding `raggedFile` under the name `f.txt`. -/
def raggedFS : FS := fun q => if q = "f.txt".toList then some (.file raggedFile) else none

/-- An archive root `t` holding the directory of account `u1`, in which the
path of the month file of January 2023 names a directory, so that `load` fails
for that month. -/
def blockedFS : FS := fun q =>
  if q = "t".toList ∨ q = "t/u1".toList ∨ q = "t/u1/2023-01.txt".toList then some .dir
  else none

/-- The progress of account `u1` over `blockedFS` before its month groups. -/
def blockedProgress : Progress :=
  { fs := blockedFS,
    stat := { Userid := "u1".toList, Fetched := 3, Skipped := 0, Failed := 0, Archived := 0 },
    log := [] }

/-- A fetcher returning a record of January, a record without date and a
record of February on page 1 of `u1`. -/
def mixedFetch : Str → Nat → Option (List Mblog) := fun u p =>
  if u = "u1".toList ∧ p = 1 then some [mHello, mNoDate, mLines] else some []

/-- Two states of the loop over the month groups that differ by one record
counted as fetched and failed. -/
structure OneMore (p p' : Progress) : Prop where
  fs : p.fs = p'.fs
  userid : p.stat.Userid = p'.stat.Userid
  fetched : p.stat.Fetched = p'.stat.Fetched + 1
  failed : p.stat.Failed = p'.stat.Failed + 1
  archived : p.stat.Archived = p'.stat.Archived
  skipped : p.stat.Skipped = p'.stat.Skipped

/-- The call of the fetcher an event of the log records: `get` logs one event
for each call, whether it succeeded or failed. -/
def Event.call : Event → Option (Str × Nat)
  | .fetchedPage _ userid page => some (userid, page)
  | .getPageFailed userid page => some (userid, page)
  | _ => none

/-- The calls of the fetcher a log records, in order: account and page. -/
def fetchCalls (log : List Event) : List (Str × Nat) := log.filterMap Event.call

/-- A fetcher that fails on every page. -/
def deadFetch : Str → Nat → Option (List Mblog) := fun _ _ => none

/-- An archive root `t` with nothing in it. -/
def rootFS : FS := fun q => if q = "t".toList then some .dir else none

/-- The paths processing account `userid` may create or write, `fs0` being the
file system the loop over the accounts starts from: the directory of the
account, the directories above it that `fs0` lacks, and its month files. -/
def Touched (E : Env) (dest : Str) (fs0 : FS) (userid : Str) (q : Str) : Prop :=
  q = filepathJoin dest userid ∨
  (q ∈ parentDirs (filepathJoin dest userid) ∧ fs0 q = none) ∨
  ∃ t, q = monthFile (filepathJoin dest userid) (E.formatMonth t)

/-- The paths processing account `userid` looks at: the directory of the
account, its month files, and the directories above them. -/
def Consulted (E : Env) (dest : Str) (userid : Str) (q : Str) : Prop :=
  q ∈ filepathJoin dest userid :: parentDirs (filepathJoin dest userid) ∨
  ∃ t, q ∈ monthFile (filepathJoin dest userid) (E.formatMonth t) ::
    parentDirs (monthFile (filepathJoin dest userid) (E.formatMonth t))

/-- The archives of accounts `a` and `b` are apart: no path processing `b`
looks at is a path processing `a` may create or write. -/
def Apart (E : Env) (dest : Str) (fs0 : FS) (a b : Str) : Prop :=
  ∀ q, Consulted E dest b q → ¬ Touched E dest fs0 a q

/-- Two accounts, the directory of the second one holding the directory of
the first. -/
def innerFirstConfig : Config :=
  { Cookie := [], Userids := ["a/b".toList, "a".toList], Destination := "t".toList }

/-- A fetcher that serves account `a/b` one record, and account `a` one record
on page 1 and another on page 2. -/
def innerFetch : Str → Nat → Option (List Mblog) := fun u p =>
  if u = "a".toList then (if p = 1 then some [mHello] else if p = 2 then some [mPipes] else some [])
  else if u = "a/b".toList ∧ p = 1 then some [mLines]
  else some []

/-- Two accounts with plain names, the archive root being written `./t`. -/
def pairConfig : Config :=
  { Cookie := [], Userids := ["u1".toList, "u2".toList], Destination := "./t".toList }

/-- A fetcher that serves `u1` and `u2` a record on each of the pages 1 and 2. -/
def pairFetch : Str → Nat → Option (List Mblog) := fun u p =>
  if u = "u1".toList then (if p = 1 then some [mHello] else if p = 2 then some [mPipes] else some [])
  else if u = "u2".toList then
    (if p = 1 then some [mLines] else if p = 2 then some [mAgain] else some [])
  else some []

/-- The file system the loop over the accounts of `pairConfig` starts from on
an empty tree: what `os.MkdirAll` leaves of the archive root. -/
def pairRoot : FS :=
  (osMkdirAll (sampleEnv pairFetch) emptyFS (filepathClean pairConfig.dest)).getD emptyFS

/-- A record of 3 January 2023 whose text holds a pipe where the `mblog_id` of
`mPipeId` does. -/
def mPipeText : Mblog :=
  ⟨"Tue Jan 03 10:00:00 +0800 2023".toList, 12, "A".toList, "B|hello".toList, none⟩

/-- The normalized text `load` reads off a line, `none` for a line it drops. -/
def lineKey (line : Str) : Option Str := (parseLine line).map Mblog.key

/-- A record of 2 January 2023 with the text `x|hello`. -/
def mBarOne : Mblog :=
  ⟨"Mon Jan 02 15:04:05 +0800 2023".toList, 30, "P".toList, "x|hello".toList, none⟩

/-- A record of 3 January 2023 with the text `x|hello`. -/
def mBarTwo : Mblog :=
  ⟨"Tue Jan 03 10:00:00 +0800 2023".toList, 31, "Q".toList, "x|hello".toList, none⟩

/-- A record of 31 January 2023 with the text `hello` and a pipe in its
`mblog_id`. -/
def mBarId : Mblog :=
  ⟨"Tue Jan 31 23:00:00 +0800 2023".toList, 32, "C|x".toList, "hello".toList, none⟩

/-- A fetcher for `u1` with the three records above on page 1. -/
def barFetch : Str → Nat → Option (List Mblog) := fun u p =>
  if u = "u1".toList ∧ p = 1 then some [mBarOne, mBarTwo, mBarId] else some []

/-- An archive root `t` holding the empty directory of account `u1`. -/
def userFS : FS := fun q => if q = "t".toList ∨ q = "t/u1".toList then some .dir else none

/-- The state before the month groups of a batch of four records are processed
over `userFS`. -/
def userProgress : Progress :=
  { fs := userFS,
    stat := { Userid := "u1".toList, Fetched := 4, Skipped := 0, Failed := 0, Archived := 0 },
    log := [] }

/-- A fetcher for `u1` with one record on page 1 and, on page 2, one record
whose timestamp does not parse. -/
def coldFetch : Str → Nat → Option (List Mblog) := fun u p =>
  if u = "u1".toList ∧ p = 1 then some [mHello]
  else if u = "u1".toList ∧ p = 2 then some [mNoDate]
  else some []

/-- Two runs with `coldFetch` over an empty tree. -/
def coldRuns : World × World :=
  (twice (sampleEnv coldFetch) sampleConfig emptyFS).getD
    ({ fs := emptyFS, stats := [], log := [] }, { fs := emptyFS, stats := [], log := [] })

/-- The decimal rendering of `n` padded with zeros to at least `width` digits. -/
def zeroPad (width n : Nat) : Str :=
  List.replicate (width - (formatUint n).length) '0' ++ formatUint n

/-- Year and month, as `YYYY-MM`, of the day of the Gregorian calendar that
lies `days` days after 1 January 1970, or before it for a negative number;
for the years 0 to 9999. -/
def civilMonthOfDay (days : Int) : Str :=
  let z := days + 719468
  let era := z / 146097
  let doe := z % 146097
  let yoe := (doe - doe / 1460 + doe / 36524 - doe / 146096) / 365
  let doy := doe - (365 * yoe + yoe / 4 - yoe / 100)
  let mp := (5 * doy + 2) / 153
  let month := if mp < 10 then mp + 3 else mp - 9
  let year := if month ≤ 2 then yoe + era * 400 + 1 else yoe + era * 400
  zeroPad 4 year.toNat ++ '-' :: zeroPad 2 month.toNat

/-- Year and month, as `YYYY-MM`, that the instant of `d` falls in on a clock
that is `offset` seconds east of UTC. -/
def localMonth (offset : Int) (d : Time) : Str :=
  civilMonthOfDay ((d.instant / 1000000000 + offset) / 86400)

/-- The offset in seconds east of UTC that a numeric zone `±hhmm` stands
for. -/
def zoneOffset : Str → Option Int
  | [sign, h1, h2, m1, m2] =>
    match digitVal h1, digitVal h2, digitVal m1, digitVal m2 with
    | some a, some b, some c, some d =>
      if sign = '+' then some ((((10 * a + b) * 60 + (10 * c + d)) * 60 : Nat) : Int)
      else if sign = '-' then some (-((((10 * a + b) * 60 + (10 * c + d)) * 60 : Nat) : Int))
      else none
    | _, _, _, _ => none
  | _ => none

/-- The offset written in a timestamp of the layout `time.RubyDate`,
`Mon Jan 02 15:04:05 -0700 2006`: the fifth of the six fields its spaces
separate. -/
def writtenOffset (s : Str) : Option Int :=
  match (stringsSplit ' ' s).filter (fun f => f ≠ []) with
  | [_, _, _, _, zone, _] => zoneOffset zone
  | _ => none

/-- What `time.ParseInLocation` and `Format` do with a timestamp that carries
a numeric zone: the parsed time has the offset written in the timestamp, the
location handed to `ParseInLocation` serving only timestamps without a zone,
and `Format("2006-01")` renders the year and month of the instant on the clock
of the offset the time carries. -/
structure Env.OwnZone (E : Env) : Prop where
  offset : ∀ s t, E.parseTime s = some t → writtenOffset s = some t.offset
  month : ∀ s t, E.parseTime s = some t → E.formatMonth t = localMonth t.offset t

/-- The month a record falls in: the year and month of the instant its
`created_at` parses to, on the clock of the offset written in it. -/
def writtenMonth (E : Env) (m : Mblog) : Option Str :=
  match E.parseTime m.CreatedAt, writtenOffset m.CreatedAt with
  | some t, some off => some (localMonth off t)
  | _, _ => none

/-- The number two decimal digits stand for. -/
def twoDigits : Str → Option Nat
  | [a, b] =>
    match digitVal a, digitVal b with
    | some x, some y => some (10 * x + y)
    | _, _ => none
  | _ => none

/-- The second of the day a clock reading `hh:mm:ss` stands for. -/
def clockSeconds : Str → Option Nat
  | [h1, h2, ':', m1, m2, ':', s1, s2] =>
    match twoDigits [h1, h2], twoDigits [m1, m2], twoDigits [s1, s2] with
    | some h, some m, some s => if h < 24 ∧ m < 60 ∧ s < 60 then some (h * 3600 + m * 60 + s) else none
    | _, _, _ => none
  | _ => none

/-- The number of a month, 1 to 12, from its three-letter English name. -/
def monthNumber (s : Str) : Option Nat :=
  ((["Jan", "Feb", "Mar", "Apr", "May", "Jun", "Jul", "Aug", "Sep", "Oct", "Nov",
    "Dec"].map String.toList).indexOf? s).map (fun i => i + 1)

/-- The number of days of a month of the Gregorian calendar. -/
def daysIn (year month : Nat) : Nat :=
  if month = 2 then (if year % 4 = 0 ∧ (year % 100 ≠ 0 ∨ year % 400 = 0) then 29 else 28)
  else if month = 4 ∨ month = 6 ∨ month = 9 ∨ month = 11 then 30
  else 31

/-- The number of days from 1 January 1970 to a day of the Gregorian
calendar. -/
def daysFromCivil (year month day : Nat) : Int :=
  let y : Int := if month ≤ 2 then (year : Int) - 1 else year
  let era := y / 400
  let yoe := y - era * 400
  let mp : Int := if 2 < month then (month : Int) - 3 else (month : Int) + 9
  let doy := (153 * mp + 2) / 5 + (day : Int) - 1
  let doe := yoe * 365 + yoe / 4 - yoe / 100 + doy
  era * 146097 + doe - 719468

/-- The time that `time.ParseInLocation(time.RubyDate, s, loc)` returns for a
timestamp written exactly in the layout `Mon Jan 02 15:04:05 -0700 2006`, with
single spaces and every field in range: the wall clock of the fields, at the
offset of the zone field.  Every other string gives `none`; the library
accepts some of them, such as a one-digit hour or a fraction of a second. -/
def rubyDate (s : Str) : Option Time :=
  match stringsSplit ' ' s with
  | [weekday, mon, day, clock, zone, year] =>
    match monthNumber mon, twoDigits day, clockSeconds clock, zoneOffset zone,
        twoDigits (year.take 2), twoDigits (year.drop 2) with
    | some m, some d, some c, some off, some yh, some yl =>
      if weekday ∈ ["Mon", "Tue", "Wed", "Thu", "Fri", "Sat", "Sun"].map String.toList ∧
          1 ≤ d ∧ d ≤ daysIn (100 * yh + yl) m ∧
          (twoDigits ((zone.drop 1).take 2)).getD 24 < 24 ∧
          (twoDigits (zone.drop 3)).getD 60 < 60 then
        some ⟨(daysFromCivil (100 * yh + yl) m d * 86400 + c - off) * 1000000000, off⟩
      else none
    | _, _, _, _, _, _ => none
  | _ => none

/-- A record of 2 January 2023 whose `mblog_id` holds a line-feed followed by
what reads as the start of a line of 1 February 2023. -/
def mSplit : Mblog :=
  ⟨"Mon Jan 02 15:04:05 +0800 2023".toList, 40,
    "A\nWed Feb 01 01:00:00 +0800 2023|41|Z".toList, "t".toList, none⟩

/-! ## Lemmas: strings -/

theorem stringsSplit_ne_nil (sep : Char) (s : Str) : stringsSplit sep s ≠ [] := by
  induction s with
  | nil => simp [stringsSplit]
  | cons c cs ih =>
    unfold stringsSplit
    split
    · simp
    · split
      · simp
      · simp

theorem stringsSplit_of_not_mem (sep : Char) (s : Str) (h : sep ∉ s) : stringsSplit sep s = [s] := by
  induction s with
  | nil => rfl
  | cons c cs ih =>
    have hc : c ≠ sep := fun e => h (by simp [e])
    have hcs : sep ∉ cs := fun m => h (List.mem_cons_of_mem _ m)
    simp [stringsSplit, hc, ih hcs]

theorem stringsSplit_append_sep (sep : Char) (a rest : Str) :
    stringsSplit sep (a ++ sep :: rest) = stringsSplit sep a ++ stringsSplit sep rest := by
  induction a with
  | nil => simp [stringsSplit]
  | cons c cs ih =>
    by_cases hc : c = sep
    · simp [stringsSplit, hc] at ih ⊢
      exact ih
    · simp only [List.cons_append, stringsSplit, hc, if_false, List.append_eq]
      rw [ih]
      cases h : stringsSplit sep cs with
      | nil => exact absurd h (stringsSplit_ne_nil sep cs)
      | cons q qs => simp

theorem stringsSplit_join (sep : Char) (lines : List Str) (hne : lines ≠ []) :
    stringsSplit sep (stringsJoin sep lines) = lines.flatMap (stringsSplit sep) := by
  induction lines with
  | nil => exact absurd rfl hne
  | cons l ls ih =>
    cases ls with
    | nil => simp [stringsJoin]
    | cons t rest =>
      have := ih (by simp)
      simp only [stringsJoin, stringsSplit_append_sep, List.flatMap_cons] at this ⊢
      rw [this]

theorem stringsSplit_join_clean (sep : Char) (lines : List Str) (hne : lines ≠ [])
    (h : ∀ l ∈ lines, sep ∉ l) : stringsSplit sep (stringsJoin sep lines) = lines := by
  rw [stringsSplit_join sep lines hne]
  clear hne
  induction lines with
  | nil => rfl
  | cons l ls ih =>
    rw [List.flatMap_cons, stringsSplit_of_not_mem sep l (h l (by simp)),
      ih (fun x hx => h x (List.mem_cons_of_mem _ hx))]
    rfl

theorem stringsSplitN_of_not_mem (sep : Char) (n : Nat) (s : Str) (h : sep ∉ s) :
    stringsSplitN sep (n + 1) s = [s] := by
  cases n with
  | zero => cases s <;> rfl
  | succ n =>
    induction s with
    | nil => rfl
    | cons c cs ih =>
      have hc : c ≠ sep := fun e => h (by simp [e])
      have hcs : sep ∉ cs := fun m => h (List.mem_cons_of_mem _ m)
      simp [stringsSplitN, hc, ih hcs]

theorem stringsSplitN_append_sep (sep : Char) (n : Nat) (a rest : Str) (h : sep ∉ a) :
    stringsSplitN sep (n + 2) (a ++ sep :: rest) = a :: stringsSplitN sep (n + 1) rest := by
  induction a with
  | nil => simp [stringsSplitN]
  | cons c cs ih =>
    have hc : c ≠ sep := fun e => h (by simp [e])
    have hcs : sep ∉ cs := fun m => h (List.mem_cons_of_mem _ m)
    simp [stringsSplitN, hc, ih hcs]

theorem strip_not_mem (s : Str) : '\n' ∉ strip s := by
  induction s with
  | nil => simp [strip]
  | cons c cs ih =>
    unfold strip
    split
    · simp only [List.mem_cons, not_or]
      exact ⟨by decide, by decide, ih⟩
    · rename_i hc
      simp only [List.mem_cons, not_or]
      exact ⟨fun e => hc e.symm, ih⟩

theorem strip_of_not_mem (s : Str) (h : '\n' ∉ s) : strip s = s := by
  induction s with
  | nil => rfl
  | cons c cs ih =>
    have hc : c ≠ '\n' := fun e => h (by simp [e])
    have hcs : '\n' ∉ cs := fun m => h (List.mem_cons_of_mem _ m)
    simp [strip, hc, ih hcs]

theorem strip_strip (s : Str) : strip (strip s) = strip s :=
  strip_of_not_mem _ (strip_not_mem s)

/-! ## Lemmas: strconv -/

theorem digitVal_digitChar (d : Nat) (h : d < 10) : digitVal (digitChar d) = some d := by
  interval_cases d <;> decide

theorem digitChar_not_special (d : Nat) (h : d < 10) :
    digitChar d ≠ '|' ∧ digitChar d ≠ '\n' ∧ digitChar d ≠ '-' ∧ digitChar d ≠ '+' := by
  interval_cases d <;> decide

theorem formatUintAux_acc (fuel n : Nat) (acc : Str) :
    formatUintAux fuel n acc = formatUintAux fuel n [] ++ acc := by
  induction fuel generalizing n acc with
  | zero => simp [formatUintAux]
  | succ f ih =>
    unfold formatUintAux
    split
    · simp
    · rw [ih (n / 10) (digitChar (n % 10) :: acc), ih (n / 10) [digitChar (n % 10)]]
      simp

theorem formatUintAux_fuel (fuel fuel2 n : Nat) (h : n < fuel) (h2 : n < fuel2) :
    formatUintAux fuel n [] = formatUintAux fuel2 n [] := by
  induction fuel generalizing n fuel2 with
  | zero => omega
  | succ f ih =>
    cases fuel2 with
    | zero => omega
    | succ g =>
      unfold formatUintAux
      split
      · rfl
      · rw [formatUintAux_acc f, formatUintAux_acc g, ih g (n / 10) (by omega) (by omega)]

theorem formatUint_lt (n : Nat) (h : n < 10) : formatUint n = [digitChar n] := by
  simp [formatUint, formatUintAux, h]

theorem formatUint_ge (n : Nat) (h : 10 ≤ n) :
    formatUint n = formatUint (n / 10) ++ [digitChar (n % 10)] := by
  have h1 : ¬ n < 10 := by omega
  unfold formatUint
  rw [formatUintAux, if_neg h1, formatUintAux_acc]
  rw [formatUintAux_fuel n (n / 10 + 1) (n / 10) (by omega) (by omega)]

theorem formatUint_digits (n : Nat) : ∀ c ∈ formatUint n, ∃ d, d < 10 ∧ c = digitChar d := by
  induction n using Nat.strong_induction_on with
  | _ n ih =>
    by_cases h : n < 10
    · rw [formatUint_lt n h]
      intro c hc
      exact ⟨n, h, by simpa using hc⟩
    · rw [formatUint_ge n (by omega)]
      intro c hc
      rcases List.mem_append.1 hc with hc | hc
      · exact ih (n / 10) (by omega) c hc
      · exact ⟨n % 10, by omega, by simpa using hc⟩

theorem formatUint_ne_nil (n : Nat) : formatUint n ≠ [] := by
  by_cases h : n < 10
  · rw [formatUint_lt n h]; simp
  · rw [formatUint_ge n (by omega)]; simp

theorem parseUintLoop_append (k : Nat) (s t : Str) :
    parseUintLoop k (s ++ t) =
      match parseUintLoop k s with
      | .ok m => parseUintLoop m t
      | e => e := by
  induction s generalizing k with
  | nil => simp [parseUintLoop]
  | cons c cs ih =>
    simp only [List.cons_append, parseUintLoop]
    cases digitVal c with
    | none => simp
    | some d =>
      simp only
      split
      · simp
      · exact ih _

theorem parseUintLoop_formatUint (n : Nat) (h : n < 2 ^ 64) :
    parseUintLoop 0 (formatUint n) = .ok n := by
  induction n using Nat.strong_induction_on with
  | _ n ih =>
    by_cases h10 : n < 10
    · rw [formatUint_lt n h10]
      simp only [parseUintLoop, digitVal_digitChar n h10]
      rw [if_neg (by omega)]
      simp
    · rw [formatUint_ge n (by omega), parseUintLoop_append, ih (n / 10) (by omega) (by omega)]
      simp only [parseUintLoop, digitVal_digitChar (n % 10) (by omega)]
      rw [if_neg (by omega)]
      congr 1
      omega

theorem ParseUint_formatUint (n : Nat) (h : n < 2 ^ 64) : ParseUint (formatUint n) = .ok n := by
  unfold ParseUint
  cases hf : formatUint n with
  | nil => exact absurd hf (formatUint_ne_nil n)
  | cons c cs => simp only; rw [← hf]; exact parseUintLoop_formatUint n h

theorem FormatInt_clean (i : Int) : '|' ∉ FormatInt i ∧ '\n' ∉ FormatInt i := by
  have hd : ∀ n, '|' ∉ formatUint n ∧ '\n' ∉ formatUint n := by
    intro n
    constructor
    · intro hm
      obtain ⟨d, hd, e⟩ := formatUint_digits n _ hm
      exact (digitChar_not_special d hd).1 e.symm
    · intro hm
      obtain ⟨d, hd, e⟩ := formatUint_digits n _ hm
      exact (digitChar_not_special d hd).2.1 e.symm
  unfold FormatInt
  split
  · simp only [List.mem_cons, not_or]
    exact ⟨⟨by decide, (hd _).1⟩, ⟨by decide, (hd _).2⟩⟩
  · exact hd _

theorem ParseInt_FormatInt (i : Int) (hlo : -(2 ^ 63) ≤ i) (hhi : i < 2 ^ 63) :
    ParseInt (FormatInt i) = i := by
  unfold FormatInt
  by_cases hneg : i < 0
  · rw [if_pos hneg]
    have hn : i.natAbs < 2 ^ 64 := by omega
    have h1 : ¬ (2 ^ 63 < i.natAbs) := by omega
    simp only [ParseInt, or_true, if_true, ParseUint_formatUint _ hn, not_true_eq_false,
      false_and, true_and, if_false, h1]
    omega
  · rw [if_neg hneg]
    have hn : i.natAbs < 2 ^ 64 := by omega
    cases hf : formatUint i.natAbs with
    | nil => exact absurd hf (formatUint_ne_nil _)
    | cons c cs =>
      obtain ⟨d, hd, e⟩ := formatUint_digits i.natAbs c (by rw [hf]; simp)
      have hs := digitChar_not_special d hd
      have hc1 : c ≠ '-' := by rw [e]; exact hs.2.2.1
      have hc2 : c ≠ '+' := by rw [e]; exact hs.2.2.2
      simp only [ParseInt, hc1, hc2, or_self, if_false]
      rw [← hf, ParseUint_formatUint _ hn]
      have h1 : ¬ (2 ^ 63 ≤ i.natAbs) := by omega
      simp only [not_false_eq_true, true_and, false_and, if_false, h1]
      exact Int.natAbs_of_nonneg (by omega)

/-! ## Lemmas: the line codec -/

theorem stringsSplitN_one (sep : Char) (s : Str) : stringsSplitN sep 1 s = [s] := by
  cases s <;> simp [stringsSplitN]

theorem splitN_renderLine (m : Mblog) (hc : '|' ∉ m.CreatedAt) (hm : '|' ∉ m.MblogID) :
    stringsSplitN '|' 4 (renderLine m) = [m.CreatedAt, FormatInt m.ID, m.MblogID, strip m.TheText] := by
  simp only [renderLine, stringsJoin]
  rw [stringsSplitN_append_sep '|' 2 _ _ hc, stringsSplitN_append_sep '|' 1 _ _ (FormatInt_clean _).1,
    stringsSplitN_append_sep '|' 0 _ _ hm, stringsSplitN_one]

theorem renderLine_ne_nil (m : Mblog) : renderLine m ≠ [] := by
  simp [renderLine, stringsJoin]

theorem parseLine_renderLine (m : Mblog) (hc : '|' ∉ m.CreatedAt) (hm : '|' ∉ m.MblogID) :
    parseLine (renderLine m) = some (reload m) := by
  unfold parseLine
  rw [if_neg (renderLine_ne_nil m), splitN_renderLine m hc hm]
  rfl

theorem reload_key (m : Mblog) : (reload m).key = m.key := by
  simp [Mblog.key, reload, Mblog.TheText, strip_strip]

theorem renderLine_not_mem_lf (m : Mblog) (hc : '\n' ∉ m.CreatedAt) (hm : '\n' ∉ m.MblogID) :
    '\n' ∉ renderLine m := by
  simp only [renderLine, stringsJoin, List.mem_append, List.mem_cons, not_or]
  exact ⟨hc, by decide, (FormatInt_clean _).2, by decide, hm, by decide, strip_not_mem _⟩

theorem parseFile_join_renderLine (ms : List Mblog) (h : ∀ m ∈ ms, plain m.CreatedAt ∧ plain m.MblogID) :
    parseFile (stringsJoin '\n' (ms.map renderLine)) = ms.map reload := by
  unfold parseFile
  cases ms with
  | nil => simp [stringsJoin, stringsSplit, parseLine]
  | cons a l =>
    rw [stringsSplit_join_clean '\n' _ (by simp)]
    · generalize a :: l = ms at h
      induction ms with
      | nil => rfl
      | cons x xs ih =>
        have hx := h x (by simp)
        simp only [List.map_cons, List.filterMap_cons,
          parseLine_renderLine x hx.1.1 hx.2.1]
        rw [ih (fun y hy => h y (List.mem_cons_of_mem _ hy))]
    · intro l' hl'
      obtain ⟨m, hm, rfl⟩ := List.mem_map.1 hl'
      have := h m hm
      exact renderLine_not_mem_lf m this.1.2 this.2.2

theorem stringsJoin_cons_cons (sep c : Char) (p : Str) (ps : List Str) :
    stringsJoin sep ((c :: p) :: ps) = c :: stringsJoin sep (p :: ps) := by
  cases ps <;> simp [stringsJoin]

theorem stringsSplitN_ne_nil (sep : Char) (n : Nat) (s : Str) : stringsSplitN sep (n + 1) s ≠ [] := by
  cases n with
  | zero => simp [stringsSplitN_one]
  | succ n =>
    cases s with
    | nil => simp [stringsSplitN]
    | cons c cs =>
      unfold stringsSplitN
      split
      · simp
      · split <;> simp

theorem stringsJoin_stringsSplitN (sep : Char) (n : Nat) (s : Str) :
    stringsJoin sep (stringsSplitN sep (n + 1) s) = s := by
  induction n generalizing s with
  | zero => simp [stringsSplitN_one, stringsJoin]
  | succ n ihn =>
    induction s with
    | nil => simp [stringsSplitN, stringsJoin]
    | cons c cs ih =>
      unfold stringsSplitN
      split
      · rename_i hc
        have := ihn cs
        cases h : stringsSplitN sep (n + 1) cs with
        | nil => exact absurd h (stringsSplitN_ne_nil sep n cs)
        | cons q qs =>
          rw [h] at this
          simp [stringsJoin, this, hc]
      · cases h : stringsSplitN sep (n + 2) cs with
        | nil => exact absurd h (stringsSplitN_ne_nil sep (n + 1) cs)
        | cons q qs =>
          rw [h] at ih
          simp only [stringsJoin_cons_cons, ih]

theorem stringsSplitN_head_not_mem (sep : Char) (n : Nat) (s p : Str) (ps : List Str)
    (hne : ps ≠ []) (h : stringsSplitN sep (n + 1) s = p :: ps) : sep ∉ p := by
  cases n with
  | zero =>
    rw [stringsSplitN_one] at h
    exact absurd (List.cons_eq_cons.1 h).2.symm hne
  | succ n =>
    induction s generalizing p ps with
    | nil =>
      simp only [stringsSplitN] at h
      exact absurd (List.cons_eq_cons.1 h).2.symm hne
    | cons c cs ih =>
      unfold stringsSplitN at h
      split at h
      · rw [← (List.cons_eq_cons.1 h).1]; simp
      · rename_i hc
        cases h2 : stringsSplitN sep (n + 2) cs with
        | nil => exact absurd h2 (stringsSplitN_ne_nil sep (n + 1) cs)
        | cons q qs =>
          rw [h2] at h
          obtain ⟨e1, e2⟩ := List.cons_eq_cons.1 h
          have := ih q qs (by rw [e2]; exact hne) h2
          rw [← e1]
          simp only [List.mem_cons, not_or]
          exact ⟨fun e => hc e.symm, this⟩

theorem stringsSplitN_tail (sep : Char) (n : Nat) (s p : Str) (ps : List Str) (hne : ps ≠ [])
    (h : stringsSplitN sep (n + 2) s = p :: ps) :
    ∃ rest, s = p ++ sep :: rest ∧ stringsSplitN sep (n + 1) rest = ps := by
  induction s generalizing p ps with
  | nil =>
    simp only [stringsSplitN] at h
    exact absurd (List.cons_eq_cons.1 h).2.symm hne
  | cons c cs ih =>
    unfold stringsSplitN at h
    split at h
    · rename_i hc
      obtain ⟨e1, e2⟩ := List.cons_eq_cons.1 h
      exact ⟨cs, by rw [← e1, hc]; rfl, e2⟩
    · cases h2 : stringsSplitN sep (n + 2) cs with
      | nil => exact absurd h2 (stringsSplitN_ne_nil sep (n + 1) cs)
      | cons q qs =>
        rw [h2] at h
        obtain ⟨e1, e2⟩ := List.cons_eq_cons.1 h
        obtain ⟨rest, e3, e4⟩ := ih q qs (by rw [e2]; exact hne) h2
        exact ⟨rest, by rw [← e1, e3]; rfl, by rw [e4, e2]⟩

/-- What a line that `parseLine` accepts looks like. -/
theorem parseLine_some (line : Str) (m : Mblog) (h : parseLine line = some m) :
    ∃ f1, line = stringsJoin '|' [m.CreatedAt, f1, m.MblogID, m.TextRaw] ∧ m.ID = ParseInt f1 ∧
      m.Derived = none ∧ '|' ∉ m.CreatedAt ∧ '|' ∉ f1 ∧ '|' ∉ m.MblogID := by
  unfold parseLine at h
  split at h
  · exact absurd h (by simp)
  · split at h
    · rename_i f0 f1 f2 f3 hs
      simp only [Option.some.injEq] at h
      subst h
      have h0 := stringsSplitN_head_not_mem '|' 3 line f0 _ (by simp) hs
      obtain ⟨r1, e1, hs1⟩ := stringsSplitN_tail '|' 2 line f0 _ (by simp) hs
      have h1 := stringsSplitN_head_not_mem '|' 2 r1 f1 _ (by simp) hs1
      obtain ⟨r2, e2, hs2⟩ := stringsSplitN_tail '|' 1 r1 f1 _ (by simp) hs1
      have h2 := stringsSplitN_head_not_mem '|' 1 r2 f2 _ (by simp) hs2
      obtain ⟨r3, e3, hs3⟩ := stringsSplitN_tail '|' 0 r2 f2 _ (by simp) hs2
      rw [stringsSplitN_one] at hs3
      simp only [List.cons.injEq, and_true] at hs3
      subst hs3
      refine ⟨f1, ?_, rfl, rfl, h0, h1, h2⟩
      simp only [stringsJoin]
      rw [e1, e2, e3]
    · exact absurd h (by simp)

theorem stringsSplit_not_mem (sep : Char) (s : Str) : ∀ l ∈ stringsSplit sep s, sep ∉ l := by
  induction s with
  | nil => simp [stringsSplit]
  | cons c cs ih =>
    unfold stringsSplit
    split
    · intro l hl
      rcases List.mem_cons.1 hl with rfl | hl
      · simp
      · exact ih l hl
    · rename_i hc
      cases h : stringsSplit sep cs with
      | nil => exact absurd h (stringsSplit_ne_nil sep cs)
      | cons q qs =>
        rw [h] at ih
        intro l hl
        simp only [List.mem_cons] at hl
        rcases hl with rfl | hl
        · have := ih q (by simp)
          simp only [List.mem_cons, not_or]
          exact ⟨fun e => hc e.symm, this⟩
        · exact ih l (by simp [hl])

/-- Every record `load` reads out of a file has plain codec fields, a raw text
without line-feed and no derived text. -/
theorem parseFile_plain (b : Str) (m : Mblog) (h : m ∈ parseFile b) :
    plain m.CreatedAt ∧ plain m.MblogID ∧ '\n' ∉ m.TextRaw ∧ m.Derived = none := by
  unfold parseFile at h
  obtain ⟨line, hl, hp⟩ := List.mem_filterMap.1 h
  have hlf := stringsSplit_not_mem '\n' b line hl
  obtain ⟨f1, e, _, hd, h0, _, h2⟩ := parseLine_some line m hp
  rw [e] at hlf
  simp only [stringsJoin, List.mem_append, List.mem_cons, not_or] at hlf
  exact ⟨⟨h0, hlf.1⟩, ⟨h2, hlf.2.2.2.2.1⟩, hlf.2.2.2.2.2.2, hd⟩

/-! ## Lemmas: the dedup loop -/

theorem has_iff (l : List Mblog) (m : Mblog) : has l m = true ↔ ∃ x ∈ l, x.key = m.key := by
  induction l with
  | nil => simp [has]
  | cons y ys ih =>
    unfold has
    by_cases h : strip y.TheText = strip m.TheText
    · simp only [h, if_true, true_iff]
      exact ⟨y, by simp, h⟩
    · simp only [h, if_false, ih, List.mem_cons]
      constructor
      · rintro ⟨x, hx, e⟩; exact ⟨x, Or.inr hx, e⟩
      · rintro ⟨x, hx | hx, e⟩
        · subst hx; exact absurd e h
        · exact ⟨x, hx, e⟩

theorem has_eq_false_iff (l : List Mblog) (m : Mblog) : has l m = false ↔ ∀ x ∈ l, x.key ≠ m.key := by
  rw [← Bool.not_eq_true, has_iff]
  simp

theorem mergeStep_dup (s : Merge) (m : Mblog) (h : has s.mblogs m = true) :
    mergeStep s m = { mblogs := s.mblogs, skipped := s.skipped + 1, archived := s.archived } := by
  simp [mergeStep, h]

theorem mergeStep_fresh (s : Merge) (m : Mblog) (h : has s.mblogs m = false) :
    mergeStep s m =
      { mblogs := s.mblogs ++ [m], skipped := s.skipped, archived := s.archived + 1 } := by
  simp [mergeStep, h]

theorem mergeFrom_nil (s : Merge) : mergeFrom s [] = s := rfl

theorem mergeFrom_cons (s : Merge) (m : Mblog) (rest : List Mblog) :
    mergeFrom s (m :: rest) = mergeFrom (mergeStep s m) rest := rfl

theorem mergeFrom_counts (s : Merge) (incoming : List Mblog) :
    (mergeFrom s incoming).skipped + (mergeFrom s incoming).archived =
      s.skipped + s.archived + incoming.length := by
  induction incoming generalizing s with
  | nil => simp [mergeFrom_nil]
  | cons m rest ih =>
    rw [mergeFrom_cons, ih]
    unfold mergeStep
    split <;> simp <;> omega

theorem mergeFrom_extends (s : Merge) (incoming : List Mblog) :
    ∃ fresh, (mergeFrom s incoming).mblogs = s.mblogs ++ fresh ∧ fresh.Sublist incoming ∧
      (mergeFrom s incoming).archived = s.archived + fresh.length := by
  induction incoming generalizing s with
  | nil => exact ⟨[], by simp [mergeFrom_nil]⟩
  | cons m rest ih =>
    rw [mergeFrom_cons]
    obtain ⟨fresh, e, hsub, ha⟩ := ih (mergeStep s m)
    cases hh : has s.mblogs m with
    | true =>
      rw [mergeStep_dup s m hh] at e ha ⊢
      exact ⟨fresh, e, hsub.cons _, ha⟩
    | false =>
      rw [mergeStep_fresh s m hh] at e ha ⊢
      refine ⟨m :: fresh, by simpa using e, hsub.cons₂ _, ?_⟩
      simp only [List.length_cons] at ha ⊢
      omega

theorem mergeFrom_nodup (s : Merge) (incoming : List Mblog) (h : (s.mblogs.map Mblog.key).Nodup) :
    ((mergeFrom s incoming).mblogs.map Mblog.key).Nodup := by
  induction incoming generalizing s with
  | nil => simpa [mergeFrom_nil] using h
  | cons m rest ih =>
    rw [mergeFrom_cons]
    apply ih
    unfold mergeStep
    split
    · exact h
    · rename_i hh
      have hh' := (has_eq_false_iff _ _).1 (by simpa using hh)
      simp only [List.map_append, List.map_cons, List.map_nil]
      rw [List.nodup_append]
      refine ⟨h, by simp, ?_⟩
      intro a ha hb
      simp only [List.mem_singleton] at hb
      subst hb
      obtain ⟨x, hx, e⟩ := List.mem_map.1 ha
      exact hh' x hx e

theorem mergeFrom_covers (s : Merge) (incoming : List Mblog) :
    (∀ x ∈ s.mblogs, ∃ y ∈ (mergeFrom s incoming).mblogs, y.key = x.key) ∧
    (∀ m ∈ incoming, ∃ y ∈ (mergeFrom s incoming).mblogs, y.key = m.key) := by
  induction incoming generalizing s with
  | nil => exact ⟨fun x hx => ⟨x, hx, rfl⟩, by simp⟩
  | cons m rest ih =>
    rw [mergeFrom_cons]
    obtain ⟨h1, h2⟩ := ih (mergeStep s m)
    have hs : ∀ x ∈ s.mblogs, x ∈ (mergeStep s m).mblogs := by
      intro x hx
      unfold mergeStep
      split
      · exact hx
      · simp [hx]
    refine ⟨fun x hx => h1 x (hs x hx), ?_⟩
    intro y hy
    rcases List.mem_cons.1 hy with rfl | hy
    · by_cases hh : has s.mblogs y = true
      · obtain ⟨x, hx, e⟩ := (has_iff _ _).1 hh
        obtain ⟨z, hz, e2⟩ := h1 x (hs x hx)
        exact ⟨z, hz, e2.trans e⟩
      · exact h1 y (by simp [mergeStep, hh])
    · exact h2 y hy

theorem mergeFrom_all_dups (s : Merge) (incoming : List Mblog)
    (h : ∀ m ∈ incoming, has s.mblogs m = true) :
    mergeFrom s incoming =
      { mblogs := s.mblogs, skipped := s.skipped + incoming.length, archived := s.archived } := by
  induction incoming generalizing s with
  | nil => simp [mergeFrom_nil]
  | cons m rest ih =>
    rw [mergeFrom_cons]
    have hm := h m (by simp)
    rw [mergeStep_dup s m hm, ih]
    · simp; omega
    · intro x hx; exact h x (List.mem_cons_of_mem _ hx)

theorem mergeFrom_filter_present (s : Merge) (incoming : List Mblog) (k : Str)
    (h : ∃ x ∈ s.mblogs, x.key = k) :
    (mergeFrom s incoming).mblogs.filter (fun m => m.key = k) =
      s.mblogs.filter (fun m => m.key = k) := by
  induction incoming generalizing s with
  | nil => rfl
  | cons m rest ih =>
    rw [mergeFrom_cons]
    cases hh : has s.mblogs m with
    | true =>
      rw [mergeStep_dup s m hh]
      exact ih _ h
    | false =>
      have hh' := (has_eq_false_iff _ _).1 hh
      obtain ⟨x, hx, hk⟩ := h
      rw [mergeStep_fresh s m hh]
      refine (ih _ ⟨x, by simp [hx], hk⟩).trans ?_
      have : m.key ≠ k := fun e2 => hh' x hx (hk.trans e2.symm)
      simp [List.filter_append, this]

theorem mergeFrom_filter_absent (s : Merge) (incoming : List Mblog) (k : Str)
    (h : ∀ x ∈ s.mblogs, x.key ≠ k) :
    (mergeFrom s incoming).mblogs.filter (fun m => m.key = k) =
      (incoming.find? (fun m => m.key = k)).toList := by
  induction incoming generalizing s with
  | nil =>
    simp only [mergeFrom_nil, List.find?_nil, Option.toList]
    exact List.filter_eq_nil_iff.2 (fun x hx => by simpa using h x hx)
  | cons m rest ih =>
    rw [mergeFrom_cons]
    cases hh : has s.mblogs m with
    | true =>
      obtain ⟨x, hx, hk⟩ := (has_iff _ _).1 hh
      have : m.key ≠ k := fun e2 => h x hx (hk.trans e2)
      rw [mergeStep_dup s m hh]
      refine (ih { mblogs := s.mblogs, skipped := s.skipped + 1, archived := s.archived } h).trans ?_
      simp [List.find?_cons, this]
    | false =>
      have hh' := (has_eq_false_iff _ _).1 hh
      rw [mergeStep_fresh s m hh]
      by_cases hk : m.key = k
      · rw [mergeFrom_filter_present _ _ k ⟨m, by simp, hk⟩]
        have h0 : s.mblogs.filter (fun m => m.key = k) = [] :=
          List.filter_eq_nil_iff.2 (fun x hx => by simpa using h x hx)
        simp [List.filter_append, h0, hk, List.find?_cons]
      · refine (ih _ ?_).trans ?_
        · intro x hx
          simp only [List.mem_append, List.mem_singleton] at hx
          rcases hx with hx | rfl
          · exact h x hx
          · exact hk
        · simp [List.find?_cons, hk]

/-! ## Lemmas: sorting -/

theorem OrdersList.asymm {less : Mblog → Mblog → Bool} {l : List Mblog} (o : OrdersList less l)
    (a b : Mblog) (ha : a ∈ l) (hb : b ∈ l) (h : less a b = true) : less b a = false := by
  cases hba : less b a with
  | false => rfl
  | true =>
    have := o.trans a ha b hb a ha h hba
    rw [o.irrefl a ha] at this
    exact absurd this (by simp)

theorem mem_insertBack (less : Mblog → Mblog → Bool) (x z : Mblog) (rev : List Mblog) :
    z ∈ insertBack less x rev ↔ z = x ∨ z ∈ rev := by
  induction rev with
  | nil => simp [insertBack]
  | cons y ys ih =>
    unfold insertBack
    split
    · simp only [List.mem_cons, ih]
      tauto
    · simp only [List.mem_cons]

theorem insertBack_perm (less : Mblog → Mblog → Bool) (x : Mblog) (rev : List Mblog) :
    (insertBack less x rev).Perm (x :: rev) := by
  induction rev with
  | nil => simp [insertBack]
  | cons y ys ih =>
    unfold insertBack
    split
    · exact (List.Perm.cons y ih).trans (List.Perm.swap x y ys)
    · exact List.Perm.refl _

theorem insertBack_pairwise (less : Mblog → Mblog → Bool) (l : List Mblog) (o : OrdersList less l)
    (x : Mblog) (hx : x ∈ l) (rev : List Mblog) (hsub : ∀ y ∈ rev, y ∈ l)
    (h : rev.Pairwise (fun a b => less a b = false)) :
    (insertBack less x rev).Pairwise (fun a b => less a b = false) := by
  induction rev with
  | nil => simp [insertBack]
  | cons y ys ih =>
    have hy : y ∈ l := hsub y (by simp)
    have hys : ∀ z ∈ ys, z ∈ l := fun z hz => hsub z (List.mem_cons_of_mem _ hz)
    rw [List.pairwise_cons] at h
    unfold insertBack
    split
    · rename_i hlt
      rw [List.pairwise_cons]
      refine ⟨?_, ih hys h.2⟩
      intro z hz
      rcases (mem_insertBack less x z ys).1 hz with rfl | hz
      · exact o.asymm _ _ hx hy hlt
      · exact h.1 z hz
    · rename_i hlt
      have hxy : less x y = false := by simpa using hlt
      rw [List.pairwise_cons]
      refine ⟨?_, List.pairwise_cons.2 h⟩
      intro z hz
      rcases List.mem_cons.1 hz with rfl | hz
      · exact hxy
      · exact o.negTrans x hx y hy z (hys z hz) hxy (h.1 z hz)

theorem insertionSort_fold (less : Mblog → Mblog → Bool) (l : List Mblog) (o : OrdersList less l)
    (todo rev : List Mblog) (ht : ∀ y ∈ todo, y ∈ l) (hr : ∀ y ∈ rev, y ∈ l)
    (h : rev.Pairwise (fun a b => less a b = false)) :
    (∀ y ∈ todo.foldl (fun rev x => insertBack less x rev) rev, y ∈ l) ∧
    (todo.foldl (fun rev x => insertBack less x rev) rev).Pairwise (fun a b => less a b = false) := by
  induction todo generalizing rev with
  | nil => exact ⟨hr, h⟩
  | cons x xs ih =>
    simp only [List.foldl_cons]
    apply ih _ (fun y hy => ht y (List.mem_cons_of_mem _ hy))
    · intro y hy
      rcases (mem_insertBack less x y rev).1 hy with rfl | hy
      · exact ht _ (by simp)
      · exact hr y hy
    · exact insertBack_pairwise less l o x (ht x (by simp)) rev hr h

theorem insertionSort_fold_perm (less : Mblog → Mblog → Bool) (todo rev : List Mblog) :
    (todo.foldl (fun rev x => insertBack less x rev) rev).Perm (todo ++ rev) := by
  induction todo generalizing rev with
  | nil => simp
  | cons x xs ih =>
    simp only [List.foldl_cons]
    refine (ih _).trans ?_
    refine (List.Perm.append_left xs (insertBack_perm less x rev)).trans ?_
    simp only [List.cons_append]
    exact List.perm_middle

/-- Go's insertion sort keeps the contract of `sort.Slice`. -/
theorem insertionSort_contract : SortContract insertionSort := by
  constructor
  · intro less l
    unfold insertionSort
    refine (List.reverse_perm _).trans ?_
    simpa using insertionSort_fold_perm less l []
  · intro less l o
    unfold insertionSort
    rw [List.pairwise_reverse]
    exact (insertionSort_fold less l o l [] (fun _ h => h) (by simp) List.Pairwise.nil).2

theorem less_eq_false_iff (E : Env) (a b : Mblog) : less E b a = false ↔ inOrder E a b := by
  unfold less inOrder
  cases E.parseTime a.CreatedAt <;> cases E.parseTime b.CreatedAt <;> simp

/-- On records whose timestamps all parse, the comparison of `save` is a
transitive ordering. -/
theorem less_orders_of_parse (E : Env) (l : List Mblog)
    (h : ∀ m ∈ l, ∃ d, E.parseTime m.CreatedAt = some d) : OrdersList (less E) l := by
  constructor
  · intro a ha
    obtain ⟨da, ea⟩ := h a ha
    simp [less, ea]
  · intro a ha b hb c hc
    obtain ⟨da, ea⟩ := h a ha
    obtain ⟨db, eb⟩ := h b hb
    obtain ⟨dc, ec⟩ := h c hc
    simp only [less, ea, eb, ec, decide_eq_true_eq]
    omega
  · intro a ha b hb c hc
    obtain ⟨da, ea⟩ := h a ha
    obtain ⟨db, eb⟩ := h b hb
    obtain ⟨dc, ec⟩ := h c hc
    simp only [less, ea, eb, ec, decide_eq_false_iff_not]
    omega

/-- On records none of whose timestamps parses, the comparison of `save` is a
transitive ordering. -/
theorem less_orders_of_no_parse (E : Env) (l : List Mblog)
    (h : ∀ m ∈ l, E.parseTime m.CreatedAt = none) : OrdersList (less E) l := by
  constructor
  · intro a ha
    simp [less, h a ha]
  · intro a ha b hb c hc
    simp only [less, h a ha, h b hb, h c hc, decide_eq_true_eq]
    omega
  · intro a ha b hb c hc
    simp only [less, h a ha, h b hb, h c hc, decide_eq_false_iff_not]
    omega

theorem writeOrder_pairwise (E : Env) (hs : SortContract E.sortSlice) (l : List Mblog)
    (o : OrdersList (less E) l) : (writeOrder E l).Pairwise (inOrder E) := by
  have := hs.sorted (less E) l o
  exact this.imp (fun {a b} h => (less_eq_false_iff E a b).1 h)

/-! ## Lemmas: grouping by month -/

theorem addToGroup_keys (d : Str) (m : Mblog) (gs : List (Str × List Mblog)) :
    (addToGroup d m gs).map Prod.fst =
      if d ∈ gs.map Prod.fst then gs.map Prod.fst else gs.map Prod.fst ++ [d] := by
  induction gs with
  | nil => simp [addToGroup]
  | cons g rest ih =>
    obtain ⟨d1, g1⟩ := g
    unfold addToGroup
    by_cases h : d1 = d
    · simp [h]
    · have h' : ¬ d = d1 := fun e => h e.symm
      simp only [h, if_false, List.map_cons, ih, List.mem_cons, h', false_or]
      split <;> simp

theorem addToGroup_mem (d : Str) (m : Mblog) (gs : List (Str × List Mblog))
    (hnd : (gs.map Prod.fst).Nodup) (d' : Str) (g' : List Mblog)
    (h : (d', g') ∈ addToGroup d m gs) :
    (d' ≠ d ∧ (d', g') ∈ gs) ∨
      (d' = d ∧ ((∃ g, (d, g) ∈ gs ∧ g' = g ++ [m]) ∨ (d ∉ gs.map Prod.fst ∧ g' = [m]))) := by
  induction gs with
  | nil =>
    simp only [addToGroup, List.mem_singleton, Prod.mk.injEq] at h
    exact Or.inr ⟨h.1, Or.inr ⟨by simp, h.2⟩⟩
  | cons g rest ih =>
    obtain ⟨d1, g1⟩ := g
    simp only [List.map_cons, List.nodup_cons] at hnd
    unfold addToGroup at h
    by_cases hd : d1 = d
    · simp only [hd, if_true, List.mem_cons, Prod.mk.injEq] at h
      rcases h with ⟨e1, e2⟩ | h
      · exact Or.inr ⟨e1, Or.inl ⟨g1, by simp [hd], e2⟩⟩
      · refine Or.inl ⟨?_, List.mem_cons_of_mem _ h⟩
        intro e
        apply hnd.1
        rw [hd, ← e]
        exact List.mem_map.2 ⟨(d', g'), h, rfl⟩
    · simp only [hd, if_false, List.mem_cons, Prod.mk.injEq] at h
      rcases h with ⟨e1, e2⟩ | h
      · exact Or.inl ⟨by rw [e1]; exact hd, by simp [e1, e2]⟩
      · rcases ih hnd.2 h with ⟨h1, h2⟩ | ⟨h1, ⟨g, hg, e⟩ | ⟨hn, e⟩⟩
        · exact Or.inl ⟨h1, List.mem_cons_of_mem _ h2⟩
        · exact Or.inr ⟨h1, Or.inl ⟨g, List.mem_cons_of_mem _ hg, e⟩⟩
        · refine Or.inr ⟨h1, Or.inr ⟨?_, e⟩⟩
          simp only [List.map_cons, List.mem_cons, not_or]
          exact ⟨fun e => hd e.symm, hn⟩

theorem addToGroup_sum (d : Str) (m : Mblog) (gs : List (Str × List Mblog)) :
    ((addToGroup d m gs).map (fun g => g.2.length)).sum = (gs.map (fun g => g.2.length)).sum + 1 := by
  induction gs with
  | nil => simp [addToGroup]
  | cons g rest ih =>
    obtain ⟨d1, g1⟩ := g
    unfold addToGroup
    split
    · simp; omega
    · simp [ih]; omega

theorem grouped_step (E : Env) (ms : List Mblog) (g : Grouping) (h : Grouped E ms g) (m : Mblog) :
    Grouped E (ms ++ [m]) (groupStep E g m) := by
  unfold groupStep
  cases hp : E.parseTime m.CreatedAt with
  | none =>
    have hm : monthOf E m = none := by simp [monthOf, hp]
    constructor
    · exact h.nodup
    · intro d l hl
      have := h.group d l hl
      simp only [List.filter_append, List.filter_cons, List.filter_nil, hm]
      simpa using this
    · intro x hx d hd
      rcases List.mem_append.1 hx with hx | hx
      · exact h.key x hx d hd
      · simp only [List.mem_singleton] at hx
        subst hx
        rw [hm] at hd
        exact absurd hd (by simp)
    · simp [List.filter_append, hp, h.failed]
    · simp only [List.length_append, List.length_singleton]
      have := h.total
      omega
  | some t =>
    have hm : monthOf E m = some (E.formatMonth t) := by simp [monthOf, hp]
    constructor
    · show ((addToGroup _ m g.groups).map Prod.fst).Nodup
      rw [addToGroup_keys]
      split
      · exact h.nodup
      · rename_i hn
        rw [List.nodup_append]
        refine ⟨h.nodup, by simp, ?_⟩
        intro a ha hb
        simp only [List.mem_singleton] at hb
        subst hb
        exact hn ha
    · intro d l hl
      rcases addToGroup_mem _ m g.groups h.nodup d l hl with ⟨h1, h2⟩ | ⟨h1, ⟨l0, hl0, e⟩ | ⟨hn, e⟩⟩
      · have := h.group d l h2
        have hne : ¬ (E.formatMonth t = d) := fun e => h1 e.symm
        simp only [List.filter_append, List.filter_cons, List.filter_nil, hm, Option.some.injEq,
          hne, decide_False]
        simpa using this
      · subst h1
        have := h.group _ l0 hl0
        refine ⟨?_, by simp [e]⟩
        simp only [List.filter_append, List.filter_cons, List.filter_nil, hm, decide_True]
        rw [e, this.1]
        simp
      · subst h1
        refine ⟨?_, by simp [e]⟩
        have h0 : ms.filter (fun x => monthOf E x = some (E.formatMonth t)) = [] := by
          apply List.filter_eq_nil_iff.2
          intro x hx hx'
          exact hn (h.key x hx _ (by simpa using hx'))
        simp only [List.filter_append, List.filter_cons, List.filter_nil, hm, decide_True, h0, e]
        simp
    · intro x hx d hd
      show d ∈ (addToGroup _ m g.groups).map Prod.fst
      rw [addToGroup_keys]
      rcases List.mem_append.1 hx with hx | hx
      · have := h.key x hx d hd
        split
        · exact this
        · exact List.mem_append_left _ this
      · simp only [List.mem_singleton] at hx
        subst hx
        rw [hm] at hd
        simp only [Option.some.injEq] at hd
        subst hd
        split
        · assumption
        · simp
    · simp [List.filter_append, hp, h.failed]
    · show ((addToGroup _ m g.groups).map (fun e => e.2.length)).sum + g.failed = _
      rw [addToGroup_sum]
      simp only [List.length_append, List.length_singleton]
      have := h.total
      omega

theorem groupByMonth_grouped (E : Env) (ms : List Mblog) : Grouped E ms (groupByMonth E ms) := by
  unfold groupByMonth
  induction ms using List.reverseRecOn with
  | nil =>
    simp only [List.foldl_nil]
    constructor <;> simp
  | append_singleton l a ih =>
    rw [List.foldl_append]
    exact grouped_step E l _ ih a

/-! ## Lemmas: the file system -/

theorem osWriteFile_some (E : Env) (fs fs' : FS) (p c : Str) (h : osWriteFile E fs p c = some fs') :
    fs' = (fun q => if q = p then some (.file c) else fs q) ∧ fs p ≠ some .dir := by
  unfold osWriteFile at h
  split at h
  · exact absurd h (by simp)
  · rename_i hn
    simp only [not_or] at hn
    simp only [Option.some.injEq] at h
    exact ⟨h.symm, hn.2.1⟩

theorem osMkdirAll_some (E : Env) (fs fs' : FS) (p : Str) (h : osMkdirAll E fs p = some fs') :
    fs' p = some .dir ∧ (∀ q, fs q ≠ none → fs' q = fs q) := by
  unfold osMkdirAll at h
  split at h
  · rename_i hst
    simp only [Option.some.injEq] at h
    subst h
    refine ⟨?_, fun _ _ => rfl⟩
    unfold osStat at hst
    split at hst
    · exact absurd hst (by simp)
    · split at hst
      · exact absurd hst (by simp)
      · assumption
      · exact absurd hst (by simp)
  · exact absurd h (by simp)
  · split at h
    · exact absurd h (by simp)
    · rename_i hn
      simp only [not_or, not_not] at hn
      simp only [Option.some.injEq] at h
      subst h
      refine ⟨by simp, ?_⟩
      intro q hq
      have h1 : q ≠ p := fun e => hq (e ▸ hn.2.2)
      simp [h1, hq]

theorem osMkdirAll_of_dir (E : Env) (fs : FS) (p : Str) (h : osStat E fs p = .found true) :
    osMkdirAll E fs p = some fs := by
  simp [osMkdirAll, h]

theorem osStat_of_dir (E : Env) (fs : FS) (p : Str) (h : fs p = some .dir) :
    osStat E fs p = .found true ∨ osStat E fs p = .failed := by
  unfold osStat
  split
  · exact Or.inr rfl
  · simp [h]

theorem osStat_of_file (E : Env) (fs : FS) (p c : Str) (h : fs p = some (.file c)) :
    osStat E fs p = .found false ∨ osStat E fs p = .failed := by
  unfold osStat
  split
  · exact Or.inr rfl
  · simp [h]

theorem osStat_found_false (E : Env) (fs : FS) (p : Str) (h : osStat E fs p = .found false) :
    ∃ c, fs p = some (.file c) := by
  unfold osStat at h
  split at h
  · exact absurd h (by simp)
  · split at h
    · exact absurd h (by simp)
    · exact absurd h (by simp)
    · rename_i c hc
      exact ⟨c, hc⟩

theorem load_some (E : Env) (fs : FS) (file : Str) (l : List Mblog) (h : load E fs file = some l) :
    (fs file = none ∧ l = []) ∨ (∃ c, fs file = some (.file c) ∧ l = parseFile c) := by
  unfold load at h
  split at h
  · rename_i hr
    left
    simp only [Option.some.injEq] at h
    refine ⟨?_, h.symm⟩
    unfold osReadFile at hr
    split at hr
    · exact absurd hr (by simp)
    · split at hr
      · assumption
      · exact absurd hr (by simp)
      · exact absurd hr (by simp)
  · exact absurd h (by simp)
  · rename_i b hr
    right
    simp only [Option.some.injEq] at h
    refine ⟨b, ?_, h.symm⟩
    unfold osReadFile at hr
    split at hr
    · exact absurd hr (by simp)
    · split at hr
      · exact absurd hr (by simp)
      · exact absurd hr (by simp)
      · rename_i c hc
        simp only [ReadResult.ok.injEq] at hr
        rw [← hr]; exact hc

theorem load_of_file (E : Env) (fs : FS) (file c : Str) (h : fs file = some (.file c)) :
    load E fs file = none ∨ load E fs file = some (parseFile c) := by
  unfold load osReadFile
  split
  · rename_i hr
    split at hr
    · exact absurd hr (by simp)
    · rw [h] at hr; exact absurd hr (by simp)
  · exact Or.inl rfl
  · rename_i b hr
    right
    split at hr
    · exact absurd hr (by simp)
    · rw [h] at hr
      simp only [ReadResult.ok.injEq] at hr
      rw [← hr]

/-! ## Lemmas: one month group -/

theorem merged_plain (E : Env) (fs : FS) (file : Str) (loaded g : List Mblog)
    (hl : load E fs file = some loaded) (hg : ∀ m ∈ g, plain m.CreatedAt ∧ plain m.MblogID) :
    ∀ m ∈ (merge loaded g).mblogs, plain m.CreatedAt ∧ plain m.MblogID := by
  intro m hm
  obtain ⟨fresh, e, hsub, _⟩ := mergeFrom_extends { mblogs := loaded, skipped := 0, archived := 0 } g
  unfold merge at hm
  rw [e] at hm
  rcases List.mem_append.1 hm with hm | hm
  · rcases load_some E fs file loaded hl with ⟨_, e2⟩ | ⟨c, _, e2⟩
    · rw [e2] at hm; exact absurd hm (by simp)
    · rw [e2] at hm
      have := parseFile_plain c m hm
      exact ⟨this.1, this.2.1⟩
  · exact hg m (hsub.subset hm)

theorem save_content (E : Env) (hs : SortContract E.sortSlice) (fs fs' : FS) (file : Str)
    (ms : List Mblog) (hp : ∀ m ∈ ms, plain m.CreatedAt ∧ plain m.MblogID)
    (h : save E fs file ms = some fs') :
    fs' = (fun q => if q = file then some (.file (stringsJoin '\n' (savedLines E ms))) else fs q) ∧
    fs file ≠ some .dir ∧
    parseFile (stringsJoin '\n' (savedLines E ms)) = (writeOrder E ms).map reload := by
  obtain ⟨e, hd⟩ := osWriteFile_some E fs fs' file _ h
  refine ⟨e, hd, ?_⟩
  unfold savedLines
  apply parseFile_join_renderLine
  intro m hm
  exact hp m ((hs.perm _ _).subset hm)

theorem save_keys (E : Env) (hs : SortContract E.sortSlice) (ms : List Mblog) (k : Str) :
    k ∈ ((writeOrder E ms).map reload).map Mblog.key ↔ k ∈ ms.map Mblog.key := by
  simp only [List.map_map, List.mem_map, Function.comp, reload_key]
  constructor
  · rintro ⟨m, hm, e⟩; exact ⟨m, (hs.perm _ _).subset hm, e⟩
  · rintro ⟨m, hm, e⟩; exact ⟨m, (hs.perm _ _).symm.subset hm, e⟩

theorem processGroup_load_none (E : Env) (dir : Str) (p : Progress) (g : Str × List Mblog)
    (hl : load E p.fs (monthFile dir g.1) = none) :
    processGroup E dir p g =
      { p with stat := { p.stat with Failed := p.stat.Failed + g.2.length },
               log := p.log ++ [.loadFailed (monthFile dir g.1)] } := by
  simp [processGroup, hl]

theorem processGroup_no_write (E : Env) (dir : Str) (p : Progress) (g : Str × List Mblog)
    (loaded : List Mblog) (hl : load E p.fs (monthFile dir g.1) = some loaded)
    (ha : ¬ 0 < (merge loaded g.2).archived) :
    processGroup E dir p g =
      { p with stat := { p.stat with Skipped := p.stat.Skipped + (merge loaded g.2).skipped,
                                     Archived := p.stat.Archived + (merge loaded g.2).archived } } := by
  simp only [processGroup, hl, if_neg ha]

theorem processGroup_save_none (E : Env) (dir : Str) (p : Progress) (g : Str × List Mblog)
    (loaded : List Mblog) (hl : load E p.fs (monthFile dir g.1) = some loaded)
    (ha : 0 < (merge loaded g.2).archived)
    (hsv : save E p.fs (monthFile dir g.1) (merge loaded g.2).mblogs = none) :
    processGroup E dir p g =
      { p with stat := { p.stat with Failed := p.stat.Failed + g.2.length },
               log := p.log ++ [.saveFailed (monthFile dir g.1)] } := by
  simp only [processGroup, hl, if_pos ha, hsv]

theorem processGroup_save_some (E : Env) (dir : Str) (p : Progress) (g : Str × List Mblog)
    (loaded : List Mblog) (fs' : FS) (hl : load E p.fs (monthFile dir g.1) = some loaded)
    (ha : 0 < (merge loaded g.2).archived)
    (hsv : save E p.fs (monthFile dir g.1) (merge loaded g.2).mblogs = some fs') :
    processGroup E dir p g =
      { p with fs := fs',
               stat := { p.stat with Skipped := p.stat.Skipped + (merge loaded g.2).skipped,
                                     Archived := p.stat.Archived + (merge loaded g.2).archived } } := by
  simp only [processGroup, hl, if_pos ha, hsv]

/-- Whatever happens to a month group, directories stay directories, files
stay files, and no key is lost from any file. -/
theorem processGroup_mono (E : Env) (hs : SortContract E.sortSlice) (dir : Str) (p : Progress)
    (g : Str × List Mblog) (hg : ∀ m ∈ g.2, plain m.CreatedAt ∧ plain m.MblogID) :
    (∀ q, p.fs q = some .dir → (processGroup E dir p g).fs q = some .dir) ∧
    (∀ q c, p.fs q = some (.file c) → ∃ c', (processGroup E dir p g).fs q = some (.file c')) ∧
    (∀ q k, HasKey p.fs q k → HasKey (processGroup E dir p g).fs q k) := by
  cases hl : load E p.fs (monthFile dir g.1) with
  | none =>
    rw [processGroup_load_none E dir p g hl]
    exact ⟨fun _ h => h, fun _ c h => ⟨c, h⟩, fun _ _ h => h⟩
  | some loaded =>
    by_cases ha : 0 < (merge loaded g.2).archived
    · cases hsv : save E p.fs (monthFile dir g.1) (merge loaded g.2).mblogs with
      | none =>
        rw [processGroup_save_none E dir p g loaded hl ha hsv]
        exact ⟨fun _ h => h, fun _ c h => ⟨c, h⟩, fun _ _ h => h⟩
      | some fs' =>
        rw [processGroup_save_some E dir p g loaded fs' hl ha hsv]
        obtain ⟨e, hd, hpf⟩ := save_content E hs p.fs fs' _ _ (merged_plain E p.fs _ loaded g.2 hl hg) hsv
        subst e
        refine ⟨?_, ?_, ?_⟩
        · intro q hq
          have : q ≠ monthFile dir g.1 := fun e => hd (e ▸ hq)
          simp [this, hq]
        · intro q c hq
          by_cases hqf : q = monthFile dir g.1
          · exact ⟨stringsJoin '\n' (savedLines E (merge loaded g.2).mblogs), by simp [hqf]⟩
          · exact ⟨c, by simp [hqf, hq]⟩
        · intro q k hk
          by_cases hqf : q = monthFile dir g.1
          · subst hqf
            obtain ⟨c, hc, hkc⟩ := hk
            refine ⟨stringsJoin '\n' (savedLines E (merge loaded g.2).mblogs), by simp, ?_⟩
            rw [hpf, save_keys E hs]
            rcases load_some E p.fs _ loaded hl with ⟨hn, _⟩ | ⟨c', hc', e2⟩
            · rw [hn] at hc; exact absurd hc (by simp)
            · rw [hc'] at hc
              simp only [Option.some.injEq, Node.file.injEq] at hc
              subst hc
              subst e2
              obtain ⟨x, hx, ex⟩ := List.mem_map.1 hkc
              obtain ⟨y, hy, ey⟩ := (mergeFrom_covers
                { mblogs := parseFile c', skipped := 0, archived := 0 } g.2).1 x hx
              exact List.mem_map.2 ⟨y, hy, ey.trans ex⟩
          · obtain ⟨c, hc, hkc⟩ := hk
            exact ⟨c, by simp [hqf, hc], hkc⟩
    · rw [processGroup_no_write E dir p g loaded hl ha]
      exact ⟨fun _ h => h, fun _ c h => ⟨c, h⟩, fun _ _ h => h⟩

theorem processGroup_log (E : Env) (dir : Str) (p : Progress) (g : Str × List Mblog) :
    ∃ extra, (processGroup E dir p g).log = p.log ++ extra := by
  cases hl : load E p.fs (monthFile dir g.1) with
  | none =>
    rw [processGroup_load_none E dir p g hl]
    exact ⟨_, rfl⟩
  | some loaded =>
    by_cases ha : 0 < (merge loaded g.2).archived
    · cases hsv : save E p.fs (monthFile dir g.1) (merge loaded g.2).mblogs with
      | none =>
        rw [processGroup_save_none E dir p g loaded hl ha hsv]
        exact ⟨_, rfl⟩
      | some fs' =>
        rw [processGroup_save_some E dir p g loaded fs' hl ha hsv]
        exact ⟨[], by simp⟩
    · rw [processGroup_no_write E dir p g loaded hl ha]
      exact ⟨[], by simp⟩

/-- A month group processed without a logged file failure: the counters of the
dedup loop are committed, and every incoming key is in the file afterwards. -/
theorem processGroup_quiet (E : Env) (hs : SortContract E.sortSlice) (dir : Str) (p : Progress)
    (g : Str × List Mblog) (hg : ∀ m ∈ g.2, plain m.CreatedAt ∧ plain m.MblogID)
    (hq : ∀ e ∈ (processGroup E dir p g).log, e.isFileFailure = false) :
    ∃ loaded, load E p.fs (monthFile dir g.1) = some loaded ∧
      (processGroup E dir p g).stat =
        { p.stat with Skipped := p.stat.Skipped + (merge loaded g.2).skipped,
                      Archived := p.stat.Archived + (merge loaded g.2).archived } ∧
      (processGroup E dir p g).log = p.log ∧
      ((merge loaded g.2).archived = 0 → (processGroup E dir p g).fs = p.fs) ∧
      (∀ m ∈ g.2, HasKey (processGroup E dir p g).fs (monthFile dir g.1) m.key) := by
  cases hl : load E p.fs (monthFile dir g.1) with
  | none =>
    rw [processGroup_load_none E dir p g hl] at hq
    have := hq (.loadFailed (monthFile dir g.1)) (by simp)
    exact absurd this (by simp [Event.isFileFailure])
  | some loaded =>
    refine ⟨loaded, rfl, ?_⟩
    by_cases ha : 0 < (merge loaded g.2).archived
    · cases hsv : save E p.fs (monthFile dir g.1) (merge loaded g.2).mblogs with
      | none =>
        rw [processGroup_save_none E dir p g loaded hl ha hsv] at hq
        have := hq (.saveFailed (monthFile dir g.1)) (by simp)
        exact absurd this (by simp [Event.isFileFailure])
      | some fs' =>
        rw [processGroup_save_some E dir p g loaded fs' hl ha hsv]
        refine ⟨rfl, rfl, fun h0 => absurd h0 (by omega), ?_⟩
        obtain ⟨e, hd, hpf⟩ := save_content E hs p.fs fs' _ _ (merged_plain E p.fs _ loaded g.2 hl hg) hsv
        subst e
        intro m hm
        refine ⟨stringsJoin '\n' (savedLines E (merge loaded g.2).mblogs), by simp, ?_⟩
        rw [hpf, save_keys E hs]
        obtain ⟨y, hy, ey⟩ := (mergeFrom_covers
          { mblogs := loaded, skipped := 0, archived := 0 } g.2).2 m hm
        exact List.mem_map.2 ⟨y, hy, ey⟩
    · rw [processGroup_no_write E dir p g loaded hl ha]
      refine ⟨rfl, rfl, fun _ => rfl, ?_⟩
      intro m hm
      have ha0 : (merge loaded g.2).archived = 0 := by omega
      obtain ⟨fresh, e, hsub, hlen⟩ := mergeFrom_extends { mblogs := loaded, skipped := 0, archived := 0 } g.2
      have hf : fresh = [] := by
        unfold merge at ha0
        rw [ha0] at hlen
        simp only [zero_add] at hlen
        exact List.length_eq_zero.1 hlen.symm
      obtain ⟨y, hy, ey⟩ := (mergeFrom_covers
          { mblogs := loaded, skipped := 0, archived := 0 } g.2).2 m hm
      rw [e, hf, List.append_nil] at hy
      rcases load_some E p.fs _ loaded hl with ⟨_, e2⟩ | ⟨c, hc, e2⟩
      · rw [e2] at hy; exact absurd hy (by simp)
      · refine ⟨c, hc, ?_⟩
        rw [← e2]
        exact List.mem_map.2 ⟨y, hy, ey⟩

/-- A month group all of whose keys are in the file already: nothing is
written and every record is skipped. -/
theorem processGroup_second (E : Env) (hs : SortContract E.sortSlice) (dir : Str) (p : Progress)
    (g : Str × List Mblog) (hg : ∀ m ∈ g.2, plain m.CreatedAt ∧ plain m.MblogID)
    (hk : ∀ m ∈ g.2, HasKey p.fs (monthFile dir g.1) m.key)
    (hq : ∀ e ∈ (processGroup E dir p g).log, e.isFileFailure = false) :
    (processGroup E dir p g).fs = p.fs ∧
    (processGroup E dir p g).stat = { p.stat with Skipped := p.stat.Skipped + g.2.length } ∧
    (processGroup E dir p g).log = p.log := by
  obtain ⟨loaded, hl, hst, hlog, hfs, _⟩ := processGroup_quiet E hs dir p g hg hq
  have hall : ∀ m ∈ g.2, has loaded m = true := by
    intro m hm
    obtain ⟨c, hc, hkc⟩ := hk m hm
    rcases load_some E p.fs _ loaded hl with ⟨hn, _⟩ | ⟨c', hc', e2⟩
    · rw [hn] at hc; exact absurd hc (by simp)
    · rw [hc'] at hc
      simp only [Option.some.injEq, Node.file.injEq] at hc
      subst hc
      subst e2
      obtain ⟨x, hx, ex⟩ := List.mem_map.1 hkc
      exact (has_iff _ _).2 ⟨x, hx, ex⟩
  have hm := mergeFrom_all_dups { mblogs := loaded, skipped := 0, archived := 0 } g.2 hall
  have hm' : merge loaded g.2 = { mblogs := loaded, skipped := 0 + g.2.length, archived := 0 } := hm
  rw [hm'] at hst hfs
  refine ⟨hfs rfl, ?_, hlog⟩
  rw [hst]
  simp

/-! ## Lemmas: the month groups of one account -/

theorem groups_log (E : Env) (dir : Str) (gs : List (Str × List Mblog)) (p : Progress) :
    ∃ extra, (gs.foldl (processGroup E dir) p).log = p.log ++ extra := by
  induction gs generalizing p with
  | nil => exact ⟨[], by simp⟩
  | cons g rest ih =>
    obtain ⟨e1, h1⟩ := processGroup_log E dir p g
    obtain ⟨e2, h2⟩ := ih (processGroup E dir p g)
    exact ⟨e1 ++ e2, by rw [List.foldl_cons, h2, h1, List.append_assoc]⟩

theorem groups_mono (E : Env) (hs : SortContract E.sortSlice) (dir : Str)
    (gs : List (Str × List Mblog)) (p : Progress)
    (hg : ∀ g ∈ gs, ∀ m ∈ g.2, plain m.CreatedAt ∧ plain m.MblogID) :
    (∀ q, p.fs q = some .dir → (gs.foldl (processGroup E dir) p).fs q = some .dir) ∧
    (∀ q c, p.fs q = some (.file c) → ∃ c', (gs.foldl (processGroup E dir) p).fs q = some (.file c')) ∧
    (∀ q k, HasKey p.fs q k → HasKey (gs.foldl (processGroup E dir) p).fs q k) := by
  induction gs generalizing p with
  | nil => exact ⟨fun _ h => h, fun _ c h => ⟨c, h⟩, fun _ _ h => h⟩
  | cons g rest ih =>
    obtain ⟨a1, b1, c1⟩ := processGroup_mono E hs dir p g (hg g (by simp))
    obtain ⟨a2, b2, c2⟩ := ih (processGroup E dir p g) (fun x hx => hg x (List.mem_cons_of_mem _ hx))
    refine ⟨fun q h => a2 q (a1 q h), ?_, fun q k h => c2 q k (c1 q k h)⟩
    intro q c h
    obtain ⟨c', h'⟩ := b1 q c h
    exact b2 q c' h'

/-- The month groups of an account processed without a logged file failure. -/
theorem groups_quiet (E : Env) (hs : SortContract E.sortSlice) (dir : Str)
    (gs : List (Str × List Mblog)) (p : Progress)
    (hg : ∀ g ∈ gs, ∀ m ∈ g.2, plain m.CreatedAt ∧ plain m.MblogID)
    (hq : ∀ e ∈ (gs.foldl (processGroup E dir) p).log, e.isFileFailure = false) :
    (gs.foldl (processGroup E dir) p).log = p.log ∧
    (∀ g ∈ gs, ∀ m ∈ g.2, HasKey (gs.foldl (processGroup E dir) p).fs (monthFile dir g.1) m.key) ∧
    (gs.foldl (processGroup E dir) p).stat.Userid = p.stat.Userid ∧
    (gs.foldl (processGroup E dir) p).stat.Fetched = p.stat.Fetched ∧
    (gs.foldl (processGroup E dir) p).stat.Failed = p.stat.Failed ∧
    (gs.foldl (processGroup E dir) p).stat.Skipped + (gs.foldl (processGroup E dir) p).stat.Archived =
      p.stat.Skipped + p.stat.Archived + (gs.map (fun g => g.2.length)).sum := by
  induction gs generalizing p with
  | nil => simp
  | cons g rest ih =>
    simp only [List.foldl_cons] at hq ⊢
    have hrest : ∀ x ∈ rest, ∀ m ∈ x.2, plain m.CreatedAt ∧ plain m.MblogID :=
      fun x hx => hg x (List.mem_cons_of_mem _ hx)
    obtain ⟨extra, hex⟩ := groups_log E dir rest (processGroup E dir p g)
    have hq1 : ∀ e ∈ (processGroup E dir p g).log, e.isFileFailure = false := by
      intro e he
      exact hq e (by rw [hex]; exact List.mem_append_left _ he)
    obtain ⟨loaded, hl, hst, hlog, _, hcov⟩ := processGroup_quiet E hs dir p g (hg g (by simp)) hq1
    obtain ⟨i1, i2, i3, i4, i5, i6⟩ := ih (processGroup E dir p g) hrest hq
    obtain ⟨_, _, mono⟩ := groups_mono E hs dir rest (processGroup E dir p g) hrest
    refine ⟨i1.trans hlog, ?_, by rw [i3, hst], by rw [i4, hst], by rw [i5, hst], ?_⟩
    · intro x hx m hm
      rcases List.mem_cons.1 hx with rfl | hx
      · exact mono _ _ (hcov m hm)
      · exact i2 x hx m hm
    · rw [i6, hst]
      have := mergeFrom_counts { mblogs := loaded, skipped := 0, archived := 0 } g.2
      simp only [List.map_cons, List.sum_cons]
      unfold merge
      simp only [zero_add] at this
      omega

/-- The month groups of an account all of whose keys are in the files already. -/
theorem groups_second (E : Env) (hs : SortContract E.sortSlice) (dir : Str)
    (gs : List (Str × List Mblog)) (p : Progress)
    (hg : ∀ g ∈ gs, ∀ m ∈ g.2, plain m.CreatedAt ∧ plain m.MblogID)
    (hk : ∀ g ∈ gs, ∀ m ∈ g.2, HasKey p.fs (monthFile dir g.1) m.key)
    (hq : ∀ e ∈ (gs.foldl (processGroup E dir) p).log, e.isFileFailure = false) :
    (gs.foldl (processGroup E dir) p).fs = p.fs ∧
    (gs.foldl (processGroup E dir) p).stat =
      { p.stat with Skipped := p.stat.Skipped + (gs.map (fun g => g.2.length)).sum } := by
  induction gs generalizing p with
  | nil => simp
  | cons g rest ih =>
    simp only [List.foldl_cons] at hq ⊢
    obtain ⟨extra, hex⟩ := groups_log E dir rest (processGroup E dir p g)
    have hq1 : ∀ e ∈ (processGroup E dir p g).log, e.isFileFailure = false := by
      intro e he
      exact hq e (by rw [hex]; exact List.mem_append_left _ he)
    obtain ⟨hfs, hst, _⟩ := processGroup_second E hs dir p g (hg g (by simp)) (hk g (by simp)) hq1
    obtain ⟨i1, i2⟩ := ih (processGroup E dir p g) (fun x hx => hg x (List.mem_cons_of_mem _ hx))
      (by rw [hfs]; exact fun x hx => hk x (List.mem_cons_of_mem _ hx)) hq
    refine ⟨i1.trans hfs, ?_⟩
    rw [i2, hst]
    simp only [List.map_cons, List.sum_cons, Stat.mk.injEq, true_and, and_true]
    omega

/-! ## Lemmas: `get` -/

theorem getLoop_none (E : Env) (userid : Str) (pages : List Nat) (acc : List Mblog)
    (log : List Event) (p : Nat) (hp : p ∈ pages) (hf : E.fetch userid p = none) :
    (getLoop E userid pages acc log).1 = none := by
  induction pages generalizing acc log with
  | nil => exact absurd hp (by simp)
  | cons q rest ih =>
    unfold getLoop
    cases hq : E.fetch userid q with
    | none => rfl
    | some ms =>
      simp only
      rcases List.mem_cons.1 hp with rfl | hp
      · rw [hf] at hq; exact absurd hq (by simp)
      · exact ih _ _ hp

theorem getLoop_some (E : Env) (userid : Str) (pages : List Nat) (acc : List Mblog)
    (log : List Event) (ms : List Mblog) (h : (getLoop E userid pages acc log).1 = some ms) :
    ms = acc ++ pages.flatMap (fun p => (E.fetch userid p).getD []) ∧
      ∀ p ∈ pages, E.fetch userid p ≠ none := by
  induction pages generalizing acc log with
  | nil =>
    simp only [getLoop, Option.some.injEq] at h
    simp [h]
  | cons q rest ih =>
    unfold getLoop at h
    cases hq : E.fetch userid q with
    | none => rw [hq] at h; exact absurd h (by simp)
    | some l =>
      rw [hq] at h
      obtain ⟨e, hne⟩ := ih _ _ h
      refine ⟨by rw [e]; simp [hq], ?_⟩
      intro p hp
      rcases List.mem_cons.1 hp with rfl | hp
      · rw [hq]; simp
      · exact hne p hp

theorem getLoop_log (E : Env) (userid : Str) (pages : List Nat) (acc : List Mblog)
    (log : List Event) (hlog : ∀ e ∈ log, e.isFileFailure = false) :
    ∀ e ∈ (getLoop E userid pages acc log).2, e.isFileFailure = false := by
  induction pages generalizing acc log with
  | nil => exact hlog
  | cons q rest ih =>
    unfold getLoop
    cases hq : E.fetch userid q with
    | none =>
      intro e he
      rcases List.mem_append.1 he with he | he
      · exact hlog e he
      · simp only [List.mem_singleton] at he
        subst he; rfl
    | some l =>
      apply ih
      intro e he
      rcases List.mem_append.1 he with he | he
      · exact hlog e he
      · simp only [List.mem_singleton] at he
        subst he; rfl

theorem get_one (E : Env) (userid : Str) (ms : List Mblog) (h : E.fetch userid 1 = some ms) :
    (get E userid 1).1 = some ms := by
  simp [get, List.range', getLoop, h]

theorem get_mem (E : Env) (userid : Str) (n : Nat) (ms : List Mblog)
    (h : (get E userid n).1 = some ms) (m : Mblog) (hm : m ∈ ms) :
    ∃ p l, E.fetch userid p = some l ∧ m ∈ l := by
  obtain ⟨e, _⟩ := getLoop_some E userid _ _ _ ms h
  rw [e] at hm
  simp only [List.nil_append, List.mem_flatMap] at hm
  obtain ⟨p, _, hp⟩ := hm
  cases hf : E.fetch userid p with
  | none => rw [hf] at hp; exact absurd hp (by simp)
  | some l => rw [hf] at hp; exact ⟨p, l, hf, hp⟩

theorem get_first_page (E : Env) (userid : Str) (n : Nat) (hn : 1 ≤ n) (ms : List Mblog)
    (h : (get E userid n).1 = some ms) :
    ∃ l, E.fetch userid 1 = some l ∧ ∀ m ∈ l, m ∈ ms := by
  obtain ⟨e, hne⟩ := getLoop_some E userid _ _ _ ms h
  have h1 : 1 ∈ List.range' 1 n := List.mem_range'_1.2 ⟨le_refl 1, by omega⟩
  cases hf : E.fetch userid 1 with
  | none => exact absurd hf (hne 1 h1)
  | some l =>
    refine ⟨l, rfl, ?_⟩
    intro m hm
    rw [e]
    simp only [List.nil_append, List.mem_flatMap]
    exact ⟨1, h1, by rw [hf]; exact hm⟩

/-! ## Lemmas: one account -/

theorem archiveUser_skip (E : Env) (dest : Str) (fs : FS) (userid : Str)
    (h : pageCount (osStat E fs (filepathJoin dest userid)) = none) :
    archiveUser E dest fs userid =
      { fs := fs, stat := none,
        log := [if osStat E fs (filepathJoin dest userid) = .failed
                then .statFailed userid (filepathJoin dest userid)
                else .notDirectory userid (filepathJoin dest userid)] } := by
  simp only [archiveUser, h]

theorem archiveUser_get_none (E : Env) (dest : Str) (fs : FS) (userid : Str) (n : Nat)
    (h : pageCount (osStat E fs (filepathJoin dest userid)) = some n)
    (hg : (get E userid n).1 = none) :
    archiveUser E dest fs userid =
      { fs := fs, stat := none, log := (get E userid n).2 ++ [.getFailed userid] } := by
  simp only [archiveUser, h]
  cases hgg : get E userid n with
  | mk a b =>
    rw [hgg] at hg
    simp only at hg
    subst hg
    rfl

theorem archiveUser_mkdir_none (E : Env) (dest : Str) (fs : FS) (userid : Str) (n : Nat)
    (mblogs : List Mblog)
    (h : pageCount (osStat E fs (filepathJoin dest userid)) = some n)
    (hg : (get E userid n).1 = some mblogs)
    (hm : osMkdirAll E fs (filepathJoin dest userid) = none) :
    archiveUser E dest fs userid =
      { fs := fs, stat := none,
        log := (get E userid n).2 ++ [.mkdirFailed userid (filepathJoin dest userid)] } := by
  simp only [archiveUser, h]
  cases hgg : get E userid n with
  | mk a b =>
    rw [hgg] at hg
    simp only at hg
    subst hg
    simp only [hm]

theorem archiveUser_ok (E : Env) (dest : Str) (fs fs1 : FS) (userid : Str) (n : Nat)
    (mblogs : List Mblog)
    (h : pageCount (osStat E fs (filepathJoin dest userid)) = some n)
    (hg : (get E userid n).1 = some mblogs)
    (hm : osMkdirAll E fs (filepathJoin dest userid) = some fs1) :
    archiveUser E dest fs userid =
      { fs := (archiveFetched E (filepathJoin dest userid) userid fs1 mblogs (get E userid n).2).fs,
        stat := some (archiveFetched E (filepathJoin dest userid) userid fs1 mblogs (get E userid n).2).stat,
        log := (archiveFetched E (filepathJoin dest userid) userid fs1 mblogs (get E userid n).2).log } := by
  simp only [archiveUser, h]
  cases hgg : get E userid n with
  | mk a b =>
    rw [hgg] at hg
    simp only at hg
    subst hg
    simp only [hm]

/-- The records of the month groups of a fetched batch are plain, when the
timestamps that parse are plain and the ids of the batch are. -/
theorem groups_plain (E : Env) (hE : E.Sound) (mblogs : List Mblog)
    (hid : ∀ m ∈ mblogs, plain m.MblogID) :
    ∀ g ∈ E.rangeOrder (groupByMonth E mblogs).groups, ∀ m ∈ g.2,
      plain m.CreatedAt ∧ plain m.MblogID := by
  intro g hg m hm
  have hg' := (hE.range _).subset hg
  obtain ⟨e, _⟩ := (groupByMonth_grouped E mblogs).group g.1 g.2 hg'
  rw [e] at hm
  obtain ⟨hm1, hm2⟩ := List.mem_filter.1 hm
  simp only [monthOf, decide_eq_true_eq, Option.map_eq_some'] at hm2
  obtain ⟨d, hd, _⟩ := hm2
  exact ⟨hE.parse _ d hd, hid m hm1⟩

theorem groups_sum (E : Env) (hE : E.Sound) (mblogs : List Mblog) :
    ((E.rangeOrder (groupByMonth E mblogs).groups).map (fun g => g.2.length)).sum +
      unparsed E mblogs = mblogs.length := by
  have h := groupByMonth_grouped E mblogs
  rw [((hE.range _).map _).sum_eq]
  have := h.total
  rw [h.failed] at this
  exact this

theorem groups_cover (E : Env) (hE : E.Sound) (mblogs : List Mblog) (m : Mblog) (hm : m ∈ mblogs)
    (d : Str) (hd : monthOf E m = some d) :
    ∃ g ∈ E.rangeOrder (groupByMonth E mblogs).groups, g.1 = d ∧ m ∈ g.2 := by
  have h := groupByMonth_grouped E mblogs
  obtain ⟨g, hg, e⟩ := List.mem_map.1 (h.key m hm d hd)
  refine ⟨g, (hE.range _).symm.subset hg, e, ?_⟩
  rw [(h.group g.1 g.2 hg).1]
  exact List.mem_filter.2 ⟨hm, by simp [e, hd]⟩

theorem archiveFetched_mono (E : Env) (hE : E.Sound) (dir userid : Str) (fs : FS)
    (mblogs : List Mblog) (glog : List Event) (hid : ∀ m ∈ mblogs, plain m.MblogID) :
    (∀ q, fs q = some .dir → (archiveFetched E dir userid fs mblogs glog).fs q = some .dir) ∧
    (∀ q c, fs q = some (.file c) →
      ∃ c', (archiveFetched E dir userid fs mblogs glog).fs q = some (.file c')) ∧
    (∀ q k, HasKey fs q k → HasKey (archiveFetched E dir userid fs mblogs glog).fs q k) :=
  groups_mono E hE.sort dir _
    { fs := fs,
      stat := { Userid := userid, Fetched := mblogs.length, Skipped := 0,
                Failed := (groupByMonth E mblogs).failed, Archived := 0 },
      log := glog ++ (groupByMonth E mblogs).log }
    (groups_plain E hE mblogs hid)

/-- Whatever happens to an account, directories stay directories, files stay
files, and no key is lost from any file. -/
theorem archiveUser_mono (E : Env) (hE : E.Sound)
    (hid : ∀ u p ms, E.fetch u p = some ms → ∀ m ∈ ms, plain m.MblogID)
    (dest : Str) (fs : FS) (userid : Str) :
    (∀ q, fs q = some .dir → (archiveUser E dest fs userid).fs q = some .dir) ∧
    (∀ q c, fs q = some (.file c) → ∃ c', (archiveUser E dest fs userid).fs q = some (.file c')) ∧
    (∀ q k, HasKey fs q k → HasKey (archiveUser E dest fs userid).fs q k) := by
  have triv : (∀ q, fs q = some .dir → fs q = some .dir) ∧
      (∀ q c, fs q = some (.file c) → ∃ c', fs q = some (.file c')) ∧
      (∀ q k, HasKey fs q k → HasKey fs q k) :=
    ⟨fun _ h => h, fun _ c h => ⟨c, h⟩, fun _ _ h => h⟩
  cases hpc : pageCount (osStat E fs (filepathJoin dest userid)) with
  | none => rw [archiveUser_skip E dest fs userid hpc]; exact triv
  | some n =>
    cases hg : (get E userid n).1 with
    | none => rw [archiveUser_get_none E dest fs userid n hpc hg]; exact triv
    | some mblogs =>
      cases hm : osMkdirAll E fs (filepathJoin dest userid) with
      | none => rw [archiveUser_mkdir_none E dest fs userid n mblogs hpc hg hm]; exact triv
      | some fs1 =>
        rw [archiveUser_ok E dest fs fs1 userid n mblogs hpc hg hm]
        obtain ⟨_, hkeep⟩ := osMkdirAll_some E fs fs1 _ hm
        have hids : ∀ m ∈ mblogs, plain m.MblogID := by
          intro m hmm
          obtain ⟨p, l, hf, hl⟩ := get_mem E userid n mblogs hg m hmm
          exact hid userid p l hf m hl
        obtain ⟨a, b, c⟩ := archiveFetched_mono E hE (filepathJoin dest userid) userid fs1 mblogs
          (get E userid n).2 hids
        refine ⟨?_, ?_, ?_⟩
        · intro q hq
          exact a q (by rw [hkeep q (by simp [hq])]; exact hq)
        · intro q c0 hq
          exact b q c0 (by rw [hkeep q (by simp [hq])]; exact hq)
        · intro q k hk
          apply c q k
          obtain ⟨c0, hc0, hk0⟩ := hk
          exact ⟨c0, by rw [hkeep q (by simp [hc0])]; exact hc0, hk0⟩

theorem groupByMonth_log (E : Env) (mblogs : List Mblog) :
    ∀ e ∈ (groupByMonth E mblogs).log, e.isFileFailure = false ∧ e.isFetchFailure = false := by
  unfold groupByMonth
  induction mblogs using List.reverseRecOn with
  | nil => simp
  | append_singleton l a ih =>
    rw [List.foldl_append]
    simp only [List.foldl_cons, List.foldl_nil]
    unfold groupStep
    split
    · intro e he
      rcases List.mem_append.1 he with he | he
      · exact ih e he
      · simp only [List.mem_singleton] at he
        subst he
        exact ⟨rfl, rfl⟩
    · exact ih

/-- A fetched batch archived without a logged file failure. -/
theorem archiveFetched_quiet (E : Env) (hE : E.Sound) (dir userid : Str) (fs : FS)
    (mblogs : List Mblog) (glog : List Event) (hid : ∀ m ∈ mblogs, plain m.MblogID)
    (hq : ∀ e ∈ (archiveFetched E dir userid fs mblogs glog).log, e.isFileFailure = false) :
    (∀ m ∈ mblogs, ∀ d, monthOf E m = some d →
      HasKey (archiveFetched E dir userid fs mblogs glog).fs (monthFile dir d) m.key) ∧
    (archiveFetched E dir userid fs mblogs glog).stat.Userid = userid ∧
    (archiveFetched E dir userid fs mblogs glog).stat.Fetched = mblogs.length ∧
    (archiveFetched E dir userid fs mblogs glog).stat.Failed = unparsed E mblogs ∧
    (archiveFetched E dir userid fs mblogs glog).stat.Skipped +
      (archiveFetched E dir userid fs mblogs glog).stat.Archived + unparsed E mblogs =
        mblogs.length := by
  obtain ⟨_, hcov, h1, h2, h3, h4⟩ := groups_quiet E hE.sort dir _
    { fs := fs,
      stat := { Userid := userid, Fetched := mblogs.length, Skipped := 0,
                Failed := (groupByMonth E mblogs).failed, Archived := 0 },
      log := glog ++ (groupByMonth E mblogs).log }
    (groups_plain E hE mblogs hid) hq
  refine ⟨?_, h1, h2, ?_, ?_⟩
  · intro m hm d hd
    obtain ⟨g, hg, e, hmg⟩ := groups_cover E hE mblogs m hm d hd
    have := hcov g hg m hmg
    rw [e] at this
    exact this
  · exact h3.trans (groupByMonth_grouped E mblogs).failed
  · have hs := groups_sum E hE mblogs
    have : (archiveFetched E dir userid fs mblogs glog).stat.Skipped +
        (archiveFetched E dir userid fs mblogs glog).stat.Archived =
        ((E.rangeOrder (groupByMonth E mblogs).groups).map (fun g => g.2.length)).sum := by
      simpa using h4
    omega

/-- A fetched batch all of whose keys are in the archive already. -/
theorem archiveFetched_second (E : Env) (hE : E.Sound) (dir userid : Str) (fs : FS)
    (mblogs : List Mblog) (glog : List Event) (hid : ∀ m ∈ mblogs, plain m.MblogID)
    (hk : ∀ m ∈ mblogs, ∀ d, monthOf E m = some d → HasKey fs (monthFile dir d) m.key)
    (hq : ∀ e ∈ (archiveFetched E dir userid fs mblogs glog).log, e.isFileFailure = false) :
    (archiveFetched E dir userid fs mblogs glog).fs = fs ∧
    (archiveFetched E dir userid fs mblogs glog).stat = allSkipped E userid mblogs := by
  have hk' : ∀ g ∈ E.rangeOrder (groupByMonth E mblogs).groups, ∀ m ∈ g.2,
      HasKey fs (monthFile dir g.1) m.key := by
    intro g hg m hm
    have hg' := (hE.range _).subset hg
    obtain ⟨e, _⟩ := (groupByMonth_grouped E mblogs).group g.1 g.2 hg'
    rw [e] at hm
    obtain ⟨hm1, hm2⟩ := List.mem_filter.1 hm
    exact hk m hm1 g.1 (by simpa using hm2)
  obtain ⟨h1, h2⟩ := groups_second E hE.sort dir _
    { fs := fs,
      stat := { Userid := userid, Fetched := mblogs.length, Skipped := 0,
                Failed := (groupByMonth E mblogs).failed, Archived := 0 },
      log := glog ++ (groupByMonth E mblogs).log }
    (groups_plain E hE mblogs hid) hk' hq
  refine ⟨h1, ?_⟩
  have hs := groups_sum E hE mblogs
  have hf := (groupByMonth_grouped E mblogs).failed
  unfold archiveFetched
  simp only
  rw [h2]
  simp only [allSkipped, Stat.mk.injEq, true_and, zero_add, and_true]
  refine ⟨?_, hf⟩
  unfold unparsed at hs ⊢
  omega

theorem get_log (E : Env) (userid : Str) (n : Nat) :
    ∀ e ∈ (get E userid n).2, e.isFileFailure = false :=
  getLoop_log E userid _ _ _ (by simp)

theorem pageCount_pos (st : StatResult) (n : Nat) (h : pageCount st = some n) : 1 ≤ n := by
  cases st with
  | notExist => simp [pageCount] at h; omega
  | failed => simp [pageCount] at h
  | found b => cases b <;> simp [pageCount] at h; omega

/-- An account processed without a logged failure leaves the archive covering
what its page 1 holds. -/
theorem archiveUser_covered (E : Env) (hE : E.Sound)
    (hid : ∀ u p ms, E.fetch u p = some ms → ∀ m ∈ ms, plain m.MblogID)
    (dest : Str) (fs : FS) (userid : Str)
    (hq : ∀ e ∈ (archiveUser E dest fs userid).log,
      e.isFileFailure = false ∧ e.isFetchFailure = false) :
    Covered E dest (archiveUser E dest fs userid).fs userid := by
  cases hpc : pageCount (osStat E fs (filepathJoin dest userid)) with
  | none =>
    rw [archiveUser_skip E dest fs userid hpc] at hq ⊢
    cases hst : osStat E fs (filepathJoin dest userid) with
    | notExist => rw [hst] at hpc; exact absurd hpc (by simp [pageCount])
    | failed =>
      rw [hst] at hq
      have := (hq (.statFailed userid (filepathJoin dest userid)) (by simp)).1
      exact absurd this (by simp [Event.isFileFailure])
    | found b =>
      cases b with
      | true => rw [hst] at hpc; exact absurd hpc (by simp [pageCount])
      | false => exact Or.inl (osStat_found_false E fs _ hst)
  | some n =>
    cases hg : (get E userid n).1 with
    | none =>
      rw [archiveUser_get_none E dest fs userid n hpc hg] at hq
      have := (hq (.getFailed userid) (by simp)).2
      exact absurd this (by simp [Event.isFetchFailure])
    | some mblogs =>
      cases hm : osMkdirAll E fs (filepathJoin dest userid) with
      | none =>
        rw [archiveUser_mkdir_none E dest fs userid n mblogs hpc hg hm] at hq
        have := (hq (.mkdirFailed userid (filepathJoin dest userid)) (by simp)).1
        exact absurd this (by simp [Event.isFileFailure])
      | some fs1 =>
        rw [archiveUser_ok E dest fs fs1 userid n mblogs hpc hg hm] at hq ⊢
        simp only at hq ⊢
        have hids : ∀ m ∈ mblogs, plain m.MblogID := by
          intro m hmm
          obtain ⟨p, l, hf, hl⟩ := get_mem E userid n mblogs hg m hmm
          exact hid userid p l hf m hl
        obtain ⟨hcov, _⟩ := archiveFetched_quiet E hE (filepathJoin dest userid) userid fs1 mblogs
          (get E userid n).2 hids (fun e he => (hq e he).1)
        obtain ⟨a, _, _⟩ := archiveFetched_mono E hE (filepathJoin dest userid) userid fs1 mblogs
          (get E userid n).2 hids
        obtain ⟨l, hl, hsub⟩ := get_first_page E userid n (pageCount_pos _ n hpc) mblogs hg
        right
        refine ⟨a _ (osMkdirAll_some E fs fs1 _ hm).1, l, hl, ?_⟩
        intro m hml d hd
        exact hcov m (hsub m hml) d hd

/-- An account whose directory is there, processed without a logged failure:
its `Stat` accounts for every record of page 1. -/
theorem archiveUser_first_stat (E : Env) (hE : E.Sound)
    (hid : ∀ u p ms, E.fetch u p = some ms → ∀ m ∈ ms, plain m.MblogID)
    (dest : Str) (fs : FS) (userid : Str)
    (hdir : fs (filepathJoin dest userid) = some .dir)
    (hq : ∀ e ∈ (archiveUser E dest fs userid).log,
      e.isFileFailure = false ∧ e.isFetchFailure = false) :
    ∃ l s, E.fetch userid 1 = some l ∧ (archiveUser E dest fs userid).stat = some s ∧
      s.Userid = userid ∧ s.Fetched = l.length ∧ s.Failed = unparsed E l ∧
      s.Skipped + s.Archived + unparsed E l = l.length := by
  rcases osStat_of_dir E fs _ hdir with hst | hst
  · have hpc : pageCount (osStat E fs (filepathJoin dest userid)) = some 1 := by rw [hst]; rfl
    cases hg : (get E userid 1).1 with
    | none =>
      rw [archiveUser_get_none E dest fs userid 1 hpc hg] at hq
      have := (hq (.getFailed userid) (by simp)).2
      exact absurd this (by simp [Event.isFetchFailure])
    | some mblogs =>
      have hm := osMkdirAll_of_dir E fs _ hst
      rw [archiveUser_ok E dest fs fs userid 1 mblogs hpc hg hm] at hq ⊢
      simp only at hq ⊢
      have hids : ∀ m ∈ mblogs, plain m.MblogID := by
        intro m hmm
        obtain ⟨p, l, hf, hl⟩ := get_mem E userid 1 mblogs hg m hmm
        exact hid userid p l hf m hl
      obtain ⟨_, h1, h2, h3, h4⟩ := archiveFetched_quiet E hE (filepathJoin dest userid) userid fs
        mblogs (get E userid 1).2 hids (fun e he => (hq e he).1)
      obtain ⟨l, hl, _⟩ := get_first_page E userid 1 (le_refl 1) mblogs hg
      have e : mblogs = l := by
        have := get_one E userid l hl
        rw [hg] at this
        exact Option.some.inj this
      subst e
      exact ⟨mblogs, _, hl, rfl, h1, h2, h3, h4⟩
  · have hpc : pageCount (osStat E fs (filepathJoin dest userid)) = none := by rw [hst]; rfl
    rw [archiveUser_skip E dest fs userid hpc, hst] at hq
    have := (hq (.statFailed userid (filepathJoin dest userid)) (by simp)).1
    exact absurd this (by simp [Event.isFileFailure])

/-- An account run again over an archive that covers it: nothing changes on
disk, and every record that parses is skipped. -/
theorem archiveUser_second (E : Env) (hE : E.Sound)
    (hid : ∀ u p ms, E.fetch u p = some ms → ∀ m ∈ ms, plain m.MblogID)
    (dest : Str) (fs : FS) (userid : Str) (hc : Covered E dest fs userid)
    (hq : ∀ e ∈ (archiveUser E dest fs userid).log, e.isFileFailure = false) :
    (archiveUser E dest fs userid).fs = fs ∧
    (((∃ c, fs (filepathJoin dest userid) = some (.file c)) ∧
        (archiveUser E dest fs userid).stat = none) ∨
      (fs (filepathJoin dest userid) = some .dir ∧
        ∃ l, E.fetch userid 1 = some l ∧
          (archiveUser E dest fs userid).stat = some (allSkipped E userid l))) := by
  rcases hc with ⟨c, hc⟩ | ⟨hdir, l, hl, hk⟩
  · have hpc : pageCount (osStat E fs (filepathJoin dest userid)) = none := by
      rcases osStat_of_file E fs _ c hc with h | h <;> rw [h] <;> rfl
    rw [archiveUser_skip E dest fs userid hpc]
    exact ⟨rfl, Or.inl ⟨⟨c, hc⟩, rfl⟩⟩
  · rcases osStat_of_dir E fs _ hdir with hst | hst
    · have hpc : pageCount (osStat E fs (filepathJoin dest userid)) = some 1 := by rw [hst]; rfl
      have hg := get_one E userid l hl
      have hm := osMkdirAll_of_dir E fs _ hst
      rw [archiveUser_ok E dest fs fs userid 1 l hpc hg hm] at hq ⊢
      simp only at hq ⊢
      obtain ⟨h1, h2⟩ := archiveFetched_second E hE (filepathJoin dest userid) userid fs l
        (get E userid 1).2 (hid userid 1 l hl) hk hq
      exact ⟨h1, Or.inr ⟨hdir, l, hl, by rw [h2]⟩⟩
    · have hpc : pageCount (osStat E fs (filepathJoin dest userid)) = none := by rw [hst]; rfl
      rw [archiveUser_skip E dest fs userid hpc, hst] at hq
      have := hq (.statFailed userid (filepathJoin dest userid)) (by simp)
      exact absurd this (by simp [Event.isFileFailure])

theorem covered_mono (E : Env) (dest : Str) (fs fs' : FS) (userid : Str)
    (a : ∀ q, fs q = some .dir → fs' q = some .dir)
    (b : ∀ q c, fs q = some (.file c) → ∃ c', fs' q = some (.file c'))
    (c : ∀ q k, HasKey fs q k → HasKey fs' q k) (h : Covered E dest fs userid) :
    Covered E dest fs' userid := by
  rcases h with ⟨c0, h⟩ | ⟨hd, l, hl, hk⟩
  · exact Or.inl (b _ c0 h)
  · exact Or.inr ⟨a _ hd, l, hl, fun m hm d hdm => c _ _ (hk m hm d hdm)⟩

/-! ## Lemmas: a run -/

theorem users_log (E : Env) (dest : Str) (us : List Str) (w : World) :
    ∃ extra, (us.foldl (processUser E dest) w).log = w.log ++ extra := by
  induction us generalizing w with
  | nil => exact ⟨[], by simp⟩
  | cons u rest ih =>
    obtain ⟨e2, h2⟩ := ih (processUser E dest w u)
    exact ⟨(archiveUser E dest w.fs u).log ++ e2, by
      rw [List.foldl_cons, h2]; simp [processUser, List.append_assoc]⟩

theorem users_mono (E : Env) (hE : E.Sound)
    (hid : ∀ u p ms, E.fetch u p = some ms → ∀ m ∈ ms, plain m.MblogID)
    (dest : Str) (us : List Str) (w : World) :
    (∀ q, w.fs q = some .dir → (us.foldl (processUser E dest) w).fs q = some .dir) ∧
    (∀ q c, w.fs q = some (.file c) → ∃ c', (us.foldl (processUser E dest) w).fs q = some (.file c')) ∧
    (∀ q k, HasKey w.fs q k → HasKey (us.foldl (processUser E dest) w).fs q k) := by
  induction us generalizing w with
  | nil => exact ⟨fun _ h => h, fun _ c h => ⟨c, h⟩, fun _ _ h => h⟩
  | cons u rest ih =>
    obtain ⟨a1, b1, c1⟩ := archiveUser_mono E hE hid dest w.fs u
    obtain ⟨a2, b2, c2⟩ := ih (processUser E dest w u)
    refine ⟨fun q h => a2 q (a1 q h), ?_, fun q k h => c2 q k (c1 q k h)⟩
    intro q c h
    obtain ⟨c', h'⟩ := b1 q c h
    exact b2 q c' h'

/-- After a run without a logged failure the archive covers every account. -/
theorem users_covered (E : Env) (hE : E.Sound)
    (hid : ∀ u p ms, E.fetch u p = some ms → ∀ m ∈ ms, plain m.MblogID)
    (dest : Str) (us : List Str) (w : World)
    (hq : ∀ e ∈ (us.foldl (processUser E dest) w).log,
      e.isFileFailure = false ∧ e.isFetchFailure = false) :
    ∀ u ∈ us, Covered E dest (us.foldl (processUser E dest) w).fs u := by
  induction us generalizing w with
  | nil => simp
  | cons u rest ih =>
    simp only [List.foldl_cons] at hq ⊢
    obtain ⟨extra, hex⟩ := users_log E dest rest (processUser E dest w u)
    have hq1 : ∀ e ∈ (archiveUser E dest w.fs u).log,
        e.isFileFailure = false ∧ e.isFetchFailure = false := by
      intro e he
      apply hq e
      rw [hex]
      exact List.mem_append_left _ (List.mem_append_right _ he)
    obtain ⟨a, b, c⟩ := users_mono E hE hid dest rest (processUser E dest w u)
    intro v hv
    rcases List.mem_cons.1 hv with rfl | hv
    · exact covered_mono E dest _ _ v a b c (archiveUser_covered E hE hid dest w.fs v hq1)
    · exact ih (processUser E dest w u) hq v hv

/-- A run over an archive that covers every account changes nothing on disk
and skips every record that parses. -/
theorem users_second (E : Env) (hE : E.Sound)
    (hid : ∀ u p ms, E.fetch u p = some ms → ∀ m ∈ ms, plain m.MblogID)
    (dest : Str) (us : List Str) (w : World) (hc : ∀ u ∈ us, Covered E dest w.fs u)
    (hq : ∀ e ∈ (us.foldl (processUser E dest) w).log, e.isFileFailure = false) :
    (us.foldl (processUser E dest) w).fs = w.fs ∧
    (us.foldl (processUser E dest) w).stats =
      w.stats ++ (us.filter (fun u => w.fs (filepathJoin dest u) = some .dir)).map
        (fun u => allSkipped E u ((E.fetch u 1).getD [])) := by
  induction us generalizing w with
  | nil => simp
  | cons u rest ih =>
    simp only [List.foldl_cons] at hq ⊢
    obtain ⟨extra, hex⟩ := users_log E dest rest (processUser E dest w u)
    have hq1 : ∀ e ∈ (archiveUser E dest w.fs u).log, e.isFileFailure = false := by
      intro e he
      apply hq e
      rw [hex]
      exact List.mem_append_left _ (List.mem_append_right _ he)
    obtain ⟨hfs, hst⟩ := archiveUser_second E hE hid dest w.fs u (hc u (by simp)) hq1
    have hfs' : (processUser E dest w u).fs = w.fs := hfs
    obtain ⟨i1, i2⟩ := ih (processUser E dest w u)
      (by rw [hfs']; exact fun v hv => hc v (List.mem_cons_of_mem _ hv)) hq
    refine ⟨i1.trans hfs', ?_⟩
    rw [i2, hfs']
    rcases hst with ⟨⟨c, hc0⟩, hn⟩ | ⟨hd, l, hl, hs⟩
    · have : ¬ (w.fs (filepathJoin dest u) = some .dir) := by rw [hc0]; simp
      simp [processUser, hn, List.filter_cons, this]
    · simp [processUser, hs, List.filter_cons, hd, hl]

/-- A run without a logged failure over accounts whose directories are there:
one `Stat` for each account, accounting for every record of its page 1. -/
theorem users_first_stats (E : Env) (hE : E.Sound)
    (hid : ∀ u p ms, E.fetch u p = some ms → ∀ m ∈ ms, plain m.MblogID)
    (dest : Str) (us : List Str) (w : World)
    (hd : ∀ u ∈ us, w.fs (filepathJoin dest u) = some .dir)
    (hq : ∀ e ∈ (us.foldl (processUser E dest) w).log,
      e.isFileFailure = false ∧ e.isFetchFailure = false) :
    ∃ S, (us.foldl (processUser E dest) w).stats = w.stats ++ S ∧
      List.Forall₂ (fun u s => s.Userid = u ∧
        s.Skipped + s.Archived + unparsed E ((E.fetch u 1).getD []) =
          ((E.fetch u 1).getD []).length) us S := by
  induction us generalizing w with
  | nil => exact ⟨[], by simp⟩
  | cons u rest ih =>
    simp only [List.foldl_cons] at hq ⊢
    obtain ⟨extra, hex⟩ := users_log E dest rest (processUser E dest w u)
    have hq1 : ∀ e ∈ (archiveUser E dest w.fs u).log,
        e.isFileFailure = false ∧ e.isFetchFailure = false := by
      intro e he
      apply hq e
      rw [hex]
      exact List.mem_append_left _ (List.mem_append_right _ he)
    obtain ⟨l, s, hl, hs, h1, _, _, h4⟩ := archiveUser_first_stat E hE hid dest w.fs u (hd u (by simp)) hq1
    obtain ⟨a, _, _⟩ := archiveUser_mono E hE hid dest w.fs u
    obtain ⟨S, e, hS⟩ := ih (processUser E dest w u)
      (fun v hv => a _ (hd v (List.mem_cons_of_mem _ hv))) hq
    refine ⟨s :: S, ?_, List.Forall₂.cons ⟨h1, by rw [hl]; exact h4⟩ hS⟩
    rw [e]
    simp [processUser, hs]

theorem main_some (E : Env) (config : Config) (fs : FS) (w : World) (h : main E config fs = some w) :
    ∃ fs0, osMkdirAll E fs (filepathClean config.dest) = some fs0 ∧
      w = config.Userids.foldl (processUser E config.dest) { fs := fs0, stats := [], log := [] } := by
  unfold main at h
  cases hm : osMkdirAll E fs (filepathClean config.dest) with
  | none => rw [hm] at h; exact absurd h (by simp)
  | some fs0 =>
    rw [hm] at h
    exact ⟨fs0, rfl, (Option.some.inj h).symm⟩

/-! ## Lemmas: two runs, the sample environment, the codec on accepted lines -/

theorem sampleEnv_sound (fetch : Str → Nat → Option (List Mblog)) : (sampleEnv fetch).Sound := by
  refine ⟨insertionSort_contract, fun m => List.Perm.refl m, ?_⟩
  intro s d h
  have hs : s ∈ sampleClock.map Prod.fst := by
    simp only [sampleEnv, sampleParse, Option.map_eq_some'] at h
    obtain ⟨e, he, _⟩ := h
    have h1 := List.mem_of_find?_eq_some he
    have h2 := List.find?_some he
    simp only [decide_eq_true_eq] at h2
    rw [← h2]
    exact List.mem_map_of_mem _ h1
  have hall : ∀ x ∈ sampleClock.map Prod.fst, plain x := by decide
  exact hall s hs

theorem sampleFetch_plain : PlainIds (sampleEnv sampleFetch) := by
  intro u p ms h m hm
  simp only [sampleEnv, sampleFetch] at h
  split at h
  · simp only [Option.some.injEq] at h
    subst h
    simp only [List.mem_cons, List.mem_singleton, List.not_mem_nil, or_false] at hm
    rcases hm with rfl | rfl <;> decide
  · split at h
    · simp only [Option.some.injEq] at h
      subst h
      simp only [List.mem_cons, List.mem_singleton, List.not_mem_nil, or_false] at hm
      rcases hm with rfl | rfl <;> decide
    · simp only [Option.some.injEq] at h
      subst h
      exact absurd hm (by simp)

theorem twice_some (E : Env) (config : Config) (fs : FS) (w1 w2 : World)
    (h : twice E config fs = some (w1, w2)) :
    main E config fs = some w1 ∧ main E config w1.fs = some w2 := by
  unfold twice at h
  cases h1 : main E config fs with
  | none => rw [h1] at h; exact absurd h (by simp)
  | some a =>
    rw [h1] at h
    simp only at h
    cases h2 : main E config a.fs with
    | none => rw [h2] at h; exact absurd h (by simp)
    | some b =>
      rw [h2] at h
      simp only [Option.some.injEq, Prod.mk.injEq] at h
      obtain ⟨rfl, rfl⟩ := h
      exact ⟨rfl, h2⟩

theorem osMkdirAll_dir_eq (E : Env) (fs fs' : FS) (p : Str) (hd : fs p = some .dir)
    (h : osMkdirAll E fs p = some fs') : fs' = fs := by
  unfold osMkdirAll at h
  split at h
  · exact (Option.some.inj h).symm
  · exact absurd h (by simp)
  · split at h
    · exact absurd h (by simp)
    · rename_i hn
      simp only [not_or, not_not] at hn
      rw [hd] at hn
      exact absurd hn.2.2 (by simp)

/-- Two back-to-back runs without a logged failure: the second starts from an
archive that covers every account, and from the file system the first left. -/
theorem twice_covered (E : Env) (hE : E.Sound)
    (hid : PlainIds E)
    (config : Config) (fs : FS) (w1 w2 : World) (h : twice E config fs = some (w1, w2))
    (hq1 : ∀ e ∈ w1.log, e.isFileFailure = false ∧ e.isFetchFailure = false) :
    (∀ u ∈ config.Userids, Covered E config.dest w1.fs u) ∧
    w2 = config.Userids.foldl (processUser E config.dest) { fs := w1.fs, stats := [], log := [] } := by
  obtain ⟨h1, h2⟩ := twice_some E config fs w1 w2 h
  obtain ⟨fs0, hm0, e1⟩ := main_some E config fs w1 h1
  obtain ⟨fs1, hm1, e2⟩ := main_some E config w1.fs w2 h2
  have hcov : ∀ u ∈ config.Userids, Covered E config.dest w1.fs u := by
    rw [e1]
    apply users_covered E hE hid
    rw [← e1]
    exact hq1
  have hdest : w1.fs (filepathClean config.dest) = some .dir := by
    rw [e1]
    exact (users_mono E hE hid config.dest config.Userids _).1 _ (osMkdirAll_some E fs fs0 _ hm0).1
  have efs := osMkdirAll_dir_eq E w1.fs fs1 _ hdest hm1
  subst efs
  exact ⟨hcov, e2⟩

theorem getD_of_isSome {α : Type} (o : Option α) (d : α) (h : o.isSome = true) : o = some (o.getD d) := by
  cases o with
  | none => exact absurd h (by simp)
  | some a => rfl

theorem osWriteFile_parents (E : Env) (fs fs' : FS) (p c : Str) (h : osWriteFile E fs p c = some fs') :
    ∀ q ∈ parentDirs p, fs q = some .dir := by
  unfold osWriteFile at h
  split at h
  · exact absurd h (by simp)
  · rename_i hn
    simp only [not_or, not_not] at hn
    exact hn.2.2

theorem load_after_write (E : Env) (fs fs' : FS) (file c : Str)
    (h : osWriteFile E fs file c = some fs') (hread : E.readFault file = false) :
    load E fs' file = some (parseFile c) := by
  obtain ⟨e, hd⟩ := osWriteFile_some E fs fs' file c h
  have hpar := osWriteFile_parents E fs fs' file c h
  have hu : underFile fs' file = false := by
    unfold underFile
    rw [List.any_eq_false]
    intro q hq
    have hq' := hpar q hq
    have hne : q ≠ file := fun e2 => hd (e2 ▸ hq')
    subst e
    simp [hne, hq']
  subst e
  simp [load, osReadFile, hread, hu]

theorem find?_filter_eq (p q : Mblog → Bool) (l : List Mblog) :
    (l.filter p).find? q = l.find? (fun m => p m && q m) := by
  induction l with
  | nil => rfl
  | cons x xs ih =>
    by_cases hp : p x = true
    · by_cases hq : q x = true
      · simp [List.filter_cons, hp, hq]
      · simp [List.filter_cons, hp, hq, ih]
    · simp [List.filter_cons, hp, ih]

theorem renderLine_of_parseLine (line : Str) (m : Mblog) (hp : parseLine line = some m)
    (hlf : '\n' ∉ line) (hid : FormatInt (ParseInt (idField line)) = idField line) :
    renderLine m = line := by
  obtain ⟨f1, e, hID, hd, h0, h1, h2⟩ := parseLine_some line m hp
  have hsplit : stringsSplitN '|' 4 line = [m.CreatedAt, f1, m.MblogID, m.TextRaw] := by
    rw [e]
    simp only [stringsJoin]
    rw [stringsSplitN_append_sep '|' 2 _ _ h0, stringsSplitN_append_sep '|' 1 _ _ h1,
      stringsSplitN_append_sep '|' 0 _ _ h2, stringsSplitN_one]
  have hf : idField line = f1 := by simp [idField, hsplit]
  rw [hf] at hid
  have hraw : '\n' ∉ m.TextRaw := by
    rw [e] at hlf
    simp only [stringsJoin, List.mem_append, List.mem_cons, not_or] at hlf
    exact hlf.2.2.2.2.2.2
  rw [e]
  simp only [renderLine, Mblog.TheText, hd, hID, hid, strip_of_not_mem _ hraw]

/-- A month group that adds a fresh record and logs no failure: the month file
holds the lines of the merged records, in written order. -/
theorem processGroup_writes (E : Env) (dir : Str) (p : Progress) (g : Str × List Mblog)
    (loaded : List Mblog) (hl : load E p.fs (monthFile dir g.1) = some loaded)
    (hfresh : 0 < (merge loaded g.2).archived)
    (hlog : (processGroup E dir p g).log = p.log) :
    (processGroup E dir p g).fs (monthFile dir g.1) =
      some (.file (stringsJoin '\n' (savedLines E (merge loaded g.2).mblogs))) := by
  cases hsv : save E p.fs (monthFile dir g.1) (merge loaded g.2).mblogs with
  | none =>
    rw [processGroup_save_none E dir p g _ hl hfresh hsv] at hlog
    exact absurd hlog (by simp)
  | some fs' =>
    rw [processGroup_save_some E dir p g _ fs' hl hfresh hsv]
    obtain ⟨e, _⟩ := osWriteFile_some E p.fs fs' _ _ hsv
    subst e
    simp

/-! ## The claims -/

/-! ### C1 -/

/-- C1, counterexample.  First, a record whose `mblog_id` contains a pipe:
both runs complete without any failure, yet the second run archives the record
again and the month file grows from one line to two.  Second, a fetcher that
fails on page 2 of account `a`, whose directory is created by the run of
account `a/b`: no file-system call fails and every `mblog_id` is plain, yet the
second run, which asks for page 1 only, archives a record of `a` and creates
its month file. -/
theorem rerun_counterexample :
    (twice (sampleEnv pipeFetch) sampleConfig emptyFS).map
      (fun r => (decide (fileOpsOk r.1.log ∧ fetchOk r.1.log ∧ fileOpsOk r.2.log ∧ fetchOk r.2.log),
        r.1.fs "t/u1/2023-01.txt".toList, r.2.fs "t/u1/2023-01.txt".toList, r.2.stats)) =
      some (true,
        some (.file "Mon Jan 02 15:04:05 +0800 2023|10|A|B|hello".toList),
        some (.file ("Mon Jan 02 15:04:05 +0800 2023|10|A|B|hello\n" ++
          "Mon Jan 02 15:04:05 +0800 2023|10|A|B|hello").toList),
        [⟨"u1".toList, 1, 0, 0, 1⟩]) ∧
    (twice (sampleEnv nestedFetch) nestedConfig emptyFS).map
      (fun r => (decide (fileOpsOk r.1.log ∧ fileOpsOk r.2.log), decide (fetchOk r.1.log),
        r.1.fs "t/a/2023-01.txt".toList, r.2.fs "t/a/2023-01.txt".toList)) =
      some (true, false,
        none,
        some (.file "Mon Jan 02 15:04:05 +0800 2023|10|A|hello".toList)) ∧
    (twice (sampleEnv nestedFetch) nestedConfig emptyFS).map (fun r => (r.1.stats, r.2.stats)) =
      some ([⟨"a/b".toList, 1, 0, 0, 1⟩],
        [⟨"a".toList, 1, 0, 0, 1⟩, ⟨"a/b".toList, 1, 1, 0, 0⟩]) :=
  ⟨by decide, by decide, by decide⟩

/-- C1 (as amended): with a fetcher that returns only plain `mblog_id`s, the
first run meeting no fetch error, and every file-system call of both runs
succeeding, the second of two back-to-back runs leaves the file system, and so
the bytes of every month file, as the first left it, and its `Archived`
counter is `0` for every account. -/
theorem rerun_idempotent (E : Env) (hE : E.Sound) (hid : PlainIds E) (config : Config) (fs : FS)
    (w1 w2 : World) (h : twice E config fs = some (w1, w2))
    (hf1 : fileOpsOk w1.log) (hg1 : fetchOk w1.log) (hf2 : fileOpsOk w2.log) :
    w2.fs = w1.fs ∧ ∀ s ∈ w2.stats, s.Archived = 0 := by
  obtain ⟨hcov, e2⟩ := twice_covered E hE hid config fs w1 w2 h (fun e he => ⟨hf1 e he, hg1 e he⟩)
  obtain ⟨a, b⟩ := users_second E hE hid config.dest config.Userids
    { fs := w1.fs, stats := [], log := [] } hcov (by rw [← e2]; exact hf2)
  rw [← e2] at a b
  refine ⟨a, ?_⟩
  intro s hs
  rw [b] at hs
  simp only [List.nil_append, List.mem_map] at hs
  obtain ⟨u, _, rfl⟩ := hs
  rfl

/-- Witness for C1: the sample fetcher over an empty archive. -/
theorem rerun_idempotent_witness :
    twice (sampleEnv sampleFetch) sampleConfig emptyFS = some sampleRuns ∧
    fileOpsOk sampleRuns.1.log ∧ fetchOk sampleRuns.1.log ∧ fileOpsOk sampleRuns.2.log ∧
    sampleRuns.1.stats = [⟨"u1".toList, 4, 1, 0, 3⟩] ∧
    sampleRuns.2.fs = sampleRuns.1.fs ∧ ∀ s ∈ sampleRuns.2.stats, s.Archived = 0 :=
  have h : twice (sampleEnv sampleFetch) sampleConfig emptyFS = some sampleRuns :=
    getD_of_isSome _ _ (by decide)
  have a : fileOpsOk sampleRuns.1.log := by decide
  have b : fetchOk sampleRuns.1.log := by decide
  have c : fileOpsOk sampleRuns.2.log := by decide
  ⟨h, a, b, c, by decide,
    rerun_idempotent _ (sampleEnv_sound _) sampleFetch_plain sampleConfig emptyFS _ _ h a b c⟩

/-! ### C2 -/

/-- A line without line-feed among the lines joined into a file is one of the
lines `load` reads, so the record it parses to is among the records loaded. -/
theorem mem_parseFile_join (lines : List Str) (l : Str) (x : Mblog) (hl : l ∈ lines)
    (hlf : '\n' ∉ l) (hp : parseLine l = some x) : x ∈ parseFile (stringsJoin '\n' lines) := by
  unfold parseFile
  rw [stringsSplit_join '\n' lines (List.ne_nil_of_mem hl), List.mem_filterMap]
  refine ⟨l, ?_, hp⟩
  rw [List.mem_flatMap]
  exact ⟨l, hl, by rw [stringsSplit_of_not_mem '\n' l hlf]; exact List.mem_singleton_self l⟩

/-- C2, counterexample: a record whose `mblog_id` contains a pipe is written by
`save` and read back by `load` with key `B|hello`, while its own key is
`hello`. -/
theorem reload_key_pipe_counterexample :
    ((save (sampleEnv pipeFetch) emptyFS "f.txt".toList [mPipeId]).bind
        (fun fs => load (sampleEnv pipeFetch) fs "f.txt".toList)).map (List.map Mblog.key) =
      some ["B|hello".toList] ∧
    mPipeId.key = "hello".toList := by
  decide

/-- C2 (as amended): a record `r` whose `created_at` and `mblog_id` contain no
pipe and no line-feed is written by `save` together with any other records;
`load` of the file returns a list that holds the record read back for `r`,
whose Deduper key is the key of `r`.  When every record written is of that
kind, `load` returns exactly the records read back, in written order. -/
theorem reload_key_fixed (E : Env) (hs : SortContract E.sortSlice) (fs fs' : FS) (file : Str)
    (mblogs : List Mblog) (r : Mblog) (hr : r ∈ mblogs)
    (hp : plain r.CreatedAt ∧ plain r.MblogID)
    (hsave : save E fs file mblogs = some fs') (hread : E.readFault file = false) :
    ∃ l, load E fs' file = some l ∧ reload r ∈ l ∧ (reload r).key = r.key ∧
      ((∀ m ∈ mblogs, plain m.CreatedAt ∧ plain m.MblogID) →
        l = (writeOrder E mblogs).map reload) := by
  refine ⟨_, load_after_write E fs fs' file _ hsave hread, ?_, reload_key r, ?_⟩
  · apply mem_parseFile_join (savedLines E mblogs) (renderLine r) (reload r)
    · exact List.mem_map_of_mem _ ((hs.perm _ _).symm.subset hr)
    · exact renderLine_not_mem_lf r hp.1.2 hp.2.2
    · exact parseLine_renderLine r hp.1.1 hp.2.1
  · intro hall
    exact (save_content E hs fs fs' file mblogs hall hsave).2.2

/-- Witness for C2: the record `mPipes`, with pipes in its text, written
together with a record whose `mblog_id` holds a pipe; it is read back with its
key, while the other record is not. -/
theorem reload_key_fixed_witness :
    mPipes ∈ [mPipeId, mPipes] ∧ (plain mPipes.CreatedAt ∧ plain mPipes.MblogID) ∧
    ¬ plain mPipeId.MblogID ∧
    (save (sampleEnv pipeFetch) emptyFS "f.txt".toList [mPipeId, mPipes]).isSome = true ∧
    (load (sampleEnv pipeFetch)
        ((save (sampleEnv pipeFetch) emptyFS "f.txt".toList [mPipeId, mPipes]).getD emptyFS)
        "f.txt".toList).map (List.map Mblog.key) =
      some ["B|hello".toList, "a|b".toList] ∧
    ∃ l, load (sampleEnv pipeFetch)
        ((save (sampleEnv pipeFetch) emptyFS "f.txt".toList [mPipeId, mPipes]).getD emptyFS)
        "f.txt".toList = some l ∧
      reload mPipes ∈ l ∧ (reload mPipes).key = mPipes.key ∧
      ((∀ m ∈ [mPipeId, mPipes], plain m.CreatedAt ∧ plain m.MblogID) →
        l = (writeOrder (sampleEnv pipeFetch) [mPipeId, mPipes]).map reload) :=
  have hsome : (save (sampleEnv pipeFetch) emptyFS "f.txt".toList
      [mPipeId, mPipes]).isSome = true := by decide
  ⟨by decide, by decide, by decide, hsome, by decide,
    reload_key_fixed (sampleEnv pipeFetch) insertionSort_contract emptyFS _ "f.txt".toList
      [mPipeId, mPipes] mPipes (by decide) (by decide) (getD_of_isSome _ emptyFS hsome) rfl⟩

/-! ### C3 -/

/-- C3, counterexample: the month file is missing, and the incoming group has
two records with different normalized texts, `hello` under the `mblog_id`
`A|B` and `B|hello` under the `mblog_id` `A`.  The dedup loop keeps both, and
the two lines `save` writes both carry the text `B|hello` for `load`. -/
theorem merge_lines_pipe_counterexample :
    (([] : List Mblog).map Mblog.key).Nodup ∧
    (merge [] [mPipeId, mPipeText]).mblogs.map Mblog.key = ["hello".toList, "B|hello".toList] ∧
    savedLines (sampleEnv pipeFetch) (merge [] [mPipeId, mPipeText]).mblogs =
      ["Mon Jan 02 15:04:05 +0800 2023|10|A|B|hello".toList,
       "Tue Jan 03 10:00:00 +0800 2023|12|A|B|hello".toList] ∧
    (parseFile (stringsJoin '\n'
        (savedLines (sampleEnv pipeFetch) (merge [] [mPipeId, mPipeText]).mblogs))).map Mblog.key =
      ["B|hello".toList, "B|hello".toList] := by
  decide

/-- C3 (as amended): when the records loaded from a month file have pairwise
different normalized texts, so have the records the dedup loop hands to
`save`, whatever the incoming group.  And when the `created_at` and `mblog_id`
of the incoming records contain no pipe and no line-feed, `save` writes one
line for each of these records, and the records `load` reads off the lines,
one for each line, have pairwise different normalized texts. -/
theorem merge_keys_unique (E : Env) (hs : SortContract E.sortSlice) (fs : FS) (file : Str)
    (loaded incoming : List Mblog) (hl : load E fs file = some loaded)
    (h : (loaded.map Mblog.key).Nodup) :
    ((merge loaded incoming).mblogs.map Mblog.key).Nodup ∧
    ((writeOrder E (merge loaded incoming).mblogs).map Mblog.key).Nodup ∧
    ((∀ m ∈ incoming, plain m.CreatedAt ∧ plain m.MblogID) →
      (0 < (merge loaded incoming).mblogs.length →
        stringsSplit '\n' (stringsJoin '\n' (savedLines E (merge loaded incoming).mblogs)) =
          (writeOrder E (merge loaded incoming).mblogs).map renderLine) ∧
      parseFile (stringsJoin '\n' (savedLines E (merge loaded incoming).mblogs)) =
        (writeOrder E (merge loaded incoming).mblogs).map reload ∧
      ((parseFile (stringsJoin '\n' (savedLines E (merge loaded incoming).mblogs))).map
        Mblog.key).Nodup) := by
  have h1 := mergeFrom_nodup { mblogs := loaded, skipped := 0, archived := 0 } incoming h
  have h2 : ((writeOrder E (merge loaded incoming).mblogs).map Mblog.key).Nodup :=
    ((hs.perm _ _).map _).nodup_iff.2 h1
  refine ⟨h1, h2, ?_⟩
  intro hp
  have hplain := merged_plain E fs file loaded incoming hl hp
  have hplainW : ∀ m ∈ writeOrder E (merge loaded incoming).mblogs,
      plain m.CreatedAt ∧ plain m.MblogID := fun m hm => hplain m ((hs.perm _ _).subset hm)
  have hpf := parseFile_join_renderLine _ hplainW
  refine ⟨?_, hpf, ?_⟩
  · intro hpos
    apply stringsSplit_join_clean
    · intro e
      have hlen : (savedLines E (merge loaded incoming).mblogs).length =
          (merge loaded incoming).mblogs.length := by
        unfold savedLines
        rw [List.length_map]
        exact (hs.perm _ _).length_eq
      rw [e] at hlen
      simp only [List.length_nil] at hlen
      omega
    · intro l hlm
      obtain ⟨m, hm, rfl⟩ := List.mem_map.1 hlm
      have := hplainW m hm
      exact renderLine_not_mem_lf m this.1.2 this.2.2
  · show ((parseFile (stringsJoin '\n'
      ((writeOrder E (merge loaded incoming).mblogs).map renderLine))).map Mblog.key).Nodup
    rw [hpf, List.map_map]
    have e : (Mblog.key ∘ reload) = Mblog.key := funext reload_key
    rw [e]
    exact h2

/-- Witness for C3: a month file with one record, three incoming records of
which two repeat a text. -/
theorem merge_keys_unique_witness :
    load (sampleEnv sampleFetch) sampleFS "t/u1/2023-01.txt".toList = some [reload mHello] ∧
    ([reload mHello].map Mblog.key).Nodup ∧
    (∀ m ∈ [mPipes, mAgain, mPipes], plain m.CreatedAt ∧ plain m.MblogID) ∧
    (merge [reload mHello] [mPipes, mAgain, mPipes]).mblogs = [reload mHello, mPipes] ∧
    savedLines (sampleEnv sampleFetch) (merge [reload mHello] [mPipes, mAgain, mPipes]).mblogs =
      ["Mon Jan 02 15:04:05 +0800 2023|10|A|hello".toList,
       "Tue Jan 03 10:00:00 +0800 2023|12|C|a|b".toList] ∧
    ((merge [reload mHello] [mPipes, mAgain, mPipes]).mblogs.map Mblog.key).Nodup ∧
    ((parseFile (stringsJoin '\n' (savedLines (sampleEnv sampleFetch)
      (merge [reload mHello] [mPipes, mAgain, mPipes]).mblogs))).map Mblog.key).Nodup :=
  have h := merge_keys_unique (sampleEnv sampleFetch) insertionSort_contract sampleFS
    "t/u1/2023-01.txt".toList [reload mHello] [mPipes, mAgain, mPipes] (by decide) (by decide)
  ⟨by decide, by decide, by decide, by decide, by decide, h.1, (h.2.2 (by decide)).2.2⟩

/-! ### C4 -/

theorem lineKey_renderLine (m : Mblog) (h : plain m.CreatedAt ∧ plain m.MblogID) :
    lineKey (renderLine m) = some m.key := by
  unfold lineKey
  rw [parseLine_renderLine m h.1.1 h.2.1, Option.map_some', reload_key]

/-- C4, counterexample.  First, two records with the same text, one of January
and one of February 2023: after the run the archive of the account holds two
lines with that text, one in each month file.  Second, two records of January
with the text `x|hello` and a third with the text `hello` and the `mblog_id`
`C|x`: the second is skipped, and the month file holds two lines that carry
the text `x|hello` for `load`. -/
theorem duplicates_two_months_counterexample :
    (mHello.TheText = mHelloFeb.TheText ∧
      (main (sampleEnv twoMonthFetch) sampleConfig emptyFS).map
        (fun w => (decide (fileOpsOk w.log ∧ fetchOk w.log),
          w.fs "t/u1/2023-01.txt".toList, w.fs "t/u1/2023-02.txt".toList, w.stats)) =
        some (true,
          some (.file "Mon Jan 02 15:04:05 +0800 2023|10|A|hello".toList),
          some (.file "Wed Feb 01 01:00:00 +0800 2023|11|B|hello".toList),
          [⟨"u1".toList, 2, 0, 0, 2⟩])) ∧
    (mBarOne.TheText = mBarTwo.TheText ∧
      (main (sampleEnv barFetch) sampleConfig emptyFS).map
        (fun w => (decide (fileOpsOk w.log ∧ fetchOk w.log),
          w.fs "t/u1/2023-01.txt".toList, w.stats)) =
        some (true,
          some (.file ("Mon Jan 02 15:04:05 +0800 2023|30|P|x|hello\n" ++
            "Tue Jan 31 23:00:00 +0800 2023|32|C|x|hello").toList),
          [⟨"u1".toList, 3, 1, 0, 2⟩]) ∧
      (stringsSplit '\n' ("Mon Jan 02 15:04:05 +0800 2023|30|P|x|hello\n" ++
          "Tue Jan 31 23:00:00 +0800 2023|32|C|x|hello").toList).map lineKey =
        [some mBarOne.key, some mBarOne.key]) :=
  ⟨by decide, by decide⟩

/-- C4 (as amended): two fetched records with the same `TheText()` whose
timestamps parse to the same month, no record of that month having a pipe or
a line-feed in its `mblog_id`, and that month's file holding no record with
that normalized text.  Among the records `save` is handed for that month
exactly one carries the text, the first record of that month and text in fetch
order; and when the month is processed without a logged failure, the month
file holds one line for each record handed to `save`, and exactly one of its
lines carries that text for `load`: the line of that first record. -/
theorem same_month_duplicates_collapse (E : Env) (hE : E.Sound)
    (batch loaded : List Mblog) (r1 r2 : Mblog) (d dir : Str) (p : Progress)
    (h1 : r1 ∈ batch) (h2 : r2 ∈ batch) (htext : r1.TheText = r2.TheText)
    (hm1 : monthOf E r1 = some d) (hm2 : monthOf E r2 = some d)
    (hid : ∀ m ∈ batch, monthOf E m = some d → plain m.MblogID)
    (hl : load E p.fs (monthFile dir d) = some loaded)
    (hnew : ∀ x ∈ loaded, x.key ≠ r1.key) :
    ∃ g first, (d, g) ∈ (groupByMonth E batch).groups ∧ r1 ∈ g ∧ r2 ∈ g ∧
      batch.find? (fun m => monthOf E m = some d ∧ m.key = r1.key) = some first ∧
      first.key = r1.key ∧ first.key = r2.key ∧
      (writeOrder E (merge loaded g).mblogs).filter (fun m => m.key = r1.key) = [first] ∧
      ((processGroup E dir p (d, g)).log = p.log →
        ∃ c, (processGroup E dir p (d, g)).fs (monthFile dir d) = some (.file c) ∧
          stringsSplit '\n' c = (writeOrder E (merge loaded g).mblogs).map renderLine ∧
          (stringsSplit '\n' c).filter (fun l => lineKey l = some r1.key) =
            [renderLine first]) := by
  have hG := groupByMonth_grouped E batch
  obtain ⟨⟨d', g⟩, hg, e⟩ := List.mem_map.1 (hG.key r1 h1 d hm1)
  simp only at e
  subst e
  obtain ⟨eg, _⟩ := hG.group d' g hg
  have hr1 : r1 ∈ g := by rw [eg]; exact List.mem_filter.2 ⟨h1, by simp [hm1]⟩
  have hr2 : r2 ∈ g := by rw [eg]; exact List.mem_filter.2 ⟨h2, by simp [hm2]⟩
  have hfind : ∃ first, g.find? (fun m => m.key = r1.key) = some first := by
    cases hf : g.find? (fun m => decide (m.key = r1.key)) with
    | none =>
      rw [List.find?_eq_none] at hf
      exact absurd (hf r1 hr1) (by simp)
    | some first => exact ⟨first, rfl⟩
  obtain ⟨first, hfirst⟩ := hfind
  have hk1 : first.key = r1.key := by simpa using List.find?_some hfirst
  have hk2 : r1.key = r2.key := by simp [Mblog.key, htext]
  have hm := mergeFrom_filter_absent { mblogs := loaded, skipped := 0, archived := 0 } g r1.key hnew
  rw [hfirst] at hm
  have hone : (writeOrder E (merge loaded g).mblogs).filter (fun m => m.key = r1.key) =
      [first] := by
    have hperm := (hE.sort.perm (less E) (merge loaded g).mblogs).filter
      (fun m => decide (m.key = r1.key))
    unfold merge at hperm ⊢
    unfold writeOrder
    rw [hm] at hperm
    exact List.perm_singleton.1 hperm
  refine ⟨g, first, hg, hr1, hr2, ?_, hk1, hk1.trans hk2, hone, ?_⟩
  · rw [← hfirst, eg, find?_filter_eq]
    congr 1
    funext m
    simp
  · intro hlog
    have hfirstW : first ∈ writeOrder E (merge loaded g).mblogs := by
      have : first ∈ (writeOrder E (merge loaded g).mblogs).filter
          (fun m => decide (m.key = r1.key)) := by rw [hone]; simp
      exact (List.mem_filter.1 this).1
    have hin : first ∈ (merge loaded g).mblogs := (hE.sort.perm _ _).subset hfirstW
    have hfresh : 0 < (merge loaded g).archived := by
      obtain ⟨fresh, ef, _, ha⟩ := mergeFrom_extends { mblogs := loaded, skipped := 0, archived := 0 } g
      unfold merge at hin ⊢
      rw [ef] at hin
      have hfr : first ∈ fresh := by
        rcases List.mem_append.1 hin with h | h
        · exact absurd hk1 (hnew first h)
        · exact h
      rw [ha]
      have := List.length_pos_of_mem hfr
      omega
    have hgp : ∀ m ∈ g, plain m.CreatedAt ∧ plain m.MblogID := by
      intro m hmg
      rw [eg] at hmg
      obtain ⟨hmb, hmm⟩ := List.mem_filter.1 hmg
      have hmo : monthOf E m = some d' := by simpa using hmm
      refine ⟨?_, hid m hmb hmo⟩
      simp only [monthOf, Option.map_eq_some'] at hmo
      obtain ⟨t, ht, _⟩ := hmo
      exact hE.parse _ t ht
    have hplain := merged_plain E p.fs (monthFile dir d') loaded g hl hgp
    have hplainW : ∀ m ∈ writeOrder E (merge loaded g).mblogs,
        plain m.CreatedAt ∧ plain m.MblogID := fun m hm => hplain m ((hE.sort.perm _ _).subset hm)
    have hsplit : stringsSplit '\n' (stringsJoin '\n' (savedLines E (merge loaded g).mblogs)) =
        (writeOrder E (merge loaded g).mblogs).map renderLine := by
      apply stringsSplit_join_clean
      · exact List.ne_nil_of_mem (List.mem_map_of_mem renderLine hfirstW)
      · intro l hlm
        obtain ⟨m, hm, rfl⟩ := List.mem_map.1 hlm
        have := hplainW m hm
        exact renderLine_not_mem_lf m this.1.2 this.2.2
    refine ⟨_, processGroup_writes E dir p (d', g) loaded hl hfresh hlog, hsplit, ?_⟩
    have hfil : (writeOrder E (merge loaded g).mblogs).filter
        ((fun l => decide (lineKey l = some r1.key)) ∘ renderLine) = [first] := by
      rw [← hone]
      apply List.filter_congr
      intro x hx
      simp only [Function.comp, lineKey_renderLine x (hplainW x hx), Option.some.injEq]
    rw [hsplit, List.filter_map, hfil]
    rfl

/-- Witness for C4: `mHello` and `mAgain` are both of January 2023 and carry
the same text; `mAgain` is fetched first, and its line is the one line of the
month file with that text. -/
theorem same_month_duplicates_collapse_witness :
    mHello.TheText = mAgain.TheText ∧
    monthOf (sampleEnv sampleFetch) mHello = some "2023-01".toList ∧
    monthOf (sampleEnv sampleFetch) mAgain = some "2023-01".toList ∧
    load (sampleEnv sampleFetch) userProgress.fs (monthFile "t/u1".toList "2023-01".toList) =
      some [] ∧
    (processGroup (sampleEnv sampleFetch) "t/u1".toList userProgress
        ("2023-01".toList, [mAgain, mPipes, mHello])).log = userProgress.log ∧
    (processGroup (sampleEnv sampleFetch) "t/u1".toList userProgress
        ("2023-01".toList, [mAgain, mPipes, mHello])).fs "t/u1/2023-01.txt".toList =
      some (.file ("Tue Jan 03 10:00:00 +0800 2023|12|C|a|b\n" ++
        "Tue Jan 31 23:00:00 +0800 2023|13|D|hello").toList) ∧
    ∃ g first, ("2023-01".toList, g) ∈
        (groupByMonth (sampleEnv sampleFetch) [mLines, mAgain, mPipes, mHello]).groups ∧
      mAgain ∈ g ∧ mHello ∈ g ∧
      [mLines, mAgain, mPipes, mHello].find?
        (fun m => monthOf (sampleEnv sampleFetch) m = some "2023-01".toList ∧ m.key = mAgain.key) =
          some first ∧
      first.key = mAgain.key ∧ first.key = mHello.key ∧
      (writeOrder (sampleEnv sampleFetch) (merge [] g).mblogs).filter
        (fun m => m.key = mAgain.key) = [first] ∧
      ((processGroup (sampleEnv sampleFetch) "t/u1".toList userProgress
          ("2023-01".toList, g)).log = userProgress.log →
        ∃ c, (processGroup (sampleEnv sampleFetch) "t/u1".toList userProgress
            ("2023-01".toList, g)).fs (monthFile "t/u1".toList "2023-01".toList) =
            some (.file c) ∧
          stringsSplit '\n' c =
            (writeOrder (sampleEnv sampleFetch) (merge [] g).mblogs).map renderLine ∧
          (stringsSplit '\n' c).filter (fun l => lineKey l = some mAgain.key) =
            [renderLine first]) :=
  ⟨by decide, by decide, by decide, by decide, by decide, by decide,
    same_month_duplicates_collapse (sampleEnv sampleFetch) (sampleEnv_sound _)
      [mLines, mAgain, mPipes, mHello] [] mAgain mHello "2023-01".toList "t/u1".toList
      userProgress (by decide) (by decide) (by decide) (by decide) (by decide) (by decide)
      (by decide) (by decide)⟩

/-! ### C5 -/

/-- C5: when every `created_at` parses, the lines `save` writes are the lines
of the records in an order in which no timestamp is later than the timestamp
of any line after it. -/
theorem save_sorted_by_time (E : Env) (hs : SortContract E.sortSlice) (mblogs : List Mblog)
    (hp : ∀ m ∈ mblogs, ∃ d, E.parseTime m.CreatedAt = some d) :
    savedLines E mblogs = (writeOrder E mblogs).map renderLine ∧
    (writeOrder E mblogs).Perm mblogs ∧
    (writeOrder E mblogs).Pairwise (fun a b => ∃ da db, E.parseTime a.CreatedAt = some da ∧
      E.parseTime b.CreatedAt = some db ∧ da.instant ≤ db.instant) := by
  refine ⟨rfl, hs.perm _ _, ?_⟩
  have h := writeOrder_pairwise E hs mblogs (less_orders_of_parse E mblogs hp)
  refine h.imp_of_mem ?_
  intro a b ha hb hab
  obtain ⟨da, ea⟩ := hp a ((hs.perm _ _).subset ha)
  obtain ⟨db, eb⟩ := hp b ((hs.perm _ _).subset hb)
  refine ⟨da, db, ea, eb, ?_⟩
  simpa [inOrder, ea, eb] using hab

/-- Witness for C5: four records out of order. -/
theorem save_sorted_by_time_witness :
    (∀ m ∈ [mLines, mAgain, mPipes, mHello],
      ∃ d, (sampleEnv sampleFetch).parseTime m.CreatedAt = some d) ∧
    writeOrder (sampleEnv sampleFetch) [mLines, mAgain, mPipes, mHello] =
      [mHello, mPipes, mAgain, mLines] ∧
    (writeOrder (sampleEnv sampleFetch) [mLines, mAgain, mPipes, mHello]).Pairwise
      (fun a b => ∃ da db, (sampleEnv sampleFetch).parseTime a.CreatedAt = some da ∧
        (sampleEnv sampleFetch).parseTime b.CreatedAt = some db ∧ da.instant ≤ db.instant) :=
  have hp : ∀ m ∈ [mLines, mAgain, mPipes, mHello],
      ∃ d, (sampleEnv sampleFetch).parseTime m.CreatedAt = some d := by
    have hall : ∀ m ∈ [mLines, mAgain, mPipes, mHello],
        ((sampleEnv sampleFetch).parseTime m.CreatedAt).isSome = true := by decide
    exact fun m hm => Option.isSome_iff_exists.1 (hall m hm)
  ⟨hp, by decide,
    (save_sorted_by_time (sampleEnv sampleFetch) insertionSort_contract _ hp).2.2⟩

/-! ### C6 -/

/-- C6, counterexample: a record of 2 January with id 3, a record whose
timestamp does not parse with id 2, a record of 3 January with id 1.  `save`
writes the undated record first, before the record with id 1; and no order of
the three agrees with the comparison rule on every pair. -/
theorem save_order_mixed_counterexample :
    writeOrder (sampleEnv sampleFetch) [mEarly, mNoDate, mLate] = [mNoDate, mEarly, mLate] ∧
    ¬ inOrder (sampleEnv sampleFetch) mNoDate mLate ∧
    ¬ (writeOrder (sampleEnv sampleFetch) [mEarly, mNoDate, mLate]).Pairwise
        (inOrder (sampleEnv sampleFetch)) ∧
    ∀ l ∈ [[mEarly, mNoDate, mLate], [mEarly, mLate, mNoDate], [mNoDate, mEarly, mLate],
           [mNoDate, mLate, mEarly], [mLate, mEarly, mNoDate], [mLate, mNoDate, mEarly]],
      ¬ l.Pairwise (inOrder (sampleEnv sampleFetch)) := by
  decide

/-- C6 (as amended): when every `created_at` parses, or none does, the order
`save` writes agrees with the comparison rule on every pair of lines. -/
theorem save_order_uniform (E : Env) (hs : SortContract E.sortSlice) (mblogs : List Mblog)
    (h : (∀ m ∈ mblogs, ∃ d, E.parseTime m.CreatedAt = some d) ∨
      (∀ m ∈ mblogs, E.parseTime m.CreatedAt = none)) :
    (writeOrder E mblogs).Pairwise (inOrder E) := by
  rcases h with h | h
  · exact writeOrder_pairwise E hs mblogs (less_orders_of_parse E mblogs h)
  · exact writeOrder_pairwise E hs mblogs (less_orders_of_no_parse E mblogs h)

/-- Witness for C6: three records none of whose timestamps
parses are written in ascending order of id. -/
theorem save_order_uniform_witness :
    (∀ m ∈ [{ mNoDate with ID := 5 }, mNoDate, { mNoDate with ID := -1 }],
      (sampleEnv sampleFetch).parseTime m.CreatedAt = none) ∧
    (writeOrder (sampleEnv sampleFetch)
      [{ mNoDate with ID := 5 }, mNoDate, { mNoDate with ID := -1 }]).map (fun m => m.ID) =
        [-1, 2, 5] ∧
    (writeOrder (sampleEnv sampleFetch)
      [{ mNoDate with ID := 5 }, mNoDate, { mNoDate with ID := -1 }]).Pairwise
        (inOrder (sampleEnv sampleFetch)) :=
  have h : ∀ m ∈ [{ mNoDate with ID := 5 }, mNoDate, { mNoDate with ID := -1 }],
      (sampleEnv sampleFetch).parseTime m.CreatedAt = none := by decide
  ⟨h, by decide, save_order_uniform (sampleEnv sampleFetch) insertionSort_contract _ (Or.inr h)⟩

/-! ### C7 -/

theorem unparsed_append (E : Env) (a b : List Mblog) :
    unparsed E (a ++ b) = unparsed E a + unparsed E b := by
  simp [unparsed, List.filter_append]

theorem unparsed_all (E : Env) (l : List Mblog) (h : ∀ m ∈ l, E.parseTime m.CreatedAt = none) :
    unparsed E l = l.length := by
  unfold unparsed
  rw [List.filter_eq_self.2]
  intro m hm
  simp [h m hm]

theorem get_two (E : Env) (userid : Str) (ms : List Mblog) (h : (get E userid 2).1 = some ms) :
    ∃ l l2, E.fetch userid 1 = some l ∧ E.fetch userid 2 = some l2 ∧ ms = l ++ l2 := by
  obtain ⟨e, hne⟩ := getLoop_some E userid _ _ _ ms h
  have hr : List.range' 1 2 = [1, 2] := rfl
  rw [hr] at e hne
  cases h1 : E.fetch userid 1 with
  | none => exact absurd h1 (hne 1 (by simp))
  | some l =>
    cases h2 : E.fetch userid 2 with
    | none => exact absurd h2 (hne 2 (by simp))
    | some l2 =>
      refine ⟨l, l2, rfl, rfl, ?_⟩
      rw [e]
      simp [h1, h2]

theorem coldFetch_plain : PlainIds (sampleEnv coldFetch) := by
  intro u p ms h m hm
  simp only [sampleEnv, coldFetch] at h
  split at h
  · simp only [Option.some.injEq] at h
    subst h
    simp only [List.mem_singleton] at hm
    subst hm
    decide
  · split at h
    · simp only [Option.some.injEq] at h
      subst h
      simp only [List.mem_singleton] at hm
      subst hm
      decide
    · simp only [Option.some.injEq] at h
      subst h
      exact absurd hm (by simp)

/-- An account processed without a logged failure: either its path is a
regular file and it is passed over, or it records a `Stat`, its directory is
there afterwards, and the `Stat` accounts for every record of the batch: page
1 when the directory was there, pages 1 and 2 when it was missing. -/
theorem archiveUser_first_any (E : Env) (hE : E.Sound)
    (hid : ∀ u p ms, E.fetch u p = some ms → ∀ m ∈ ms, plain m.MblogID)
    (dest : Str) (fs : FS) (userid : Str)
    (hq : ∀ e ∈ (archiveUser E dest fs userid).log,
      e.isFileFailure = false ∧ e.isFetchFailure = false) :
    ((∃ c, fs (filepathJoin dest userid) = some (.file c)) ∧
      (archiveUser E dest fs userid).stat = none ∧ (archiveUser E dest fs userid).fs = fs) ∨
    (∃ s l mblogs, E.fetch userid 1 = some l ∧ (archiveUser E dest fs userid).stat = some s ∧
      (archiveUser E dest fs userid).fs (filepathJoin dest userid) = some .dir ∧
      s.Userid = userid ∧ s.Skipped + s.Archived + unparsed E mblogs = mblogs.length ∧
      ((fs (filepathJoin dest userid) = some .dir ∧ mblogs = l) ∨
        (fs (filepathJoin dest userid) = none ∧
          ∃ l2, E.fetch userid 2 = some l2 ∧ mblogs = l ++ l2))) := by
  cases hst : osStat E fs (filepathJoin dest userid) with
  | failed =>
    have hpc : pageCount (osStat E fs (filepathJoin dest userid)) = none := by rw [hst]; rfl
    rw [archiveUser_skip E dest fs userid hpc, hst] at hq
    have := (hq (.statFailed userid (filepathJoin dest userid)) (by simp)).1
    exact absurd this (by simp [Event.isFileFailure])
  | found b =>
    cases b with
    | false =>
      have hpc : pageCount (osStat E fs (filepathJoin dest userid)) = none := by rw [hst]; rfl
      rw [archiveUser_skip E dest fs userid hpc]
      exact Or.inl ⟨osStat_found_false E fs _ hst, rfl, rfl⟩
    | true =>
      have hdir : fs (filepathJoin dest userid) = some .dir :=
        (osMkdirAll_some E fs fs _ (osMkdirAll_of_dir E fs _ hst)).1
      obtain ⟨l, s, hl, hs, h1, _, _, h4⟩ := archiveUser_first_stat E hE hid dest fs userid hdir hq
      obtain ⟨a, _, _⟩ := archiveUser_mono E hE hid dest fs userid
      exact Or.inr ⟨s, l, l, hl, hs, a _ hdir, h1, h4, Or.inl ⟨hdir, rfl⟩⟩
  | notExist =>
    have hpc : pageCount (osStat E fs (filepathJoin dest userid)) = some 2 := by rw [hst]; rfl
    have hnone : fs (filepathJoin dest userid) = none := by
      unfold osStat at hst
      split at hst
      · exact absurd hst (by simp)
      · split at hst
        · assumption
        · exact absurd hst (by simp)
        · exact absurd hst (by simp)
    cases hg : (get E userid 2).1 with
    | none =>
      rw [archiveUser_get_none E dest fs userid 2 hpc hg] at hq
      have := (hq (.getFailed userid) (by simp)).2
      exact absurd this (by simp [Event.isFetchFailure])
    | some mblogs =>
      cases hm : osMkdirAll E fs (filepathJoin dest userid) with
      | none =>
        rw [archiveUser_mkdir_none E dest fs userid 2 mblogs hpc hg hm] at hq
        have := (hq (.mkdirFailed userid (filepathJoin dest userid)) (by simp)).1
        exact absurd this (by simp [Event.isFileFailure])
      | some fs1 =>
        rw [archiveUser_ok E dest fs fs1 userid 2 mblogs hpc hg hm] at hq ⊢
        simp only at hq ⊢
        have hids : ∀ m ∈ mblogs, plain m.MblogID := by
          intro m hmm
          obtain ⟨p, l, hf, hl⟩ := get_mem E userid 2 mblogs hg m hmm
          exact hid userid p l hf m hl
        obtain ⟨_, h1, _, _, h4⟩ := archiveFetched_quiet E hE (filepathJoin dest userid) userid fs1
          mblogs (get E userid 2).2 hids (fun e he => (hq e he).1)
        obtain ⟨a, _, _⟩ := archiveFetched_mono E hE (filepathJoin dest userid) userid fs1 mblogs
          (get E userid 2).2 hids
        obtain ⟨l, l2, hl, hl2, e⟩ := get_two E userid mblogs hg
        exact Or.inr ⟨_, l, mblogs, hl, rfl, a _ (osMkdirAll_some E fs fs1 _ hm).1, h1, h4,
          Or.inr ⟨hnone, l2, hl2, e⟩⟩

/-- The loop over the accounts, run without a logged failure, page 2 bringing
no record that parses for the accounts whose directory is missing: the `Stat`s
recorded are those of the accounts whose directory is there afterwards, and
each accounts for every record of page 1. -/
theorem users_first_any (E : Env) (hE : E.Sound)
    (hid : ∀ u p ms, E.fetch u p = some ms → ∀ m ∈ ms, plain m.MblogID)
    (dest : Str) (us : List Str) (w : World)
    (hcold : ∀ u ∈ us, w.fs (filepathJoin dest u) = some .dir ∨
      ∀ l2, E.fetch u 2 = some l2 → ∀ m ∈ l2, E.parseTime m.CreatedAt = none)
    (hq : ∀ e ∈ (us.foldl (processUser E dest) w).log,
      e.isFileFailure = false ∧ e.isFetchFailure = false) :
    ∃ S, (us.foldl (processUser E dest) w).stats = w.stats ++ S ∧
      List.Forall₂ (fun u s => s.Userid = u ∧
        s.Skipped + s.Archived + unparsed E ((E.fetch u 1).getD []) =
          ((E.fetch u 1).getD []).length)
        (us.filter (fun u =>
          (us.foldl (processUser E dest) w).fs (filepathJoin dest u) = some .dir)) S := by
  induction us generalizing w with
  | nil => exact ⟨[], by simp⟩
  | cons u rest ih =>
    simp only [List.foldl_cons] at hq ⊢
    obtain ⟨extra, hex⟩ := users_log E dest rest (processUser E dest w u)
    have hq1 : ∀ e ∈ (archiveUser E dest w.fs u).log,
        e.isFileFailure = false ∧ e.isFetchFailure = false := by
      intro e he
      apply hq e
      rw [hex]
      exact List.mem_append_left _ (List.mem_append_right _ he)
    obtain ⟨a, _, _⟩ := archiveUser_mono E hE hid dest w.fs u
    obtain ⟨S, e, hS⟩ := ih (processUser E dest w u)
      (fun v hv => (hcold v (List.mem_cons_of_mem _ hv)).imp (fun hd => a _ hd) (fun hn => hn)) hq
    obtain ⟨ma, mb, _⟩ := users_mono E hE hid dest rest (processUser E dest w u)
    rcases archiveUser_first_any E hE hid dest w.fs u hq1 with ⟨⟨c, hc⟩, hs, hfs⟩ |
      ⟨s, l, mblogs, hl, hs, hdir, h1, h4, hcase⟩
    · have hfile : (processUser E dest w u).fs (filepathJoin dest u) = some (.file c) := by
        simp only [processUser, hfs, hc]
      obtain ⟨c', hc'⟩ := mb _ c hfile
      refine ⟨S, ?_, ?_⟩
      · rw [e]
        simp [processUser, hs]
      · rw [List.filter_cons_of_neg (by simp [hc'])]
        exact hS
    · have hdir' : (rest.foldl (processUser E dest) (processUser E dest w u)).fs
          (filepathJoin dest u) = some .dir := ma _ (by simpa only [processUser] using hdir)
      refine ⟨s :: S, ?_, ?_⟩
      · rw [e]
        simp [processUser, hs]
      · rw [List.filter_cons_of_pos (by simp [hdir'])]
        refine List.Forall₂.cons ⟨h1, ?_⟩ hS
        rw [hl]
        simp only [Option.getD_some]
        rcases hcase with ⟨_, em⟩ | ⟨hnone, l2, hl2, em⟩
        · rw [← em]
          exact h4
        · rcases hcold u (List.mem_cons_self _ _) with hd | hn
          · rw [hnone] at hd
            exact absurd hd (by simp)
          · have := unparsed_all E l2 (hn l2 hl2)
            rw [em, unparsed_append, List.length_append] at h4
            omega

/-- C7, counterexample.  First, one record on page 1 and another on page 2:
the first run finds no directory, fetches both pages and archives 2 records;
the second run fetches page 1 only and skips 1.  Second, an archive that holds
one of the two records of page 1 already: the first run archives 1 and skips
1, the second skips 2. -/
theorem rerun_skipped_counterexample :
    (twice (sampleEnv twoPageFetch) sampleConfig emptyFS).map
      (fun r => (decide (fileOpsOk r.1.log ∧ fetchOk r.1.log ∧ fileOpsOk r.2.log ∧ fetchOk r.2.log),
        r.1.stats, r.2.stats)) =
      some (true, [⟨"u1".toList, 2, 0, 0, 2⟩], [⟨"u1".toList, 1, 1, 0, 0⟩]) ∧
    (twice (sampleEnv sampleFetch) sampleConfig sampleFS).map
      (fun r => (decide (fileOpsOk r.1.log ∧ fetchOk r.1.log ∧ fileOpsOk r.2.log ∧ fetchOk r.2.log),
        r.1.stats, r.2.stats)) =
      some (true, [⟨"u1".toList, 2, 1, 0, 1⟩], [⟨"u1".toList, 2, 2, 0, 0⟩]) :=
  ⟨by decide, by decide⟩

/-- C7 (as amended): with a fetcher that returns only plain `mblog_id`s, the
first run meeting no fetch error, every file-system call of both runs
succeeding, and page 2 bringing no record whose `created_at` parses for every
account whose directory is not there before the first run, the second run's
`Skipped` counter of an account is the first run's `Archived` plus the first
run's `Skipped`. -/
theorem rerun_skipped (E : Env) (hE : E.Sound) (hid : PlainIds E) (config : Config) (fs : FS)
    (w1 w2 : World) (h : twice E config fs = some (w1, w2))
    (hf1 : fileOpsOk w1.log) (hg1 : fetchOk w1.log) (hf2 : fileOpsOk w2.log)
    (hcold : ∀ u ∈ config.Userids, fs (filepathJoin config.dest u) = some .dir ∨
      ∀ l2, E.fetch u 2 = some l2 → ∀ m ∈ l2, E.parseTime m.CreatedAt = none) :
    List.Forall₂ (fun s1 s2 => s2.Userid = s1.Userid ∧ s2.Skipped = s1.Archived + s1.Skipped)
      w1.stats w2.stats := by
  have hq1 : ∀ e ∈ w1.log, e.isFileFailure = false ∧ e.isFetchFailure = false :=
    fun e he => ⟨hf1 e he, hg1 e he⟩
  obtain ⟨hcov, e2⟩ := twice_covered E hE hid config fs w1 w2 h hq1
  obtain ⟨h1, _⟩ := twice_some E config fs w1 w2 h
  obtain ⟨fs0, hm0, e1⟩ := main_some E config fs w1 h1
  obtain ⟨_, keep⟩ := osMkdirAll_some E fs fs0 _ hm0
  have hc0 : ∀ u ∈ config.Userids, fs0 (filepathJoin config.dest u) = some .dir ∨
      ∀ l2, E.fetch u 2 = some l2 → ∀ m ∈ l2, E.parseTime m.CreatedAt = none := by
    intro u hu
    refine (hcold u hu).imp ?_ (fun hn => hn)
    intro hd
    rw [keep _ (by simp [hd])]
    exact hd
  obtain ⟨S, eS, hS⟩ := users_first_any E hE hid config.dest config.Userids
    { fs := fs0, stats := [], log := [] } hc0 (by rw [← e1]; exact hq1)
  rw [← e1] at eS hS
  obtain ⟨_, b⟩ := users_second E hE hid config.dest config.Userids
    { fs := w1.fs, stats := [], log := [] } hcov (by rw [← e2]; exact hf2)
  rw [← e2] at b
  simp only [List.nil_append] at b eS
  rw [eS, b, List.forall₂_map_right_iff]
  have hflip : List.Forall₂ (fun s u => s.Userid = u ∧
      s.Skipped + s.Archived + unparsed E ((E.fetch u 1).getD []) =
        ((E.fetch u 1).getD []).length) S
      (config.Userids.filter (fun u => w1.fs (filepathJoin config.dest u) = some .dir)) :=
    List.Forall₂.flip hS
  refine hflip.imp ?_
  intro s u hsu
  obtain ⟨e, hsum⟩ := hsu
  refine ⟨e.symm, ?_⟩
  simp only [allSkipped]
  omega

/-- Witness for C7: a cold start.  The directory of `u1` is missing, page 1
brings one record and page 2 one record whose timestamp does not parse: the
first run archives 1 and fails 1, the second run skips 1. -/
theorem rerun_skipped_witness :
    twice (sampleEnv coldFetch) sampleConfig emptyFS = some coldRuns ∧
    fileOpsOk coldRuns.1.log ∧ fetchOk coldRuns.1.log ∧ fileOpsOk coldRuns.2.log ∧
    emptyFS (filepathJoin sampleConfig.dest "u1".toList) = none ∧
    coldRuns.1.stats = [⟨"u1".toList, 2, 0, 1, 1⟩] ∧
    coldRuns.2.stats = [⟨"u1".toList, 1, 1, 0, 0⟩] ∧
    List.Forall₂ (fun s1 s2 => s2.Userid = s1.Userid ∧ s2.Skipped = s1.Archived + s1.Skipped)
      coldRuns.1.stats coldRuns.2.stats :=
  have h : twice (sampleEnv coldFetch) sampleConfig emptyFS = some coldRuns :=
    getD_of_isSome _ _ (by decide)
  have a : fileOpsOk coldRuns.1.log := by decide
  have b : fetchOk coldRuns.1.log := by decide
  have c : fileOpsOk coldRuns.2.log := by decide
  have hcold : ∀ u ∈ sampleConfig.Userids,
      emptyFS (filepathJoin sampleConfig.dest u) = some .dir ∨
      ∀ l2, (sampleEnv coldFetch).fetch u 2 = some l2 →
        ∀ m ∈ l2, (sampleEnv coldFetch).parseTime m.CreatedAt = none := by
    intro u _
    right
    intro l2 hl2 m hm
    simp only [sampleEnv, coldFetch] at hl2
    split at hl2
    · rename_i hc
      exact absurd hc.2 (by decide)
    · split at hl2
      · simp only [Option.some.injEq] at hl2
        subst hl2
        simp only [List.mem_singleton] at hm
        subst hm
        decide
      · simp only [Option.some.injEq] at hl2
        subst hl2
        exact absurd hm (by simp)
  ⟨h, a, b, c, by decide, by decide, by decide,
    rerun_skipped _ (sampleEnv_sound _) coldFetch_plain sampleConfig emptyFS _ _ h a b c hcold⟩

/-! ### C8 -/

/-- C8, counterexample: the month file holds one line whose id field is `007`;
a fresh record is merged in.  `load` accepts the old line, and the file `save`
writes no longer contains it: the id is written back as `7`. -/
theorem merge_rewrites_id_counterexample :
    (parseLine "Mon Jan 02 15:04:05 +0800 2023|007|A|hello".toList).isSome = true ∧
    paddedFS "t/u1/2023-01.txt".toList =
      some (.file "Mon Jan 02 15:04:05 +0800 2023|007|A|hello".toList) ∧
    (main (sampleEnv oneFetch) sampleConfig paddedFS).map
      (fun w => (decide (fileOpsOk w.log ∧ fetchOk w.log), w.stats,
        w.fs "t/u1/2023-01.txt".toList)) =
      some (true, [⟨"u1".toList, 1, 0, 0, 1⟩],
        some (.file ("Mon Jan 02 15:04:05 +0800 2023|7|A|hello\n" ++
          "Tue Jan 03 10:00:00 +0800 2023|12|C|a|b").toList)) ∧
    "Mon Jan 02 15:04:05 +0800 2023|007|A|hello".toList ∉
      stringsSplit '\n' ("Mon Jan 02 15:04:05 +0800 2023|7|A|hello\n" ++
          "Tue Jan 03 10:00:00 +0800 2023|12|C|a|b").toList := by
  decide

/-- C8 (as amended): when a month group adds at least one fresh record to an
existing month file and no failure is logged, every line of the old file that
`load` accepts and whose id field is the decimal rendering `save` gives the id
is still, byte for byte, among the lines of the file `save` writes. -/
theorem merge_keeps_canonical_lines (E : Env) (hs : SortContract E.sortSlice) (dir : Str)
    (p : Progress) (g : Str × List Mblog) (old : Str)
    (hold : p.fs (monthFile dir g.1) = some (.file old))
    (hfresh : 0 < (merge (parseFile old) g.2).archived)
    (hlog : (processGroup E dir p g).log = p.log) :
    ∃ new, (processGroup E dir p g).fs (monthFile dir g.1) = some (.file new) ∧
      ∀ line ∈ stringsSplit '\n' old, (parseLine line).isSome = true →
        FormatInt (ParseInt (idField line)) = idField line → line ∈ stringsSplit '\n' new := by
  cases hl : load E p.fs (monthFile dir g.1) with
  | none =>
    rw [processGroup_load_none E dir p g hl] at hlog
    exact absurd hlog (by simp)
  | some loaded =>
    have el : loaded = parseFile old := by
      rcases load_some E p.fs _ loaded hl with ⟨hn, _⟩ | ⟨c, hc, e⟩
      · rw [hn] at hold; exact absurd hold (by simp)
      · rw [hc] at hold
        simp only [Option.some.injEq, Node.file.injEq] at hold
        rw [e, hold]
    subst el
    cases hsv : save E p.fs (monthFile dir g.1) (merge (parseFile old) g.2).mblogs with
    | none =>
      rw [processGroup_save_none E dir p g _ hl hfresh hsv] at hlog
      exact absurd hlog (by simp)
    | some fs' =>
      rw [processGroup_save_some E dir p g _ fs' hl hfresh hsv]
      obtain ⟨e, _⟩ := osWriteFile_some E p.fs fs' _ _ hsv
      subst e
      refine ⟨stringsJoin '\n' (savedLines E (merge (parseFile old) g.2).mblogs), by simp, ?_⟩
      intro line hline hacc hid
      obtain ⟨m, hm⟩ := Option.isSome_iff_exists.1 hacc
      have hlf := stringsSplit_not_mem '\n' old line hline
      have hr := renderLine_of_parseLine line m hm hlf hid
      have hmem : m ∈ parseFile old := List.mem_filterMap.2 ⟨line, hline, hm⟩
      obtain ⟨fresh, ef, _, _⟩ := mergeFrom_extends
        { mblogs := parseFile old, skipped := 0, archived := 0 } g.2
      have hmm : m ∈ (merge (parseFile old) g.2).mblogs := by
        unfold merge
        rw [ef]
        exact List.mem_append_left _ hmem
      have hw : line ∈ savedLines E (merge (parseFile old) g.2).mblogs := by
        rw [← hr]
        exact List.mem_map_of_mem _ ((hs.perm _ _).symm.subset hmm)
      rw [stringsSplit_join '\n' _ (List.ne_nil_of_mem hw)]
      exact List.mem_flatMap.2 ⟨line, hw, by rw [stringsSplit_of_not_mem '\n' line hlf]; simp⟩

/-- Witness for C8: a fresh record merged into the
month file of `sampleFS`. -/
theorem merge_keeps_canonical_lines_witness :
    sampleFS (monthFile "t/u1".toList "2023-01".toList) =
      some (.file "Mon Jan 02 15:04:05 +0800 2023|10|A|hello".toList) ∧
    0 < (merge (parseFile "Mon Jan 02 15:04:05 +0800 2023|10|A|hello".toList) [mPipes]).archived ∧
    (processGroup (sampleEnv sampleFetch) "t/u1".toList sampleProgress
      ("2023-01".toList, [mPipes])).log = sampleProgress.log ∧
    (processGroup (sampleEnv sampleFetch) "t/u1".toList sampleProgress
      ("2023-01".toList, [mPipes])).fs (monthFile "t/u1".toList "2023-01".toList) =
      some (.file ("Mon Jan 02 15:04:05 +0800 2023|10|A|hello\n" ++
        "Tue Jan 03 10:00:00 +0800 2023|12|C|a|b").toList) ∧
    ∃ new, (processGroup (sampleEnv sampleFetch) "t/u1".toList sampleProgress
        ("2023-01".toList, [mPipes])).fs (monthFile "t/u1".toList "2023-01".toList) =
          some (.file new) ∧
      ∀ line ∈ stringsSplit '\n' "Mon Jan 02 15:04:05 +0800 2023|10|A|hello".toList,
        (parseLine line).isSome = true →
          FormatInt (ParseInt (idField line)) = idField line → line ∈ stringsSplit '\n' new :=
  ⟨by decide, by decide, by decide, by decide,
    merge_keeps_canonical_lines (sampleEnv sampleFetch) insertionSort_contract "t/u1".toList
      sampleProgress ("2023-01".toList, [mPipes]) _ (by decide) (by decide) (by decide)⟩

/-! ### C9 -/

/-- C9: for a record whose `created_at` and `mblog_id` contain no pipe and no
line-feed (its id a signed 64-bit integer), the line `save` renders splits
from the left into exactly `created_at`, the decimal id, `mblog_id` and
`strip(TheText())`, whatever pipes the text contains; and `load` reads the
line back as one record with the same `created_at`, id and `mblog_id` and with
`strip(TheText())` as its text. -/
theorem split_rendered_line (m : Mblog) (hc : plain m.CreatedAt) (hm : plain m.MblogID)
    (hid : -(2 ^ 63) ≤ m.ID ∧ m.ID < 2 ^ 63) :
    stringsSplitN '|' 4 (renderLine m) =
      [m.CreatedAt, FormatInt m.ID, m.MblogID, strip m.TheText] ∧
    parseFile (renderLine m) =
      [{ CreatedAt := m.CreatedAt, ID := m.ID, MblogID := m.MblogID, TextRaw := strip m.TheText,
         Derived := none }] := by
  refine ⟨splitN_renderLine m hc.1 hm.1, ?_⟩
  have := parseFile_join_renderLine [m] (by
    intro x hx
    simp only [List.mem_singleton] at hx
    subst hx
    exact ⟨hc, hm⟩)
  simp only [List.map_cons, List.map_nil, stringsJoin] at this
  rw [this, reload, ParseInt_FormatInt m.ID hid.1 hid.2]

/-- Witness for C9: a text with six pipes, a line-feed and a backslash. -/
theorem split_rendered_line_witness :
    plain mBusy.CreatedAt ∧ plain mBusy.MblogID ∧ (-(2 ^ 63) ≤ mBusy.ID ∧ mBusy.ID < 2 ^ 63) ∧
    renderLine mBusy = "Tue Jan 03 10:00:00 +0800 2023|-42|Mx9||a||b|\\nc\\n|".toList ∧
    stringsSplitN '|' 4 (renderLine mBusy) =
      [mBusy.CreatedAt, FormatInt mBusy.ID, mBusy.MblogID, strip mBusy.TheText] ∧
    parseFile (renderLine mBusy) =
      [{ CreatedAt := mBusy.CreatedAt, ID := mBusy.ID, MblogID := mBusy.MblogID,
         TextRaw := strip mBusy.TheText, Derived := none }] :=
  ⟨by decide, by decide, by decide, by decide,
    split_rendered_line mBusy (by decide) (by decide) (by decide)⟩

/-! ### C10 -/

/-- C10: when the fetcher fails on one of the pages `1..N` the planner asks
for, `get` returns an error, whatever the other pages returned, and the
processing of the account leaves the file system and `stats` as they were: no
directory, no month file, no `Stat`. -/
theorem fetch_error_no_persistence (E : Env) (dest : Str) (w : World) (userid : Str) (n page : Nat)
    (hn : pageCount (osStat E w.fs (filepathJoin dest userid)) = some n)
    (h1 : 1 ≤ page) (h2 : page ≤ n) (hf : E.fetch userid page = none) :
    (get E userid n).1 = none ∧
    (processUser E dest w userid).fs = w.fs ∧ (processUser E dest w userid).stats = w.stats := by
  have hg : (get E userid n).1 = none :=
    getLoop_none E userid _ _ _ page (List.mem_range'_1.2 ⟨h1, by omega⟩) hf
  refine ⟨hg, ?_, ?_⟩
  · simp [processUser, archiveUser_get_none E dest w.fs userid n hn hg]
  · simp [processUser, archiveUser_get_none E dest w.fs userid n hn hg]

/-- Witness for C10: page 1 succeeds, page 2 fails. -/
theorem fetch_error_no_persistence_witness :
    pageCount (osStat (sampleEnv failingFetch) emptyFS (filepathJoin "t".toList "u1".toList)) = some 2 ∧
    failingFetch "u1".toList 1 = some [mHello] ∧ failingFetch "u1".toList 2 = none ∧
    (get (sampleEnv failingFetch) "u1".toList 2).1 = none ∧
    (processUser (sampleEnv failingFetch) "t".toList { fs := emptyFS, stats := [], log := [] }
      "u1".toList).fs = emptyFS ∧
    (processUser (sampleEnv failingFetch) "t".toList { fs := emptyFS, stats := [], log := [] }
      "u1".toList).stats = [] :=
  ⟨by decide, by decide, by decide,
    fetch_error_no_persistence (sampleEnv failingFetch) "t".toList
      { fs := emptyFS, stats := [], log := [] } "u1".toList 2 2 (by decide) (by decide) (by decide)
      (by decide)⟩

/-! ## Further lemmas and claims -/

theorem stringsSplitN_length (sep : Char) (n : Nat) (s : Str) :
    (stringsSplitN sep (n + 1) s).length = min (n + 1) (s.count sep + 1) := by
  induction s generalizing n with
  | nil => cases n <;> simp [stringsSplitN]
  | cons c cs ih =>
    cases n with
    | zero => simp [stringsSplitN_one]
    | succ n =>
      unfold stringsSplitN
      by_cases hc : c = sep
      · simp only [hc, if_true, List.length_cons, ih n, List.count_cons_self]
        omega
      · simp only [hc, if_false]
        have hcount : (c :: cs).count sep = cs.count sep := by
          simp [List.count_cons, hc]
        cases h : stringsSplitN sep (n + 2) cs with
        | nil => exact absurd h (stringsSplitN_ne_nil sep (n + 1) cs)
        | cons p ps =>
          have := ih (n + 1)
          rw [h] at this
          simp only [List.length_cons] at this ⊢
          rw [hcount]
          exact this

theorem parseLine_eq (line : Str) :
    parseLine line = if fourFields line then some (lineRecord line) else none := by
  have hlen := stringsSplitN_length '|' 3 line
  unfold parseLine fourFields lineRecord
  by_cases h3 : 3 ≤ line.count '|'
  · have hne : line ≠ [] := by
      intro e; rw [e] at h3; simp at h3
    have h4 : (stringsSplitN '|' 4 line).length = 4 := by rw [hlen]; omega
    simp only [hne, if_false, h3, decide_True, if_true]
    match hs : stringsSplitN '|' 4 line, h4 with
    | [a, b, c, d], _ => simp
  · simp only [h3, decide_False, Bool.false_eq_true, if_false]
    split
    · rfl
    · have h4 : (stringsSplitN '|' 4 line).length < 4 := by rw [hlen]; omega
      split
      · rename_i hs
        rw [hs] at h4
        simp at h4
      · rfl

/-! ### C14 -/

/-- C14: `has` answers true exactly when some record of the list has the
normalized text of `m`; and its answer is the same whatever the `created_at`,
id and `mblog_id` of `m` and of the records of the list are changed to. -/
theorem has_by_normalized_text (list : List Mblog) (m : Mblog) :
    (has list m = true ↔ ∃ x ∈ list, strip x.TheText = strip m.TheText) ∧
    ∀ (fc fm : Mblog → Str) (fi : Mblog → Int),
      has (list.map (fun x => { x with CreatedAt := fc x, ID := fi x, MblogID := fm x }))
        { m with CreatedAt := fc m, ID := fi m, MblogID := fm m } = has list m := by
  refine ⟨has_iff list m, ?_⟩
  intro fc fm fi
  induction list with
  | nil => rfl
  | cons y ys ih =>
    simp only [List.map_cons, has]
    rw [ih]
    rfl

/-! ### C15 -/

/-- C15: when the file can be read, `load` returns no error and exactly the
records of the lines that hold at least three pipes, one for each such line,
in file order, filled from the four fields the line splits into from the left;
an empty line and a line of fewer than four fields give no record. -/
theorem load_one_record_per_line (E : Env) (fs : FS) (file b : Str)
    (h : osReadFile E fs file = .ok b) :
    load E fs file = some (((stringsSplit '\n' b).filter fourFields).map lineRecord) ∧
    (∀ line, fourFields line = true ↔
      line ≠ [] ∧ (stringsSplitN '|' 4 line).length = 4) ∧
    ∀ line, (line = [] ∨ (stringsSplitN '|' 4 line).length < 4) → parseLine line = none := by
  have hf : ∀ line, fourFields line = true ↔
      line ≠ [] ∧ (stringsSplitN '|' 4 line).length = 4 := by
    intro line
    have hlen := stringsSplitN_length '|' 3 line
    simp only [fourFields, decide_eq_true_eq]
    constructor
    · intro h3
      refine ⟨?_, by rw [hlen]; omega⟩
      intro e; rw [e] at h3; simp at h3
    · rintro ⟨_, h4⟩
      rw [hlen] at h4
      omega
  refine ⟨?_, hf, ?_⟩
  · simp only [load, h, parseFile]
    congr 1
    induction stringsSplit '\n' b with
    | nil => rfl
    | cons l ls ih =>
      simp only [List.filterMap_cons, List.filter_cons, parseLine_eq]
      by_cases hl : fourFields l = true
      · simp [hl, ih]
      · simp [hl, ih]
  · intro line hline
    rw [parseLine_eq]
    have : ¬ fourFields line = true := by
      rw [hf]
      rintro ⟨h1, h2⟩
      rcases hline with h | h
      · exact h1 h
      · omega
    simp [this]

/-- Witness for C15: a file with a blank line, two short lines and two lines of
four fields. -/
theorem load_one_record_per_line_witness :
    osReadFile (sampleEnv sampleFetch) raggedFS "f.txt".toList = .ok raggedFile ∧
    stringsSplit '\n' raggedFile =
      [[], "no pipes".toList, "a|b|c".toList,
       "Mon Jan 02 15:04:05 +0800 2023|10|A|hello".toList, [], "x|y|z|t|u".toList, []] ∧
    ((stringsSplit '\n' raggedFile).filter fourFields).map lineRecord =
      [⟨"Mon Jan 02 15:04:05 +0800 2023".toList, 10, "A".toList, "hello".toList, none⟩,
       ⟨"x".toList, 0, "z".toList, "t|u".toList, none⟩] ∧
    load (sampleEnv sampleFetch) raggedFS "f.txt".toList =
      some (((stringsSplit '\n' raggedFile).filter fourFields).map lineRecord) :=
  ⟨by decide, by decide, by decide,
    (load_one_record_per_line (sampleEnv sampleFetch) raggedFS "f.txt".toList raggedFile
      (by decide)).1⟩

/-! ### C19 -/

/-- C19: there are two records with different texts, one with a real line-feed
and the other with a backslash and an `n` in its place, that `has` takes for
duplicates; once the first is archived, a run that fetches the second skips it
and leaves the month file as it was. -/
theorem linefeed_collision :
    ∃ m1 m2 : Mblog,
      m1.TheText = "line1\nline2".toList ∧ m2.TheText = "line1\\nline2".toList ∧
      m1.TheText ≠ m2.TheText ∧ has [m1] m2 = true ∧
      (main (sampleEnv (fetchOnly m1)) sampleConfig emptyFS).map
          (fun w => (w.stats, w.fs "t/u1/2023-01.txt".toList)) =
        some ([⟨"u1".toList, 1, 0, 0, 1⟩],
          some (.file "Mon Jan 02 15:04:05 +0800 2023|20|R|line1\\nline2".toList)) ∧
      ((main (sampleEnv (fetchOnly m1)) sampleConfig emptyFS).bind
          (fun w => main (sampleEnv (fetchOnly m2)) sampleConfig w.fs)).map
          (fun w => (w.stats, w.fs "t/u1/2023-01.txt".toList)) =
        some ([⟨"u1".toList, 1, 1, 0, 0⟩],
          some (.file "Mon Jan 02 15:04:05 +0800 2023|20|R|line1\\nline2".toList)) :=
  ⟨mReal, mLiteral, by decide, by decide, by decide, by decide, by decide, by decide⟩

/-! ### C12 -/

/-- C12: when `load` fails for a month group, or `save` fails for it, `Failed`
grows by the number of incoming records of the group, `Archived`, `Skipped`
and the file system stay as they were, and the loop goes on with the remaining
groups from there. -/
theorem failed_group_counts (E : Env) (dir : Str) (p : Progress) (g : Str × List Mblog)
    (rest : List (Str × List Mblog))
    (h : load E p.fs (monthFile dir g.1) = none ∨
      ∃ loaded, load E p.fs (monthFile dir g.1) = some loaded ∧
        0 < (merge loaded g.2).archived ∧
        save E p.fs (monthFile dir g.1) (merge loaded g.2).mblogs = none) :
    (processGroup E dir p g).stat.Failed = p.stat.Failed + g.2.length ∧
    (processGroup E dir p g).stat.Archived = p.stat.Archived ∧
    (processGroup E dir p g).stat.Skipped = p.stat.Skipped ∧
    (processGroup E dir p g).fs = p.fs ∧
    (g :: rest).foldl (processGroup E dir) p =
      rest.foldl (processGroup E dir)
        { fs := p.fs, stat := { p.stat with Failed := p.stat.Failed + g.2.length },
          log := (processGroup E dir p g).log } := by
  rcases h with hl | ⟨loaded, hl, ha, hsv⟩
  · rw [List.foldl_cons, processGroup_load_none E dir p g hl]
    exact ⟨rfl, rfl, rfl, rfl, rfl⟩
  · rw [List.foldl_cons, processGroup_save_none E dir p g loaded hl ha hsv]
    exact ⟨rfl, rfl, rfl, rfl, rfl⟩

/-- Witness for C12: the month file of January is unreadable; its two incoming
records are counted as failed and the group of February is archived. -/
theorem failed_group_counts_witness :
    load (sampleEnv sampleFetch) blockedProgress.fs (monthFile "t/u1".toList "2023-01".toList) =
      none ∧
    (([("2023-01".toList, [mHello, mPipes]), ("2023-02".toList, [mLines])].foldl
        (processGroup (sampleEnv sampleFetch) "t/u1".toList) blockedProgress).stat,
      ([("2023-01".toList, [mHello, mPipes]), ("2023-02".toList, [mLines])].foldl
        (processGroup (sampleEnv sampleFetch) "t/u1".toList) blockedProgress).fs
          "t/u1/2023-02.txt".toList) =
      (⟨"u1".toList, 3, 0, 2, 1⟩,
        some (.file "Wed Feb 01 01:00:00 +0800 2023|11|B|line1\\nline2".toList)) ∧
    (processGroup (sampleEnv sampleFetch) "t/u1".toList blockedProgress
      ("2023-01".toList, [mHello, mPipes])).stat.Failed = blockedProgress.stat.Failed + 2 ∧
    (processGroup (sampleEnv sampleFetch) "t/u1".toList blockedProgress
      ("2023-01".toList, [mHello, mPipes])).stat.Archived = blockedProgress.stat.Archived ∧
    (processGroup (sampleEnv sampleFetch) "t/u1".toList blockedProgress
      ("2023-01".toList, [mHello, mPipes])).stat.Skipped = blockedProgress.stat.Skipped :=
  have h := failed_group_counts (sampleEnv sampleFetch) "t/u1".toList blockedProgress
    ("2023-01".toList, [mHello, mPipes]) [("2023-02".toList, [mLines])] (Or.inl (by decide))
  ⟨by decide, by decide, h.1, h.2.1, h.2.2.1⟩

theorem processGroup_total (E : Env) (dir : Str) (p : Progress) (g : Str × List Mblog) :
    (processGroup E dir p g).stat.Archived + (processGroup E dir p g).stat.Skipped +
        (processGroup E dir p g).stat.Failed =
      p.stat.Archived + p.stat.Skipped + p.stat.Failed + g.2.length ∧
    (processGroup E dir p g).stat.Fetched = p.stat.Fetched ∧
    (processGroup E dir p g).stat.Userid = p.stat.Userid := by
  cases hl : load E p.fs (monthFile dir g.1) with
  | none =>
    rw [processGroup_load_none E dir p g hl]
    exact ⟨by simp only; omega, rfl, rfl⟩
  | some loaded =>
    have hc := mergeFrom_counts { mblogs := loaded, skipped := 0, archived := 0 } g.2
    have hc' : (merge loaded g.2).skipped + (merge loaded g.2).archived = g.2.length := by
      simpa [merge] using hc
    by_cases ha : 0 < (merge loaded g.2).archived
    · cases hsv : save E p.fs (monthFile dir g.1) (merge loaded g.2).mblogs with
      | none =>
        rw [processGroup_save_none E dir p g loaded hl ha hsv]
        exact ⟨by simp only; omega, rfl, rfl⟩
      | some fs' =>
        rw [processGroup_save_some E dir p g loaded fs' hl ha hsv]
        exact ⟨by simp only; omega, rfl, rfl⟩
    · rw [processGroup_no_write E dir p g loaded hl ha]
      exact ⟨by simp only; omega, rfl, rfl⟩

theorem groups_total (E : Env) (dir : Str) (gs : List (Str × List Mblog)) (p : Progress) :
    (gs.foldl (processGroup E dir) p).stat.Archived + (gs.foldl (processGroup E dir) p).stat.Skipped +
        (gs.foldl (processGroup E dir) p).stat.Failed =
      p.stat.Archived + p.stat.Skipped + p.stat.Failed + (gs.map (fun g => g.2.length)).sum ∧
    (gs.foldl (processGroup E dir) p).stat.Fetched = p.stat.Fetched ∧
    (gs.foldl (processGroup E dir) p).stat.Userid = p.stat.Userid := by
  induction gs generalizing p with
  | nil => simp
  | cons g rest ih =>
    obtain ⟨a, b, c⟩ := processGroup_total E dir p g
    obtain ⟨a', b', c'⟩ := ih (processGroup E dir p g)
    simp only [List.foldl_cons, List.map_cons, List.sum_cons]
    exact ⟨by omega, b'.trans b, c'.trans c⟩

theorem archiveFetched_total (E : Env) (hr : ∀ m, (E.rangeOrder m).Perm m) (dir userid : Str)
    (fs : FS) (mblogs : List Mblog) (glog : List Event) :
    (archiveFetched E dir userid fs mblogs glog).stat.Fetched =
      (archiveFetched E dir userid fs mblogs glog).stat.Archived +
        (archiveFetched E dir userid fs mblogs glog).stat.Skipped +
        (archiveFetched E dir userid fs mblogs glog).stat.Failed ∧
    (archiveFetched E dir userid fs mblogs glog).stat.Fetched = mblogs.length ∧
    (archiveFetched E dir userid fs mblogs glog).stat.Userid = userid := by
  obtain ⟨a, b, c⟩ := groups_total E dir (E.rangeOrder (groupByMonth E mblogs).groups)
    { fs := fs,
      stat := { Userid := userid, Fetched := mblogs.length, Skipped := 0,
                Failed := (groupByMonth E mblogs).failed, Archived := 0 },
      log := glog ++ (groupByMonth E mblogs).log }
  have ht := (groupByMonth_grouped E mblogs).total
  rw [← ((hr _).map (fun g => g.2.length)).sum_eq] at ht
  unfold archiveFetched
  simp only at a b c ⊢
  exact ⟨by omega, b, c⟩

/-! ### C18 -/

/-- C18: whatever fails while an account is processed, the `Stat` it records
has `Fetched = Archived + Skipped + Failed`. -/
theorem stat_accounts_for_fetched (E : Env) (hr : ∀ m, (E.rangeOrder m).Perm m) (dest : Str)
    (fs : FS) (userid : Str) (s : Stat) (h : (archiveUser E dest fs userid).stat = some s) :
    s.Fetched = s.Archived + s.Skipped + s.Failed := by
  cases hpc : pageCount (osStat E fs (filepathJoin dest userid)) with
  | none => rw [archiveUser_skip E dest fs userid hpc] at h; exact absurd h (by simp)
  | some n =>
    cases hg : (get E userid n).1 with
    | none => rw [archiveUser_get_none E dest fs userid n hpc hg] at h; exact absurd h (by simp)
    | some mblogs =>
      cases hm : osMkdirAll E fs (filepathJoin dest userid) with
      | none =>
        rw [archiveUser_mkdir_none E dest fs userid n mblogs hpc hg hm] at h
        exact absurd h (by simp)
      | some fs1 =>
        rw [archiveUser_ok E dest fs fs1 userid n mblogs hpc hg hm] at h
        simp only [Option.some.injEq] at h
        rw [← h]
        exact (archiveFetched_total E hr _ userid fs1 mblogs _).1

/-- Witness for C18: one record without date, one of a month whose file cannot
be loaded, one archived. -/
theorem stat_accounts_for_fetched_witness :
    (archiveUser (sampleEnv mixedFetch) "t".toList blockedFS "u1".toList).stat =
      some ⟨"u1".toList, 3, 0, 2, 1⟩ ∧
    (3 : Nat) = 1 + 0 + 2 :=
  ⟨by decide,
    stat_accounts_for_fetched (sampleEnv mixedFetch) (fun m => List.Perm.refl m) "t".toList
      blockedFS "u1".toList ⟨"u1".toList, 3, 0, 2, 1⟩ (by decide)⟩

theorem groupFold_groups (E : Env) (ms : List Mblog) (G G' : Grouping)
    (h : G.groups = G'.groups) :
    (ms.foldl (groupStep E) G).groups = (ms.foldl (groupStep E) G').groups ∧
    (ms.foldl (groupStep E) G).failed + G'.failed = (ms.foldl (groupStep E) G').failed + G.failed := by
  induction ms generalizing G G' with
  | nil => exact ⟨h, by simp only [List.foldl_nil]; omega⟩
  | cons m rest ih =>
    simp only [List.foldl_cons]
    cases hp : E.parseTime m.CreatedAt with
    | none =>
      have e1 : groupStep E G m =
          { G with failed := G.failed + 1, log := G.log ++ [.parseFailed m.CreatedAt] } := by
        simp [groupStep, hp]
      have e2 : groupStep E G' m =
          { G' with failed := G'.failed + 1, log := G'.log ++ [.parseFailed m.CreatedAt] } := by
        simp [groupStep, hp]
      obtain ⟨a, b⟩ := ih (groupStep E G m) (groupStep E G' m) (by rw [e1, e2]; exact h)
      refine ⟨a, ?_⟩
      rw [e1, e2] at b ⊢
      simp only at b
      omega
    | some d =>
      have e1 : groupStep E G m =
          { G with groups := addToGroup (E.formatMonth d) m G.groups } := by
        simp [groupStep, hp]
      have e2 : groupStep E G' m =
          { G' with groups := addToGroup (E.formatMonth d) m G'.groups } := by
        simp [groupStep, hp]
      obtain ⟨a, b⟩ := ih (groupStep E G m) (groupStep E G' m) (by rw [e1, e2, h])
      refine ⟨a, ?_⟩
      rw [e1, e2] at b ⊢
      simpa using b

/-- A record whose timestamp does not parse changes the grouping by one more
failure and nothing else. -/
theorem groupByMonth_skip (E : Env) (pre post : List Mblog) (m : Mblog)
    (hm : E.parseTime m.CreatedAt = none) :
    (groupByMonth E (pre ++ m :: post)).groups = (groupByMonth E (pre ++ post)).groups ∧
    (groupByMonth E (pre ++ m :: post)).failed = (groupByMonth E (pre ++ post)).failed + 1 := by
  unfold groupByMonth
  simp only [List.foldl_append, List.foldl_cons]
  generalize pre.foldl (groupStep E) { groups := [], failed := 0, log := [] } = P
  have e : groupStep E P m =
      { groups := P.groups, failed := P.failed + 1,
        log := P.log ++ [.parseFailed m.CreatedAt] } := by
    simp [groupStep, hm]
  rw [e]
  obtain ⟨a, b⟩ := groupFold_groups E post
    { groups := P.groups, failed := P.failed + 1, log := P.log ++ [.parseFailed m.CreatedAt] }
    P rfl
  refine ⟨a, ?_⟩
  dsimp only at b
  omega

theorem processGroup_oneMore (E : Env) (dir : Str) (p p' : Progress) (g : Str × List Mblog)
    (h : OneMore p p') : OneMore (processGroup E dir p g) (processGroup E dir p' g) := by
  obtain ⟨h1, h2, h3, h4, h5, h6⟩ := h
  cases hl : load E p.fs (monthFile dir g.1) with
  | none =>
    rw [processGroup_load_none E dir p g hl, processGroup_load_none E dir p' g (h1 ▸ hl)]
    exact ⟨h1, h2, h3, by simp only; omega, h5, h6⟩
  | some loaded =>
    by_cases ha : 0 < (merge loaded g.2).archived
    · cases hsv : save E p.fs (monthFile dir g.1) (merge loaded g.2).mblogs with
      | none =>
        rw [processGroup_save_none E dir p g loaded hl ha hsv,
          processGroup_save_none E dir p' g loaded (h1 ▸ hl) ha (h1 ▸ hsv)]
        exact ⟨h1, h2, h3, by simp only; omega, h5, h6⟩
      | some fs' =>
        rw [processGroup_save_some E dir p g loaded fs' hl ha hsv,
          processGroup_save_some E dir p' g loaded fs' (h1 ▸ hl) ha (h1 ▸ hsv)]
        exact ⟨rfl, h2, h3, h4, by simp only; omega, by simp only; omega⟩
    · rw [processGroup_no_write E dir p g loaded hl ha,
        processGroup_no_write E dir p' g loaded (h1 ▸ hl) ha]
      exact ⟨h1, h2, h3, h4, by simp only; omega, by simp only; omega⟩

theorem groups_oneMore (E : Env) (dir : Str) (gs : List (Str × List Mblog)) (p p' : Progress)
    (h : OneMore p p') :
    OneMore (gs.foldl (processGroup E dir) p) (gs.foldl (processGroup E dir) p') := by
  induction gs generalizing p p' with
  | nil => exact h
  | cons g rest ih => exact ih _ _ (processGroup_oneMore E dir p p' g h)

/-! ### C13 -/

/-- C13: a fetched record whose `created_at` does not parse is in no month
group and adds exactly 1 to `Failed` (and to `Fetched`); the month groups, the
file system after the account is processed, `Archived` and `Skipped` are what
they are for the batch without that record. -/
theorem unparsed_record_counts_once (E : Env) (dir userid : Str) (fs : FS)
    (pre post : List Mblog) (m : Mblog) (glog : List Event)
    (hm : E.parseTime m.CreatedAt = none) :
    (∀ g ∈ (groupByMonth E (pre ++ m :: post)).groups, m ∉ g.2) ∧
    (groupByMonth E (pre ++ m :: post)).groups = (groupByMonth E (pre ++ post)).groups ∧
    (archiveFetched E dir userid fs (pre ++ m :: post) glog).fs =
      (archiveFetched E dir userid fs (pre ++ post) glog).fs ∧
    (archiveFetched E dir userid fs (pre ++ m :: post) glog).stat.Failed =
      (archiveFetched E dir userid fs (pre ++ post) glog).stat.Failed + 1 ∧
    (archiveFetched E dir userid fs (pre ++ m :: post) glog).stat.Archived =
      (archiveFetched E dir userid fs (pre ++ post) glog).stat.Archived ∧
    (archiveFetched E dir userid fs (pre ++ m :: post) glog).stat.Skipped =
      (archiveFetched E dir userid fs (pre ++ post) glog).stat.Skipped := by
  obtain ⟨hg, hf⟩ := groupByMonth_skip E pre post m hm
  have hnot : ∀ g ∈ (groupByMonth E (pre ++ m :: post)).groups, m ∉ g.2 := by
    intro g hgm hmem
    obtain ⟨e, _⟩ := (groupByMonth_grouped E (pre ++ m :: post)).group g.1 g.2 hgm
    rw [e] at hmem
    have := (List.mem_filter.1 hmem).2
    simp [monthOf, hm] at this
  have hone := groups_oneMore E dir (E.rangeOrder (groupByMonth E (pre ++ post)).groups)
    { fs := fs,
      stat := { Userid := userid, Fetched := (pre ++ m :: post).length, Skipped := 0,
                Failed := (groupByMonth E (pre ++ m :: post)).failed, Archived := 0 },
      log := glog ++ (groupByMonth E (pre ++ m :: post)).log }
    { fs := fs,
      stat := { Userid := userid, Fetched := (pre ++ post).length, Skipped := 0,
                Failed := (groupByMonth E (pre ++ post)).failed, Archived := 0 },
      log := glog ++ (groupByMonth E (pre ++ post)).log }
    ⟨rfl, rfl, by simp only [List.length_append, List.length_cons]; omega, hf, rfl, rfl⟩
  refine ⟨hnot, hg, ?_, ?_, ?_, ?_⟩
  · unfold archiveFetched; simp only; rw [hg]; exact hone.fs
  · unfold archiveFetched; simp only; rw [hg]; exact hone.failed
  · unfold archiveFetched; simp only; rw [hg]; exact hone.archived
  · unfold archiveFetched; simp only; rw [hg]; exact hone.skipped

/-- Witness for C13: a record without date between a record of January and a
record of February. -/
theorem unparsed_record_counts_once_witness :
    (sampleEnv sampleFetch).parseTime mNoDate.CreatedAt = none ∧
    (archiveFetched (sampleEnv sampleFetch) "t/u1".toList "u1".toList sampleFS
      ([mHello] ++ mNoDate :: [mLines]) []).stat = ⟨"u1".toList, 3, 1, 1, 1⟩ ∧
    (archiveFetched (sampleEnv sampleFetch) "t/u1".toList "u1".toList sampleFS
      ([mHello] ++ [mLines]) []).stat = ⟨"u1".toList, 2, 1, 0, 1⟩ ∧
    (groupByMonth (sampleEnv sampleFetch) ([mHello] ++ mNoDate :: [mLines])).groups =
      [("2023-01".toList, [mHello]), ("2023-02".toList, [mLines])] ∧
    (archiveFetched (sampleEnv sampleFetch) "t/u1".toList "u1".toList sampleFS
        ([mHello] ++ mNoDate :: [mLines]) []).fs =
      (archiveFetched (sampleEnv sampleFetch) "t/u1".toList "u1".toList sampleFS
        ([mHello] ++ [mLines]) []).fs :=
  ⟨by decide, by decide, by decide, by decide,
    (unparsed_record_counts_once (sampleEnv sampleFetch) "t/u1".toList "u1".toList sampleFS
      [mHello] [mLines] mNoDate [] (by decide)).2.2.1⟩

theorem fetchCalls_append (a b : List Event) :
    fetchCalls (a ++ b) = fetchCalls a ++ fetchCalls b := by
  simp [fetchCalls, List.filterMap_append]

theorem processGroup_calls (E : Env) (dir : Str) (p : Progress) (g : Str × List Mblog) :
    fetchCalls (processGroup E dir p g).log = fetchCalls p.log := by
  cases hl : load E p.fs (monthFile dir g.1) with
  | none =>
    rw [processGroup_load_none E dir p g hl]
    simp [fetchCalls_append, fetchCalls, Event.call]
  | some loaded =>
    by_cases ha : 0 < (merge loaded g.2).archived
    · cases hsv : save E p.fs (monthFile dir g.1) (merge loaded g.2).mblogs with
      | none =>
        rw [processGroup_save_none E dir p g loaded hl ha hsv]
        simp [fetchCalls_append, fetchCalls, Event.call]
      | some fs' => rw [processGroup_save_some E dir p g loaded fs' hl ha hsv]
    · rw [processGroup_no_write E dir p g loaded hl ha]

theorem groups_calls (E : Env) (dir : Str) (gs : List (Str × List Mblog)) (p : Progress) :
    fetchCalls (gs.foldl (processGroup E dir) p).log = fetchCalls p.log := by
  induction gs generalizing p with
  | nil => rfl
  | cons g rest ih => rw [List.foldl_cons, ih, processGroup_calls]

theorem groupFold_calls (E : Env) (ms : List Mblog) (G : Grouping) :
    fetchCalls (ms.foldl (groupStep E) G).log = fetchCalls G.log := by
  induction ms generalizing G with
  | nil => rfl
  | cons m rest ih =>
    rw [List.foldl_cons, ih]
    unfold groupStep
    split
    · simp [fetchCalls_append, fetchCalls, Event.call]
    · rfl

theorem archiveFetched_calls (E : Env) (dir userid : Str) (fs : FS) (mblogs : List Mblog)
    (glog : List Event) :
    fetchCalls (archiveFetched E dir userid fs mblogs glog).log = fetchCalls glog := by
  unfold archiveFetched
  simp only
  rw [groups_calls]
  simp only [fetchCalls_append]
  unfold groupByMonth
  rw [groupFold_calls]
  simp [fetchCalls]

theorem archiveUser_calls (E : Env) (dest : Str) (fs : FS) (userid : Str) (n : Nat)
    (h : pageCount (osStat E fs (filepathJoin dest userid)) = some n) :
    fetchCalls (archiveUser E dest fs userid).log = fetchCalls (get E userid n).2 := by
  cases hg : (get E userid n).1 with
  | none =>
    rw [archiveUser_get_none E dest fs userid n h hg]
    simp [fetchCalls_append, fetchCalls, Event.call]
  | some mblogs =>
    cases hm : osMkdirAll E fs (filepathJoin dest userid) with
    | none =>
      rw [archiveUser_mkdir_none E dest fs userid n mblogs h hg hm]
      simp [fetchCalls_append, fetchCalls, Event.call]
    | some fs1 =>
      rw [archiveUser_ok E dest fs fs1 userid n mblogs h hg hm]
      exact archiveFetched_calls E _ userid fs1 mblogs _

theorem get_calls_one (E : Env) (userid : Str) :
    fetchCalls (get E userid 1).2 = [(userid, 1)] := by
  simp only [get, List.range', getLoop]
  cases E.fetch userid 1 <;> simp [getLoop, fetchCalls, Event.call]

theorem get_calls_two (E : Env) (userid : Str) :
    fetchCalls (get E userid 2).2 =
      if (E.fetch userid 1).isSome then [(userid, 1), (userid, 2)] else [(userid, 1)] := by
  simp only [get, List.range', getLoop]
  cases E.fetch userid 1 with
  | none => simp [fetchCalls, Event.call]
  | some l =>
    simp only [getLoop]
    cases E.fetch userid 2 <;> simp [getLoop, fetchCalls, Event.call]

/-! ### C11 -/

/-- C11, counterexample: the directory of `u1` does not exist and the fetcher
fails on page 1.  The driver issues one call, for page 1, not two. -/
theorem planner_calls_counterexample :
    osStat (sampleEnv deadFetch) rootFS (filepathJoin "t".toList "u1".toList) = .notExist ∧
    fetchCalls (archiveUser (sampleEnv deadFetch) "t".toList rootFS "u1".toList).log =
      [("u1".toList, 1)] ∧
    (main (sampleEnv deadFetch) sampleConfig emptyFS).map (fun w => fetchCalls w.log) =
      some [("u1".toList, 1)] := by
  decide

/-- C11 (as amended): for an account whose directory does not exist the driver
calls the fetcher for page 1 and, when page 1 succeeded, for page 2: 2 calls,
or 1 call when page 1 fails; for an account whose directory exists it issues
exactly 1 call, for page 1; and no call at all when the stat fails otherwise or
the path is not a directory. -/
theorem planner_calls (E : Env) (dest : Str) (fs : FS) (userid : Str) :
    fetchCalls (archiveUser E dest fs userid).log =
      match osStat E fs (filepathJoin dest userid) with
      | .notExist =>
        if (E.fetch userid 1).isSome then [(userid, 1), (userid, 2)] else [(userid, 1)]
      | .found true => [(userid, 1)]
      | _ => [] := by
  cases hst : osStat E fs (filepathJoin dest userid) with
  | notExist =>
    rw [archiveUser_calls E dest fs userid 2 (by rw [hst]; rfl), get_calls_two]
  | failed =>
    rw [archiveUser_skip E dest fs userid (by rw [hst]; rfl)]
    simp [fetchCalls, Event.call, hst]
  | found b =>
    cases b with
    | true => rw [archiveUser_calls E dest fs userid 1 (by rw [hst]; rfl), get_calls_one]
    | false =>
      rw [archiveUser_skip E dest fs userid (by rw [hst]; rfl)]
      simp [fetchCalls, Event.call, hst]

/-! ### C17 -/

/-- The rows of the sample clock are what the layout gives: the time each
timestamp denotes, with the offset written in it, and the month of that time
at that offset. -/
theorem sampleClock_rubyDate :
    ∀ e ∈ sampleClock, rubyDate e.1 = some e.2.1 ∧ writtenOffset e.1 = some e.2.1.offset ∧
      sampleMonth e.2.1 = e.2.2 ∧ localMonth e.2.1.offset e.2.1 = e.2.2 := by
  decide

/-- The time the layout gives carries the offset written in the timestamp. -/
theorem rubyDate_offset (s : Str) (t : Time) (h : rubyDate s = some t) :
    writtenOffset s = some t.offset := by
  unfold rubyDate at h
  split at h
  · rename_i weekday mon day clock zone year heq
    split at h
    · rename_i m d c off yh yl hm hd hc hoff hyh hyl
      split at h
      · rename_i hcond
        simp only [Option.some.injEq] at h
        subst h
        have n1 : weekday ≠ [] := by
          intro e
          rw [e] at hcond
          exact absurd hcond.1 (by decide)
        have n2 : mon ≠ [] := by
          intro e
          rw [e] at hm
          have hn : monthNumber [] = none := by decide
          rw [hn] at hm
          exact absurd hm (by simp)
        have n3 : day ≠ [] := by
          intro e
          rw [e] at hd
          have hn : twoDigits [] = none := by decide
          rw [hn] at hd
          exact absurd hd (by simp)
        have n4 : clock ≠ [] := by
          intro e
          rw [e] at hc
          have hn : clockSeconds [] = none := by decide
          rw [hn] at hc
          exact absurd hc (by simp)
        have n5 : zone ≠ [] := by
          intro e
          rw [e] at hoff
          have hn : zoneOffset [] = none := by decide
          rw [hn] at hoff
          exact absurd hoff (by simp)
        have n6 : year ≠ [] := by
          intro e
          rw [e] at hyh
          have hn : twoDigits (List.take 2 []) = none := by decide
          rw [hn] at hyh
          exact absurd hyh (by simp)
        unfold writtenOffset
        rw [heq]
        simp only [List.filter, n1, n2, n3, n4, n5, n6, ne_eq, not_false_eq_true, decide_True]
        exact hoff
      · exact absurd h (by simp)
    · exact absurd h (by simp)
  · exact absurd h (by simp)

/-- The sample clock keeps the offset written in the timestamp. -/
theorem sampleEnv_ownZone (fetch : Str → Nat → Option (List Mblog)) :
    (sampleEnv fetch).OwnZone := by
  have hrow : ∀ s t, sampleParse s = some t → ∃ e ∈ sampleClock, e.1 = s ∧ e.2.1 = t := by
    intro s t h
    simp only [sampleParse, Option.map_eq_some'] at h
    obtain ⟨e, he, ht⟩ := h
    have h2 := List.find?_some he
    simp only [decide_eq_true_eq] at h2
    exact ⟨e, List.mem_of_find?_eq_some he, h2, ht⟩
  constructor
  · intro s t h
    obtain ⟨e, he, rfl, rfl⟩ := hrow s t h
    exact (sampleClock_rubyDate e he).2.1
  · intro s t h
    obtain ⟨e, he, rfl, rfl⟩ := hrow s t h
    obtain ⟨_, _, a, b⟩ := sampleClock_rubyDate e he
    show sampleMonth e.2.1 = _
    rw [a, b]

/-- Under the contract of the clock, the key a record is grouped under is the
month at the offset written in its timestamp. -/
theorem monthOf_eq_writtenMonth (E : Env) (hz : E.OwnZone) (m : Mblog) :
    monthOf E m = writtenMonth E m := by
  unfold monthOf writtenMonth
  cases h : E.parseTime m.CreatedAt with
  | none => rfl
  | some t =>
    simp only [Option.map_some', hz.offset _ t h, hz.month _ t h]

/-- The record `load` reads off the line of a record whose `created_at` holds
no pipe has the `created_at` of that record. -/
theorem parseLine_renderLine_createdAt (m x : Mblog) (hc : '|' ∉ m.CreatedAt)
    (h : parseLine (renderLine m) = some x) : x.CreatedAt = m.CreatedAt := by
  rw [parseLine_eq] at h
  split at h
  · simp only [Option.some.injEq] at h
    rw [← h]
    simp only [lineRecord, renderLine, stringsJoin]
    rw [stringsSplitN_append_sep '|' 2 _ _ hc]
    rfl
  · exact absurd h (by simp)

theorem writtenMonth_congr (E : Env) (x m : Mblog) (h : x.CreatedAt = m.CreatedAt) :
    writtenMonth E x = writtenMonth E m := by
  unfold writtenMonth
  rw [h]

/-- The records `load` reads off the lines `save` writes for records without
pipe and line-feed in `created_at` and without line-feed in `mblog_id` carry
the `created_at` of these records. -/
theorem parseFile_savedLines_createdAt (ms : List Mblog)
    (h : ∀ m ∈ ms, '|' ∉ m.CreatedAt ∧ '\n' ∉ m.CreatedAt ∧ '\n' ∉ m.MblogID) (x : Mblog)
    (hx : x ∈ parseFile (stringsJoin '\n' (ms.map renderLine))) :
    ∃ m ∈ ms, x.CreatedAt = m.CreatedAt := by
  cases hms : ms with
  | nil =>
    rw [hms] at hx
    exact absurd hx (by simp [parseFile, stringsJoin, stringsSplit, parseLine])
  | cons a rest =>
    rw [← hms]
    unfold parseFile at hx
    rw [stringsSplit_join_clean '\n' _ (by rw [hms]; simp)] at hx
    · rw [List.mem_filterMap] at hx
      obtain ⟨line, hline, hp⟩ := hx
      obtain ⟨m, hm, rfl⟩ := List.mem_map.1 hline
      exact ⟨m, hm, parseLine_renderLine_createdAt m x (h m hm).1 hp⟩
    · intro l hl
      obtain ⟨m, hm, rfl⟩ := List.mem_map.1 hl
      exact renderLine_not_mem_lf m (h m hm).2.1 (h m hm).2.2

/-- C17, counterexample.  First, on a host whose zone is UTC, the record
stamped `Wed Feb 01 01:00:00 +0800 2023` is written to the month file
`2023-02.txt`, while its instant, 31 January 2023 17:00 UTC, falls in January
2023 in local time: the parsed time keeps the offset written in the timestamp,
and `Format("2006-01")` renders the month at that offset.  Second, a record of
January whose `mblog_id` holds a line-feed: the month file of January gets two
lines, and the one `load` accepts is stamped 1 February. -/
theorem month_not_local_counterexample :
    ((sampleEnv (fetchOnly mLines)).parseTime mLines.CreatedAt =
        some ⟨1675184400000000000, 28800⟩ ∧
      rubyDate mLines.CreatedAt = some ⟨1675184400000000000, 28800⟩ ∧
      writtenOffset mLines.CreatedAt = some 28800 ∧
      localMonth 0 ⟨1675184400000000000, 28800⟩ = "2023-01".toList ∧
      localMonth 28800 ⟨1675184400000000000, 28800⟩ = "2023-02".toList ∧
      (main (sampleEnv (fetchOnly mLines)) sampleConfig emptyFS).map
          (fun w => (w.stats, w.fs "t/u1/2023-01.txt".toList, w.fs "t/u1/2023-02.txt".toList)) =
        some ([⟨"u1".toList, 1, 0, 0, 1⟩], none,
          some (.file "Wed Feb 01 01:00:00 +0800 2023|11|B|line1\\nline2".toList))) ∧
    ((main (sampleEnv (fetchOnly mSplit)) sampleConfig emptyFS).map
          (fun w => (w.stats, w.fs "t/u1/2023-01.txt".toList, w.fs "t/u1/2023-02.txt".toList)) =
        some ([⟨"u1".toList, 1, 0, 0, 1⟩],
          some (.file ("Mon Jan 02 15:04:05 +0800 2023|40|A\n" ++
            "Wed Feb 01 01:00:00 +0800 2023|41|Z|t").toList), none) ∧
      (parseFile ("Mon Jan 02 15:04:05 +0800 2023|40|A\n" ++
          "Wed Feb 01 01:00:00 +0800 2023|41|Z|t").toList).map
          (fun x => (x.CreatedAt, writtenMonth (sampleEnv (fetchOnly mSplit)) x)) =
        [("Wed Feb 01 01:00:00 +0800 2023".toList, some "2023-02".toList)]) :=
  ⟨by decide, by decide⟩

/-- C17 (as amended): the clock keeping the offset written in a timestamp,
every record of the group the driver merges into the month file of month `d`
has a `created_at` that parses, and `d` is the year and month of the parsed
instant on the clock of the offset written in it.  And when no `mblog_id` of
the group holds a line-feed: if every record `load` reads off the lines of the
month file falls in month `d` in this sense before the group is processed, so
does every record it reads off the lines of the file afterwards. -/
theorem month_file_partition (E : Env) (hE : E.Sound) (hz : E.OwnZone) (batch g : List Mblog)
    (d dir : Str) (p : Progress)
    (hg : (d, g) ∈ (groupByMonth E batch).groups) :
    (∀ m ∈ g, ∃ t off, E.parseTime m.CreatedAt = some t ∧ writtenOffset m.CreatedAt = some off ∧
      d = localMonth off t) ∧
    (∀ m ∈ g, writtenMonth E m = some d) ∧
    ((∀ m ∈ g, '\n' ∉ m.MblogID) →
      (∀ c, p.fs (monthFile dir d) = some (.file c) →
        ∀ x ∈ parseFile c, writtenMonth E x = some d) →
      ∀ c, (processGroup E dir p (d, g)).fs (monthFile dir d) = some (.file c) →
        ∀ x ∈ parseFile c, writtenMonth E x = some d) := by
  have hmonth : ∀ m ∈ g, writtenMonth E m = some d := by
    intro m hm
    obtain ⟨e, _⟩ := (groupByMonth_grouped E batch).group d g hg
    rw [e] at hm
    rw [← monthOf_eq_writtenMonth E hz]
    simpa using (List.mem_filter.1 hm).2
  have hparse : ∀ m ∈ g, ∃ t, E.parseTime m.CreatedAt = some t := by
    intro m hm
    have := hmonth m hm
    unfold writtenMonth at this
    cases hp : E.parseTime m.CreatedAt with
    | none => rw [hp] at this; exact absurd this (by simp)
    | some t => exact ⟨t, rfl⟩
  refine ⟨?_, hmonth, ?_⟩
  · intro m hm
    obtain ⟨t, ht⟩ := hparse m hm
    have := hmonth m hm
    unfold writtenMonth at this
    rw [ht, hz.offset _ t ht] at this
    simp only [Option.some.injEq] at this
    exact ⟨t, t.offset, ht, hz.offset _ t ht, this.symm⟩
  · intro hid hinv c hc x hx
    cases hl : load E p.fs (monthFile dir d) with
    | none =>
      rw [processGroup_load_none E dir p (d, g) hl] at hc
      exact hinv c hc x hx
    | some loaded =>
      by_cases ha : 0 < (merge loaded g).archived
      · cases hsv : save E p.fs (monthFile dir d) (merge loaded g).mblogs with
        | none =>
          rw [processGroup_save_none E dir p (d, g) loaded hl ha hsv] at hc
          exact hinv c hc x hx
        | some fs' =>
          rw [processGroup_save_some E dir p (d, g) loaded fs' hl ha hsv] at hc
          obtain ⟨e, _⟩ := osWriteFile_some E p.fs fs' _ _ hsv
          simp only at hc
          rw [e] at hc
          simp only [if_true, Option.some.injEq, Node.file.injEq] at hc
          subst hc
          obtain ⟨fresh, ef, hsub, _⟩ :=
            mergeFrom_extends { mblogs := loaded, skipped := 0, archived := 0 } g
          have hall : ∀ m ∈ writeOrder E (merge loaded g).mblogs,
              ('|' ∉ m.CreatedAt ∧ '\n' ∉ m.CreatedAt ∧ '\n' ∉ m.MblogID) ∧
                writtenMonth E m = some d := by
            intro m hm
            have hm' := (hE.sort.perm _ _).subset hm
            unfold merge at hm'
            rw [ef] at hm'
            rcases List.mem_append.1 hm' with h | h
            · rcases load_some E p.fs _ loaded hl with ⟨_, e0⟩ | ⟨c0, hc0, e0⟩
              · rw [e0] at h
                exact absurd h (by simp)
              · simp only at h
                rw [e0] at h
                obtain ⟨a, b, _, _⟩ := parseFile_plain c0 m h
                exact ⟨⟨a.1, a.2, b.2⟩, hinv c0 hc0 m h⟩
            · have hmg := hsub.subset h
              obtain ⟨t, ht⟩ := hparse m hmg
              have hp := hE.parse _ t ht
              exact ⟨⟨hp.1, hp.2, hid m hmg⟩, hmonth m hmg⟩
          obtain ⟨m, hm, em⟩ := parseFile_savedLines_createdAt _
            (fun m hm => (hall m hm).1) x hx
          rw [writtenMonth_congr E x m em]
          exact (hall m hm).2
      · rw [processGroup_no_write E dir p (d, g) loaded hl ha] at hc
        exact hinv c hc x hx

/-- Witness for C17: the group of January 2023 of a batch of three records,
merged into a month file that holds a record of January. -/
theorem month_file_partition_witness :
    ("2023-01".toList, [mAgain, mPipes]) ∈
      (groupByMonth (sampleEnv sampleFetch) [mLines, mAgain, mPipes]).groups ∧
    (∀ m ∈ [mAgain, mPipes], '\n' ∉ m.MblogID) ∧
    (processGroup (sampleEnv sampleFetch) "t/u1".toList sampleProgress
        ("2023-01".toList, [mAgain, mPipes])).fs "t/u1/2023-01.txt".toList =
      some (.file ("Mon Jan 02 15:04:05 +0800 2023|10|A|hello\n" ++
        "Tue Jan 03 10:00:00 +0800 2023|12|C|a|b").toList) ∧
    (∀ m ∈ [mAgain, mPipes], ∃ t off,
      (sampleEnv sampleFetch).parseTime m.CreatedAt = some t ∧
        writtenOffset m.CreatedAt = some off ∧ "2023-01".toList = localMonth off t) ∧
    ∀ c, (processGroup (sampleEnv sampleFetch) "t/u1".toList sampleProgress
        ("2023-01".toList, [mAgain, mPipes])).fs
          (monthFile "t/u1".toList "2023-01".toList) = some (.file c) →
      ∀ x ∈ parseFile c, writtenMonth (sampleEnv sampleFetch) x = some "2023-01".toList :=
  have hinv : ∀ c, sampleProgress.fs (monthFile "t/u1".toList "2023-01".toList) =
      some (.file c) →
      ∀ x ∈ parseFile c, writtenMonth (sampleEnv sampleFetch) x = some "2023-01".toList := by
    intro c hc
    have e : sampleProgress.fs (monthFile "t/u1".toList "2023-01".toList) =
        some (.file "Mon Jan 02 15:04:05 +0800 2023|10|A|hello".toList) := by decide
    rw [e] at hc
    simp only [Option.some.injEq, Node.file.injEq] at hc
    subst hc
    decide
  have h := month_file_partition (sampleEnv sampleFetch) (sampleEnv_sound _)
    (sampleEnv_ownZone _) [mLines, mAgain, mPipes] [mAgain, mPipes] "2023-01".toList
    "t/u1".toList sampleProgress (by decide)
  ⟨by decide, by decide, by decide, h.1, h.2.2 (by decide) hinv⟩

/-! ## Lemmas: what a file-system call reads and writes -/

theorem any_congr_mem (l : List Str) (P Q : Str → Bool) (h : ∀ q ∈ l, P q = Q q) :
    l.any P = l.any Q := by
  induction l with
  | nil => rfl
  | cons a rest ih =>
    simp only [List.any_cons]
    rw [h a (List.mem_cons_self _ _), ih (fun q hq => h q (List.mem_cons_of_mem _ hq))]

theorem underFile_local (f g : FS) (p : Str) (h : ∀ q ∈ parentDirs p, f q = g q) :
    underFile f p = underFile g p := by
  unfold underFile
  apply any_congr_mem
  intro q hq
  rw [h q hq]

theorem osStat_local (E : Env) (f g : FS) (p : Str) (h : ∀ q ∈ p :: parentDirs p, f q = g q) :
    osStat E f p = osStat E g p := by
  unfold osStat
  rw [underFile_local f g p (fun q hq => h q (List.mem_cons_of_mem _ hq)),
    h p (List.mem_cons_self _ _)]

theorem osReadFile_local (E : Env) (f g : FS) (p : Str)
    (h : ∀ q ∈ p :: parentDirs p, f q = g q) : osReadFile E f p = osReadFile E g p := by
  unfold osReadFile
  rw [underFile_local f g p (fun q hq => h q (List.mem_cons_of_mem _ hq)),
    h p (List.mem_cons_self _ _)]

theorem load_local (E : Env) (f g : FS) (p : Str)
    (h : ∀ q ∈ p :: parentDirs p, f q = g q) : load E f p = load E g p := by
  unfold load
  rw [osReadFile_local E f g p h]

/-- Two file systems that agree on a path and on the directories above it take
a write to that path the same way, and agree after it wherever they agreed
before. -/
theorem osWriteFile_local (E : Env) (f g : FS) (p c : Str)
    (h : ∀ q ∈ p :: parentDirs p, f q = g q) :
    (osWriteFile E f p c = none ∧ osWriteFile E g p c = none) ∨
    ∃ f' g', osWriteFile E f p c = some f' ∧ osWriteFile E g p c = some g' ∧
      ∀ q, f q = g q → f' q = g' q := by
  have hp := h p (List.mem_cons_self _ _)
  have hpar : (∀ q ∈ parentDirs p, f q = some .dir) ↔ (∀ q ∈ parentDirs p, g q = some .dir) := by
    constructor
    · intro a q hq
      rw [← h q (List.mem_cons_of_mem _ hq)]
      exact a q hq
    · intro a q hq
      rw [h q (List.mem_cons_of_mem _ hq)]
      exact a q hq
  have hcond : (E.writeFault p ∨ f p = some .dir ∨ ¬ (∀ q ∈ parentDirs p, f q = some .dir)) ↔
      (E.writeFault p ∨ g p = some .dir ∨ ¬ (∀ q ∈ parentDirs p, g q = some .dir)) := by
    rw [hp, hpar]
  unfold osWriteFile
  by_cases hc : E.writeFault p ∨ g p = some .dir ∨ ¬ (∀ q ∈ parentDirs p, g q = some .dir)
  · left
    rw [if_pos hc, if_pos (hcond.2 hc)]
    exact ⟨rfl, rfl⟩
  · right
    rw [if_neg hc, if_neg (fun a => hc (hcond.1 a))]
    refine ⟨_, _, rfl, rfl, ?_⟩
    intro q hq
    by_cases e : q = p
    · simp [e]
    · simp [e, hq]

/-- Two file systems that agree on a path and on the directories above it take
`MkdirAll` of that path the same way, and agree after it wherever they agreed
before. -/
theorem osMkdirAll_local (E : Env) (f g : FS) (p : Str)
    (h : ∀ q ∈ p :: parentDirs p, f q = g q) :
    (osMkdirAll E f p = none ∧ osMkdirAll E g p = none) ∨
    ∃ f' g', osMkdirAll E f p = some f' ∧ osMkdirAll E g p = some g' ∧
      ∀ q, f q = g q → f' q = g' q := by
  have hp := h p (List.mem_cons_self _ _)
  have hu := underFile_local f g p (fun q hq => h q (List.mem_cons_of_mem _ hq))
  have hst := osStat_local E f g p h
  unfold osMkdirAll
  rw [hst, hu, hp]
  cases hs : osStat E g p with
  | found d =>
    cases d with
    | true => exact Or.inr ⟨_, _, rfl, rfl, fun _ hq => hq⟩
    | false => exact Or.inl ⟨rfl, rfl⟩
  | notExist =>
    simp only
    by_cases hc : E.mkdirFault p ∨ underFile g p ∨ g p ≠ none
    · rw [if_pos hc, if_pos hc]
      exact Or.inl ⟨rfl, rfl⟩
    · rw [if_neg hc, if_neg hc]
      refine Or.inr ⟨_, _, rfl, rfl, ?_⟩
      intro q hq
      by_cases e : q = p
      · simp [e]
      · by_cases e2 : q ∈ parentDirs p
        · have := h q (List.mem_cons_of_mem _ e2)
          simp [e, e2, this]
        · simp [e, e2, hq]
  | failed =>
    simp only
    by_cases hc : E.mkdirFault p ∨ underFile g p ∨ g p ≠ none
    · rw [if_pos hc, if_pos hc]
      exact Or.inl ⟨rfl, rfl⟩
    · rw [if_neg hc, if_neg hc]
      refine Or.inr ⟨_, _, rfl, rfl, ?_⟩
      intro q hq
      by_cases e : q = p
      · simp [e]
      · by_cases e2 : q ∈ parentDirs p
        · have := h q (List.mem_cons_of_mem _ e2)
          simp [e, e2, this]
        · simp [e, e2, hq]

/-- `MkdirAll` changes nothing but the path itself and the directories above it
that are missing. -/
theorem osMkdirAll_frame (E : Env) (fs fs' : FS) (p : Str) (h : osMkdirAll E fs p = some fs')
    (q : Str) (h1 : q ≠ p) (h2 : ¬ (q ∈ parentDirs p ∧ fs q = none)) : fs' q = fs q := by
  unfold osMkdirAll at h
  split at h
  · simp only [Option.some.injEq] at h
    rw [← h]
  · exact absurd h (by simp)
  · split at h
    · exact absurd h (by simp)
    · simp only [Option.some.injEq] at h
      subst h
      simp only [h1, false_or]
      rw [if_neg h2]

/-- The month group changes nothing but its month file, and leaves a file
there if it changes it. -/
theorem processGroup_frame (E : Env) (dir : Str) (p : Progress) (g : Str × List Mblog) (q : Str) :
    (q ≠ monthFile dir g.1 → (processGroup E dir p g).fs q = p.fs q) ∧
    (p.fs q ≠ none → (processGroup E dir p g).fs q ≠ none) := by
  cases hl : load E p.fs (monthFile dir g.1) with
  | none =>
    rw [processGroup_load_none E dir p g hl]
    exact ⟨fun _ => rfl, fun a => a⟩
  | some loaded =>
    by_cases ha : 0 < (merge loaded g.2).archived
    · cases hsv : save E p.fs (monthFile dir g.1) (merge loaded g.2).mblogs with
      | none =>
        rw [processGroup_save_none E dir p g loaded hl ha hsv]
        exact ⟨fun _ => rfl, fun a => a⟩
      | some fs' =>
        rw [processGroup_save_some E dir p g loaded fs' hl ha hsv]
        obtain ⟨e, _⟩ := osWriteFile_some E p.fs fs' _ _ hsv
        subst e
        constructor
        · intro hq
          simp [hq]
        · intro hq
          by_cases e : q = monthFile dir g.1
          · simp [e]
          · simp [e, hq]
    · rw [processGroup_no_write E dir p g loaded hl ha]
      exact ⟨fun _ => rfl, fun a => a⟩

theorem groups_frame (E : Env) (dir : Str) (gs : List (Str × List Mblog)) (p : Progress)
    (q : Str) :
    ((∀ g ∈ gs, q ≠ monthFile dir g.1) → (gs.foldl (processGroup E dir) p).fs q = p.fs q) ∧
    (p.fs q ≠ none → (gs.foldl (processGroup E dir) p).fs q ≠ none) := by
  induction gs generalizing p with
  | nil => exact ⟨fun _ => rfl, fun a => a⟩
  | cons g rest ih =>
    simp only [List.foldl_cons]
    obtain ⟨a, b⟩ := ih (processGroup E dir p g)
    obtain ⟨c, d⟩ := processGroup_frame E dir p g q
    constructor
    · intro h
      rw [a (fun g' hg' => h g' (List.mem_cons_of_mem _ hg')), c (h g (List.mem_cons_self _ _))]
    · intro h
      exact b (d h)

/-- Two states with the same counters and log whose file systems agree on the
month file of a group and on the directories above it come out of the group
with the same counters and log, their file systems agreeing wherever they
agreed before. -/
theorem processGroup_local (E : Env) (dir : Str) (p1 p2 : Progress) (g : Str × List Mblog)
    (hs : p1.stat = p2.stat) (hl : p1.log = p2.log)
    (hf : ∀ q ∈ monthFile dir g.1 :: parentDirs (monthFile dir g.1), p1.fs q = p2.fs q) :
    (processGroup E dir p1 g).stat = (processGroup E dir p2 g).stat ∧
    (processGroup E dir p1 g).log = (processGroup E dir p2 g).log ∧
    ∀ q, p1.fs q = p2.fs q → (processGroup E dir p1 g).fs q = (processGroup E dir p2 g).fs q := by
  have hload := load_local E p1.fs p2.fs _ hf
  cases hl2 : load E p2.fs (monthFile dir g.1) with
  | none =>
    rw [processGroup_load_none E dir p2 g hl2, processGroup_load_none E dir p1 g (hload.trans hl2)]
    exact ⟨by rw [hs], by rw [hl], fun _ a => a⟩
  | some loaded =>
    have hl1 := hload.trans hl2
    by_cases ha : 0 < (merge loaded g.2).archived
    · rcases osWriteFile_local E p1.fs p2.fs (monthFile dir g.1)
          (stringsJoin '\n' (savedLines E (merge loaded g.2).mblogs)) hf with
        ⟨a, b⟩ | ⟨f', g', a, b, c⟩
      · rw [processGroup_save_none E dir p1 g loaded hl1 ha a,
          processGroup_save_none E dir p2 g loaded hl2 ha b]
        exact ⟨by rw [hs], by rw [hl], fun _ a => a⟩
      · rw [processGroup_save_some E dir p1 g loaded f' hl1 ha a,
          processGroup_save_some E dir p2 g loaded g' hl2 ha b]
        exact ⟨by rw [hs], hl, c⟩
    · rw [processGroup_no_write E dir p1 g loaded hl1 ha,
        processGroup_no_write E dir p2 g loaded hl2 ha]
      exact ⟨by rw [hs], hl, fun _ a => a⟩

theorem groups_local (E : Env) (dir : Str) (gs : List (Str × List Mblog)) (p1 p2 : Progress)
    (hs : p1.stat = p2.stat) (hl : p1.log = p2.log)
    (hf : ∀ g ∈ gs, ∀ q ∈ monthFile dir g.1 :: parentDirs (monthFile dir g.1),
      p1.fs q = p2.fs q) :
    (gs.foldl (processGroup E dir) p1).stat = (gs.foldl (processGroup E dir) p2).stat ∧
    (gs.foldl (processGroup E dir) p1).log = (gs.foldl (processGroup E dir) p2).log ∧
    ∀ q, p1.fs q = p2.fs q →
      (gs.foldl (processGroup E dir) p1).fs q = (gs.foldl (processGroup E dir) p2).fs q := by
  induction gs generalizing p1 p2 with
  | nil => exact ⟨hs, hl, fun _ a => a⟩
  | cons g rest ih =>
    simp only [List.foldl_cons]
    obtain ⟨a, b, c⟩ := processGroup_local E dir p1 p2 g hs hl (hf g (List.mem_cons_self _ _))
    obtain ⟨a', b', c'⟩ := ih (processGroup E dir p1 g) (processGroup E dir p2 g) a b
      (fun g' hg' q hq => c q (hf g' (List.mem_cons_of_mem _ hg') q hq))
    exact ⟨a', b', fun q hq => c' q (c q hq)⟩

/-- The key of a month group is the month of one of its records. -/
theorem group_key_month (E : Env) (ms : List Mblog) (d : Str) (l : List Mblog)
    (h : (d, l) ∈ (groupByMonth E ms).groups) : ∃ t, E.formatMonth t = d := by
  obtain ⟨e, hne⟩ := (groupByMonth_grouped E ms).group d l h
  obtain ⟨m, hm⟩ := List.exists_mem_of_ne_nil l hne
  rw [e] at hm
  have := (List.mem_filter.1 hm).2
  simp only [monthOf, decide_eq_true_eq, Option.map_eq_some'] at this
  obtain ⟨t, _, ht⟩ := this
  exact ⟨t, ht⟩

theorem getLoop_fetch (E : Env) (f2 : Str → Nat → Option (List Mblog)) (u : Str)
    (h : ∀ p, f2 u p = E.fetch u p) (ps : List Nat) (acc : List Mblog) (log : List Event) :
    getLoop { E with fetch := f2 } u ps acc log = getLoop E u ps acc log := by
  induction ps generalizing acc log with
  | nil => rfl
  | cons page rest ih =>
    simp only [getLoop, h page]
    cases E.fetch u page with
    | none => rfl
    | some ms => exact ih _ _

/-- Processing an account depends on the fetcher through the pages of that
account only. -/
theorem archiveUser_fetch (E : Env) (f2 : Str → Nat → Option (List Mblog)) (dest : Str) (fs : FS)
    (u : Str) (h : ∀ p, f2 u p = E.fetch u p) :
    archiveUser { E with fetch := f2 } dest fs u = archiveUser E dest fs u := by
  have hg : ∀ n, get { E with fetch := f2 } u n = get E u n := fun n =>
    getLoop_fetch E f2 u h _ _ _
  unfold archiveUser
  simp only [hg]
  rfl

theorem archiveFetched_frame (E : Env) (hr : ∀ m, (E.rangeOrder m).Perm m) (dir userid : Str)
    (fs : FS) (mblogs : List Mblog) (glog : List Event) (q : Str) :
    ((∀ t, q ≠ monthFile dir (E.formatMonth t)) →
      (archiveFetched E dir userid fs mblogs glog).fs q = fs q) ∧
    (fs q ≠ none → (archiveFetched E dir userid fs mblogs glog).fs q ≠ none) := by
  obtain ⟨a, b⟩ := groups_frame E dir (E.rangeOrder (groupByMonth E mblogs).groups)
    { fs := fs,
      stat := { Userid := userid, Fetched := mblogs.length, Skipped := 0,
                Failed := (groupByMonth E mblogs).failed, Archived := 0 },
      log := glog ++ (groupByMonth E mblogs).log } q
  refine ⟨fun h => a ?_, b⟩
  intro g hg
  obtain ⟨t, ht⟩ := group_key_month E mblogs g.1 g.2 ((hr _).subset hg)
  rw [← ht]
  exact h t

/-- Processing an account changes nothing but its directory, the missing
directories above it and its month files, and removes nothing. -/
theorem archiveUser_frame (E : Env) (hr : ∀ m, (E.rangeOrder m).Perm m) (dest : Str) (fs : FS)
    (userid : Str) (q : Str) :
    (q ≠ filepathJoin dest userid →
      ¬ (q ∈ parentDirs (filepathJoin dest userid) ∧ fs q = none) →
      (∀ t, q ≠ monthFile (filepathJoin dest userid) (E.formatMonth t)) →
      (archiveUser E dest fs userid).fs q = fs q) ∧
    (fs q ≠ none → (archiveUser E dest fs userid).fs q ≠ none) := by
  cases hpc : pageCount (osStat E fs (filepathJoin dest userid)) with
  | none =>
    rw [archiveUser_skip E dest fs userid hpc]
    exact ⟨fun _ _ _ => rfl, fun a => a⟩
  | some n =>
    cases hget : (get E userid n).1 with
    | none =>
      rw [archiveUser_get_none E dest fs userid n hpc hget]
      exact ⟨fun _ _ _ => rfl, fun a => a⟩
    | some mblogs =>
      cases hmk : osMkdirAll E fs (filepathJoin dest userid) with
      | none =>
        rw [archiveUser_mkdir_none E dest fs userid n mblogs hpc hget hmk]
        exact ⟨fun _ _ _ => rfl, fun a => a⟩
      | some fs1 =>
        rw [archiveUser_ok E dest fs fs1 userid n mblogs hpc hget hmk]
        obtain ⟨a, b⟩ := archiveFetched_frame E hr (filepathJoin dest userid) userid fs1 mblogs
          (get E userid n).2 q
        constructor
        · intro h1 h2 h3
          show (archiveFetched E (filepathJoin dest userid) userid fs1 mblogs (get E userid n).2).fs q
            = fs q
          rw [a h3]
          exact osMkdirAll_frame E fs fs1 _ hmk q h1 h2
        · intro h
          apply b
          rw [(osMkdirAll_some E fs fs1 _ hmk).2 q h]
          exact h

/-- The `Stat` an account records carries its identifier. -/
theorem archiveUser_stat_userid (E : Env) (hr : ∀ m, (E.rangeOrder m).Perm m) (dest : Str) (fs : FS)
    (userid : Str) (s : Stat) (h : (archiveUser E dest fs userid).stat = some s) :
    s.Userid = userid := by
  cases hpc : pageCount (osStat E fs (filepathJoin dest userid)) with
  | none =>
    rw [archiveUser_skip E dest fs userid hpc] at h
    exact absurd h (by simp)
  | some n =>
    cases hget : (get E userid n).1 with
    | none =>
      rw [archiveUser_get_none E dest fs userid n hpc hget] at h
      exact absurd h (by simp)
    | some mblogs =>
      cases hmk : osMkdirAll E fs (filepathJoin dest userid) with
      | none =>
        rw [archiveUser_mkdir_none E dest fs userid n mblogs hpc hget hmk] at h
        exact absurd h (by simp)
      | some fs1 =>
        rw [archiveUser_ok E dest fs fs1 userid n mblogs hpc hget hmk] at h
        simp only [Option.some.injEq] at h
        rw [← h]
        exact (archiveFetched_total E hr _ userid fs1 mblogs _).2.2

/-- Two file systems that agree on the directory of an account, on its month
files and on the directories above them give the account the same `Stat` and
the same log, and agree after it wherever they agreed before. -/
theorem archiveUser_local (E : Env) (hr : ∀ m, (E.rangeOrder m).Perm m) (dest : Str) (f g : FS)
    (userid : Str)
    (hd : ∀ q ∈ filepathJoin dest userid :: parentDirs (filepathJoin dest userid), f q = g q)
    (hm : ∀ t, ∀ q ∈ monthFile (filepathJoin dest userid) (E.formatMonth t) ::
      parentDirs (monthFile (filepathJoin dest userid) (E.formatMonth t)), f q = g q) :
    (archiveUser E dest f userid).stat = (archiveUser E dest g userid).stat ∧
    (archiveUser E dest f userid).log = (archiveUser E dest g userid).log ∧
    ∀ q, f q = g q → (archiveUser E dest f userid).fs q = (archiveUser E dest g userid).fs q := by
  have hst := osStat_local E f g _ hd
  cases hpc : pageCount (osStat E g (filepathJoin dest userid)) with
  | none =>
    rw [archiveUser_skip E dest g userid hpc, archiveUser_skip E dest f userid (hst ▸ hpc), hst]
    exact ⟨rfl, rfl, fun _ a => a⟩
  | some n =>
    have hpf : pageCount (osStat E f (filepathJoin dest userid)) = some n := hst ▸ hpc
    cases hget : (get E userid n).1 with
    | none =>
      rw [archiveUser_get_none E dest g userid n hpc hget,
        archiveUser_get_none E dest f userid n hpf hget]
      exact ⟨rfl, rfl, fun _ a => a⟩
    | some mblogs =>
      rcases osMkdirAll_local E f g _ hd with ⟨a, b⟩ | ⟨f1, g1, a, b, c⟩
      · rw [archiveUser_mkdir_none E dest g userid n mblogs hpc hget b,
          archiveUser_mkdir_none E dest f userid n mblogs hpf hget a]
        exact ⟨rfl, rfl, fun _ a => a⟩
      · rw [archiveUser_ok E dest g g1 userid n mblogs hpc hget b,
          archiveUser_ok E dest f f1 userid n mblogs hpf hget a]
        obtain ⟨x, y, z⟩ := groups_local E (filepathJoin dest userid)
          (E.rangeOrder (groupByMonth E mblogs).groups)
          { fs := f1,
            stat := { Userid := userid, Fetched := mblogs.length, Skipped := 0,
                      Failed := (groupByMonth E mblogs).failed, Archived := 0 },
            log := (get E userid n).2 ++ (groupByMonth E mblogs).log }
          { fs := g1,
            stat := { Userid := userid, Fetched := mblogs.length, Skipped := 0,
                      Failed := (groupByMonth E mblogs).failed, Archived := 0 },
            log := (get E userid n).2 ++ (groupByMonth E mblogs).log } rfl rfl
          (by
            intro gr hgr q hq
            obtain ⟨t, ht⟩ := group_key_month E mblogs gr.1 gr.2 ((hr _).subset hgr)
            rw [← ht] at hq
            exact c q (hm t q hq))
        unfold archiveFetched
        exact ⟨by rw [x], y, fun q hq => z q (c q hq)⟩

/-- The loop over the accounts, run with two fetchers that differ for account
`a` only, from two worlds that agree off the paths `a` may touch: the `Stat`s
of the other accounts come out the same, and the file systems still agree off
those paths. -/
theorem users_isolated (E : Env) (hr : ∀ m, (E.rangeOrder m).Perm m)
    (fetchA : Nat → Option (List Mblog)) (dest : Str) (fs0 : FS) (a : Str) (us : List Str)
    (w1 w2 : World)
    (hap : ∀ b ∈ us, b ≠ a → Apart E dest fs0 a b)
    (hstats : w1.stats.filter (fun s => decide (s.Userid ≠ a)) =
      w2.stats.filter (fun s => decide (s.Userid ≠ a)))
    (hfs : ∀ q, ¬ Touched E dest fs0 a q → w1.fs q = w2.fs q)
    (hk1 : ∀ q, fs0 q ≠ none → w1.fs q ≠ none)
    (hk2 : ∀ q, fs0 q ≠ none → w2.fs q ≠ none) :
    ((us.foldl (processUser E dest) w1).stats.filter (fun s => decide (s.Userid ≠ a)) =
      (us.foldl (processUser { E with fetch := fun u => if u = a then fetchA else E.fetch u } dest)
        w2).stats.filter (fun s => decide (s.Userid ≠ a))) ∧
    ∀ q, ¬ Touched E dest fs0 a q →
      (us.foldl (processUser E dest) w1).fs q =
        (us.foldl (processUser { E with fetch := fun u => if u = a then fetchA else E.fetch u }
          dest) w2).fs q := by
  induction us generalizing w1 w2 with
  | nil => exact ⟨hstats, hfs⟩
  | cons u rest ih =>
    simp only [List.foldl_cons]
    apply ih
    · exact fun b hb => hap b (List.mem_cons_of_mem _ hb)
    · by_cases hu : u = a
      · subst hu
        have h1 : (archiveUser E dest w1.fs u).stat.toList.filter
            (fun s => decide (s.Userid ≠ u)) = [] := by
          cases hs : (archiveUser E dest w1.fs u).stat with
          | none => rfl
          | some s => simp [archiveUser_stat_userid E hr dest w1.fs u s hs]
        have h2 : (archiveUser { E with fetch := fun v => if v = u then fetchA else E.fetch v }
            dest w2.fs u).stat.toList.filter (fun s => decide (s.Userid ≠ u)) = [] := by
          cases hs : (archiveUser { E with fetch := fun v => if v = u then fetchA else E.fetch v }
              dest w2.fs u).stat with
          | none => rfl
          | some s =>
            simp [archiveUser_stat_userid
              { E with fetch := fun v => if v = u then fetchA else E.fetch v } hr dest w2.fs u s hs]
        simp only [processUser, List.filter_append, h1, h2, List.append_nil]
        exact hstats
      · have hf := archiveUser_fetch E (fun v => if v = a then fetchA else E.fetch v) dest w2.fs u
          (fun p => by simp [hu])
        have hc := hap u (List.mem_cons_self _ _) hu
        obtain ⟨x, _, _⟩ := archiveUser_local E hr dest w1.fs w2.fs u
          (fun q hq => hfs q (hc q (Or.inl hq)))
          (fun t q hq => hfs q (hc q (Or.inr ⟨t, hq⟩)))
        simp only [processUser, List.filter_append, hf, x, hstats]
    · intro q hq
      by_cases hu : u = a
      · subst hu
        have n1 : q ≠ filepathJoin dest u := fun e => hq (Or.inl e)
        have n3 : ∀ t, q ≠ monthFile (filepathJoin dest u) (E.formatMonth t) :=
          fun t e => hq (Or.inr (Or.inr ⟨t, e⟩))
        have e1 := (archiveUser_frame E hr dest w1.fs u q).1 n1
          (fun h => hq (Or.inr (Or.inl ⟨h.1, by
            by_contra hne
            exact hk1 q hne h.2⟩))) n3
        have e2 := (archiveUser_frame { E with fetch := fun v => if v = u then fetchA else E.fetch v }
          hr dest w2.fs u q).1 n1
          (fun h => hq (Or.inr (Or.inl ⟨h.1, by
            by_contra hne
            exact hk2 q hne h.2⟩))) n3
        simp only [processUser]
        rw [e1, e2]
        exact hfs q hq
      · have hf := archiveUser_fetch E (fun v => if v = a then fetchA else E.fetch v) dest w2.fs u
          (fun p => by simp [hu])
        have hc := hap u (List.mem_cons_self _ _) hu
        obtain ⟨_, _, z⟩ := archiveUser_local E hr dest w1.fs w2.fs u
          (fun q hq => hfs q (hc q (Or.inl hq)))
          (fun t q hq => hfs q (hc q (Or.inr ⟨t, hq⟩)))
        simp only [processUser, hf]
        exact z q (hfs q hq)
    · intro q hq
      exact (archiveUser_frame E hr dest w1.fs u q).2 (hk1 q hq)
    · intro q hq
      exact (archiveUser_frame { E with fetch := fun v => if v = a then fetchA else E.fetch v }
        hr dest w2.fs u q).2 (hk2 q hq)

theorem sampleMonth_mem (t : Time) :
    sampleMonth t ∈ ["2023-01".toList, "2023-02".toList, []] := by
  unfold sampleMonth
  cases h : sampleClock.find? (fun e => e.2.1 = t) with
  | none => simp
  | some e =>
    have hall : ∀ e ∈ sampleClock, e.2.2 ∈ ["2023-01".toList, "2023-02".toList, []] := by decide
    exact hall e (List.mem_of_find?_eq_some h)

/-- The archives of the accounts `u1` and `u2` under the root `t` are apart. -/
theorem pair_apart :
    Apart (sampleEnv pairFetch) pairConfig.dest pairRoot "u1".toList "u2".toList := by
  intro q hc ht
  have key : ∀ q ∈ (filepathJoin pairConfig.dest "u2".toList ::
        parentDirs (filepathJoin pairConfig.dest "u2".toList)) ++
      ["2023-01".toList, "2023-02".toList, []].flatMap (fun d =>
        monthFile (filepathJoin pairConfig.dest "u2".toList) d ::
          parentDirs (monthFile (filepathJoin pairConfig.dest "u2".toList) d)),
      q ∉ (filepathJoin pairConfig.dest "u1".toList ::
        (parentDirs (filepathJoin pairConfig.dest "u1".toList)).filter
          (fun q => decide (pairRoot q = none))) ++
        ["2023-01".toList, "2023-02".toList, []].map
          (monthFile (filepathJoin pairConfig.dest "u1".toList)) := by
    decide
  apply key q
  · rcases hc with h | ⟨t, h⟩
    · exact List.mem_append_left _ h
    · apply List.mem_append_right
      rw [List.mem_flatMap]
      exact ⟨sampleMonth t, sampleMonth_mem t, h⟩
  · rcases ht with h | ⟨h, hn⟩ | ⟨t, h⟩
    · apply List.mem_append_left
      rw [h]
      exact List.mem_cons_self _ _
    · apply List.mem_append_left
      apply List.mem_cons_of_mem
      rw [List.mem_filter]
      exact ⟨h, by simp [hn]⟩
    · apply List.mem_append_right
      rw [List.mem_map]
      exact ⟨sampleMonth t, sampleMonth_mem t, h.symm⟩

/-! ### C16 -/

/-- C16, counterexample: the accounts `a/b` and `a` are distinct, and what the
run produces for `a` depends on the fetcher of `a/b`.  When the fetcher serves
`a/b`, the directory `t/a/b` is made, and `t/a` with it, so account `a` is
planned one page: one record fetched, one line in its month file.  When the
fetcher fails for `a/b`, the directory `t/a` is missing when `a` is processed,
so two pages are fetched: two records, two lines. -/
theorem nested_account_counterexample :
    "a/b".toList ≠ "a".toList ∧
    (main (sampleEnv innerFetch) innerFirstConfig emptyFS).map
        (fun w => (w.stats, w.fs "t/a/2023-01.txt".toList)) =
      some ([⟨"a/b".toList, 1, 0, 0, 1⟩, ⟨"a".toList, 1, 0, 0, 1⟩],
        some (.file "Mon Jan 02 15:04:05 +0800 2023|10|A|hello".toList)) ∧
    (main { sampleEnv innerFetch with
          fetch := fun u => if u = "a/b".toList then (fun _ => none) else innerFetch u }
        innerFirstConfig emptyFS).map
        (fun w => (w.stats, w.fs "t/a/2023-01.txt".toList)) =
      some ([⟨"a".toList, 2, 0, 0, 2⟩],
        some (.file
          "Mon Jan 02 15:04:05 +0800 2023|10|A|hello\nTue Jan 03 10:00:00 +0800 2023|12|C|a|b".toList)) := by
  decide

/-- C16 (as amended): let the archive of account `a` be apart from the archive
of every other account of the configuration: no path the driver looks at for
another account (its directory, its month files, the directories above them)
is a path it may create or write for `a`.  Then the run ends the same way
whatever the fetcher does for `a`: the `Stat`s of the other accounts are the
same, the file systems agree off the paths of `a`, and so the month files of
every other account are the same. -/
theorem account_isolation (E : Env) (hr : ∀ m, (E.rangeOrder m).Perm m)
    (fetchA : Nat → Option (List Mblog)) (config : Config) (fs fs0 : FS) (a : Str)
    (h0 : osMkdirAll E fs (filepathClean config.dest) = some fs0)
    (hap : ∀ b ∈ config.Userids, b ≠ a → Apart E config.dest fs0 a b) :
    ∃ w1 w2, main E config fs = some w1 ∧
      main { E with fetch := fun u => if u = a then fetchA else E.fetch u } config fs = some w2 ∧
      w1.stats.filter (fun s => decide (s.Userid ≠ a)) =
        w2.stats.filter (fun s => decide (s.Userid ≠ a)) ∧
      (∀ q, ¬ Touched E config.dest fs0 a q → w1.fs q = w2.fs q) ∧
      ∀ b ∈ config.Userids, b ≠ a → ∀ t,
        w1.fs (monthFile (filepathJoin config.dest b) (E.formatMonth t)) =
          w2.fs (monthFile (filepathJoin config.dest b) (E.formatMonth t)) := by
  have h0' : osMkdirAll { E with fetch := fun u => if u = a then fetchA else E.fetch u } fs
      (filepathClean config.dest) = some fs0 := h0
  obtain ⟨x, y⟩ := users_isolated E hr fetchA config.dest fs0 a config.Userids
    { fs := fs0, stats := [], log := [] } { fs := fs0, stats := [], log := [] } hap rfl
    (fun _ _ => rfl) (fun _ h => h) (fun _ h => h)
  refine ⟨_, _, by simp only [main, h0], by simp only [main, h0'], x, y, ?_⟩
  intro b hb hne t
  exact y _ (hap b hb hne _ (Or.inr ⟨t, List.mem_cons_self _ _⟩))

/-- Witness for C16: the accounts `u1` and `u2` over an empty tree, the
archive root being written `./t`: `os.MkdirAll` makes the directory `t`, the
fetcher serves `u1` in one run and fails for it in the other, and `u2` gets
the `Stat` `2/0/0/2` and the same month files in both. -/
theorem account_isolation_witness :
    osMkdirAll (sampleEnv pairFetch) emptyFS (filepathClean pairConfig.dest) = some pairRoot ∧
    (pairRoot "t".toList = some .dir ∧ pairRoot "./t".toList = none) ∧
    (∀ b ∈ pairConfig.Userids, b ≠ "u1".toList →
      Apart (sampleEnv pairFetch) pairConfig.dest pairRoot "u1".toList b) ∧
    (main (sampleEnv pairFetch) pairConfig emptyFS).map
        (fun w => (w.stats, w.fs "t/u2/2023-01.txt".toList, w.fs "t/u2/2023-02.txt".toList)) =
      some ([⟨"u1".toList, 2, 0, 0, 2⟩, ⟨"u2".toList, 2, 0, 0, 2⟩],
        some (.file "Tue Jan 31 23:00:00 +0800 2023|13|D|hello".toList),
        some (.file "Wed Feb 01 01:00:00 +0800 2023|11|B|line1\\nline2".toList)) ∧
    (main { sampleEnv pairFetch with
          fetch := fun u => if u = "u1".toList then (fun _ => none) else pairFetch u }
        pairConfig emptyFS).map
        (fun w => (w.stats, w.fs "t/u2/2023-01.txt".toList, w.fs "t/u2/2023-02.txt".toList)) =
      some ([⟨"u2".toList, 2, 0, 0, 2⟩],
        some (.file "Tue Jan 31 23:00:00 +0800 2023|13|D|hello".toList),
        some (.file "Wed Feb 01 01:00:00 +0800 2023|11|B|line1\\nline2".toList)) ∧
    ∃ w1 w2, main (sampleEnv pairFetch) pairConfig emptyFS = some w1 ∧
      main { sampleEnv pairFetch with
          fetch := fun u => if u = "u1".toList then (fun _ => none)
            else (sampleEnv pairFetch).fetch u } pairConfig emptyFS = some w2 ∧
      w1.stats.filter (fun s => decide (s.Userid ≠ "u1".toList)) =
        w2.stats.filter (fun s => decide (s.Userid ≠ "u1".toList)) ∧
      (∀ q, ¬ Touched (sampleEnv pairFetch) pairConfig.dest pairRoot "u1".toList q →
        w1.fs q = w2.fs q) ∧
      ∀ b ∈ pairConfig.Userids, b ≠ "u1".toList → ∀ t,
        w1.fs (monthFile (filepathJoin pairConfig.dest b) ((sampleEnv pairFetch).formatMonth t)) =
          w2.fs (monthFile (filepathJoin pairConfig.dest b)
            ((sampleEnv pairFetch).formatMonth t)) :=
  have h0 : osMkdirAll (sampleEnv pairFetch) emptyFS (filepathClean pairConfig.dest) =
      some pairRoot := getD_of_isSome _ emptyFS (by decide)
  have hap : ∀ b ∈ pairConfig.Userids, b ≠ "u1".toList →
      Apart (sampleEnv pairFetch) pairConfig.dest pairRoot "u1".toList b := by
    intro b hb hne
    have hb' : b = "u1".toList ∨ b = "u2".toList := by
      simpa [pairConfig] using hb
    rcases hb' with e | e
    · exact absurd e hne
    · rw [e]
      exact pair_apart
  ⟨h0, by decide, hap, by decide, by decide,
    account_isolation (sampleEnv pairFetch) (fun _ => List.Perm.refl _) (fun _ => none)
      pairConfig emptyFS pairRoot "u1".toList h0 hap⟩

end Archiver
